import Mathlib

/-!
Verification of the incremental tree-sequence traversal engine of
`msprime/trees.py` (class `TreeSequence` with its three consumer streams,
`NewickGenerator`, `HaplotypeGenerator`).

The Python code is shallowly embedded:

* Python `dict` objects become association lists (`PyD.Dict`) over `Nat`
  keys; `d[k] = v` is `PyD.set` (update in place or append, matching the
  insertion-order semantics of `dict`), `del d[k]` is `PyD.del` which
  returns `none` on a missing key (`KeyError`), and `len(d)` is list
  length (the operations never create duplicate keys).
* Generators become functions producing the list of yielded values,
  wrapped in `Option`/`Except` so that a run that would raise an uncaught
  exception (KeyError, IndexError, failed assert, unbound local) is
  `none` / `.error` and yields nothing beyond that point.
* Node times (C `double`) are modelled as rationals `Rat`; the fixed
  precision float formatting `"{0:.{1}f}".format` is modelled by
  `fmtFixed` (decimal rendering with round-half-even on the rational).
* The numpy pseudo-random generator is modelled as an oracle stream of
  naturals; a Poisson draw with mean `0` is `0` (the distribution's whole
  support), any other draw is read from the oracle.
-/

set_option maxHeartbeats 1000000

set_option allowUnsafeReducibility true

/- The Batteries rational arithmetic definitions are `@[irreducible]`,
which blocks `decide`-style evaluation of the embedded code on concrete
inputs; re-opening them only changes elaboration, not kernel checking. -/
attribute [local semireducible] Rat.add Rat.sub Rat.mul Rat.div Rat.neg Rat.inv

instance {e a : Type} [DecidableEq e] [DecidableEq a] : DecidableEq (Except e a) := fun x y =>
  match x, y with
  | .error u, .error v =>
    if h : u = v then .isTrue (by rw [h]) else .isFalse (by intro he; cases he; exact h rfl)
  | .ok u, .ok v =>
    if h : u = v then .isTrue (by rw [h]) else .isFalse (by intro he; cases he; exact h rfl)
  | .error _, .ok _ => .isFalse (by intro he; cases he)
  | .ok _, .error _ => .isFalse (by intro he; cases he)

namespace PyD

/-- A Python `dict` with `Nat` keys: an association list that never holds
the same key twice (all constructions below preserve this). -/
abbrev Dict (β : Type) : Type := List (Nat × β)

/-- `d[k]` lookup (first matching key). -/
def get? {β : Type} : Dict β → Nat → Option β
  | [], _ => none
  | (k2, v) :: t, k => if k2 = k then some v else get? t k

/-- `k in d`. -/
def contains {β : Type} (d : Dict β) (k : Nat) : Bool :=
  (get? d k).isSome

/-- `d[k] = v`: replace the value in place if the key is present,
append otherwise (Python dicts preserve insertion order). -/
def set {β : Type} : Dict β → Nat → β → Dict β
  | [], k, v => [(k, v)]
  | (k2, v2) :: t, k, v => if k2 = k then (k, v) :: t else (k2, v2) :: set t k v

/-- Remove the first entry with key `k`; total helper used by `del`. -/
def erase {β : Type} : Dict β → Nat → Dict β
  | [], _ => []
  | (k2, v2) :: t, k => if k2 = k then t else (k2, v2) :: erase t k

/-- `del d[k]`: `none` models the `KeyError` on a missing key. -/
def del {β : Type} (d : Dict β) (k : Nat) : Option (Dict β) :=
  if contains d k then some (erase d k) else none

/-- Termination lemma for the cache-invalidation climb. -/
theorem length_erase_of_contains {β : Type} (d : Dict β) (k : Nat)
    (h : contains d k = true) : (erase d k).length + 1 = d.length := by
  induction d with
  | nil => simp [contains, get?] at h
  | cons hd t ih =>
    obtain ⟨k2, v2⟩ := hd
    by_cases hk : k2 = k
    · simp [erase, hk]
    · simp only [contains, get?, if_neg hk] at h
      simp [erase, hk, ih h]

theorem length_erase_lt {β : Type} (d : Dict β) (k : Nat)
    (h : contains d k = true) : (erase d k).length < d.length := by
  have := length_erase_of_contains d k h
  omega

end PyD


/-! ## Fixed-precision decimal formatting

Models `"{0:.{1}f}".format(x, precision)` on times represented as
rationals: round `x * 10^prec` half-to-even, then render with the decimal
point re-inserted and the fraction zero-padded to `prec` digits. -/

/-- Round a rational to the nearest integer, ties to even
(the rounding used when formatting IEEE doubles). -/
def roundHalfEven (q : Rat) : Int :=
  let fl : Int := q.floor
  let frac : Rat := q - (fl : Rat)
  if frac < 1/2 then fl
  else if 1/2 < frac then fl + 1
  else if fl % 2 = 0 then fl else fl + 1

/-- Left-pad a digit string with zeros to the given width. -/
def padZeros (s : String) (w : Nat) : String :=
  if s.length < w then String.mk (List.replicate (w - s.length) '0') ++ s else s

/-- `"{0:.{1}f}".format(q, prec)` on a rational `q`. -/
def fmtFixed (q : Rat) (prec : Nat) : String :=
  let scaled : Int := roundHalfEven (q * ((10 : Rat) ^ prec))
  let sign : String := if scaled < 0 then "-" else ""
  let a : Nat := scaled.natAbs
  let ip : Nat := a / 10 ^ prec
  let fp : Nat := a % 10 ^ prec
  if prec = 0 then sign ++ toString ip
  else sign ++ toString ip ++ "." ++ padZeros (toString fp) prec

/-! ## Record store (`TreeSequence.__init__`, `load`, `records`)

A coalescence record `(left, right, children, parent, time)`; the five
aligned uint32/double arrays are modelled zipped into one list. -/

structure SRec where
  left : Nat
  right : Nat
  c1 : Nat
  c2 : Nat
  parent : Nat
  time : Rat
deriving DecidableEq

/-- Comparison by `left` used to model `np.argsort(self._left)` applied to
all five arrays.  (`np.argsort` is modelled as a sorting permutation on the
zipped records; no stability of the underlying numpy sort is asserted
anywhere below.) -/
def leftLE (a b : SRec) : Prop := a.left ≤ b.left

instance : DecidableRel leftLE := fun a b => Nat.decLe a.left b.left

instance : IsTotal SRec leftLE := ⟨fun a b => Nat.le_total a.left b.left⟩

instance : IsTrans SRec leftLE := ⟨fun _ _ _ h1 h2 => Nat.le_trans h1 h2⟩

/-- The tree sequence: breakpoints, records (in storage order), and the
`sample_size` / `num_loci` parameters. -/
structure TreeSeq where
  breakpoints : List Nat
  recs : List SRec
  sampleSize : Nat
  numLoci : Nat
deriving DecidableEq

/-- `TreeSequence.__init__`: records are sorted by `left` (via the argsort
permutation applied to all five arrays) only when `sort_records` is true. -/
def tsInit (breakpoints : List Nat) (recs : List SRec) (sampleSize numLoci : Nat)
    (sortRecords : Bool) : TreeSeq :=
  { breakpoints := breakpoints
    recs := if sortRecords then recs.insertionSort leftLE else recs
    sampleSize := sampleSize
    numLoci := numLoci }

/-- The persisted container (`breakpoints`, `records/left` ... `records/time`
datasets plus the two metadata attributes, which the core does not read). -/
structure TsContainer where
  breakpoints : List Nat
  recs : List SRec
  sampleSize : Nat
  numLoci : Nat
deriving DecidableEq

/-- `TreeSequence.dump`: writes the arrays exactly as stored. -/
def tsDump (ts : TreeSeq) : TsContainer :=
  ⟨ts.breakpoints, ts.recs, ts.sampleSize, ts.numLoci⟩

/-- `TreeSequence.load`: constructs a `TreeSequence` from the container's
arrays; the `sort_records` argument is not passed, so it defaults to false. -/
def tsLoad (c : TsContainer) : TreeSeq :=
  tsInit c.breakpoints c.recs c.sampleSize c.numLoci false

/-- `TreeSequence.records()`: iteration over the stored records in order. -/
def tsRecords (ts : TreeSeq) : List SRec := ts.recs

/-! ## `TreeSequence.sparse_trees`

The generator keeps two dict objects `pi` and `tau`, allocated once before
the loop and never rebound; every `yield l - last_l, pi, tau` passes those
same objects.  The embedding makes object identity explicit: `pi` lives at
address 0 and `tau` at address 1, each yield carries the addresses it
passed together with the dicts' contents at yield time, and the run also
returns the final state — what any retained reference observes once the
iterator has been advanced to exhaustion.

`live_segments` is a `heapq` min-heap of `(r, (children, parent))` tuples;
it is modelled as a list kept sorted by that lexicographic key, so that the
head is the heap minimum (entries with equal full keys are identical
tuples, so the order among them is immaterial). -/

structure HEntry where
  r : Nat
  c1 : Nat
  c2 : Nat
  parent : Nat
deriving DecidableEq

/-- Strict lexicographic order on `(r, (c1, c2), parent)`, the tuple
comparison `heapq` performs. -/
def hLT (a b : HEntry) : Bool :=
  a.r < b.r ∨ (a.r = b.r ∧ (a.c1 < b.c1 ∨ (a.c1 = b.c1 ∧
    (a.c2 < b.c2 ∨ (a.c2 = b.c2 ∧ a.parent < b.parent)))))

/-- Non-strict ordering by right endpoint, the sortedness the sweep needs. -/
def rLE (a b : HEntry) : Prop := a.r ≤ b.r

/-- `heapq.heappush`: ordered insertion into the sorted-list heap model. -/
def hpush : List HEntry → HEntry → List HEntry
  | [], e => [e]
  | x :: t, e => if hLT e x then e :: x :: t else x :: hpush t e

/-- The eviction loop `while live_segments[0][0] <= l: heappop(...)`:
returns the popped entries (in pop order) and the remaining heap; `none`
models the `IndexError` raised when the condition inspects an empty heap. -/
def sweep (l : Nat) : List HEntry → Option (List HEntry × List HEntry)
  | [] => none
  | e :: t =>
    if e.r ≤ l then (sweep l t).map (fun p => (e :: p.1, p.2))
    else some ([], e :: t)

/-- The dict deletions performed for each popped segment:
`for c in other_children: del pi[c]` and `del tau[p]`. -/
def applyEvict (pi : PyD.Dict Nat) (tau : PyD.Dict Rat) :
    List HEntry → Option (PyD.Dict Nat × PyD.Dict Rat)
  | [] => some (pi, tau)
  | e :: rest => do
    let pi1 ← PyD.del pi e.c1
    let pi2 ← PyD.del pi1 e.c2
    let tau1 ← PyD.del tau e.parent
    applyEvict pi2 tau1 rest

inductive SpErr where
  | heapEmpty
  | keyErr
deriving DecidableEq

/-- One yielded `(interval_length, pi, tau)` triple: the addresses of the
two dict objects passed out, plus their contents at the moment of yield. -/
structure SpYield where
  len : Nat
  piAddr : Nat
  tauAddr : Nat
  piSnap : PyD.Dict Nat
  tauSnap : PyD.Dict Rat
deriving DecidableEq

structure SpState where
  pi : PyD.Dict Nat
  tau : PyD.Dict Rat
  lastL : Nat
  curL : Nat
  heap : List HEntry
deriving DecidableEq

/-- Initial generator state: `pi = {}`,
`tau = {j: 0 for j in range(1, n + 1)}`, `l = last_l = 0`, empty heap. -/
def spInit (n : Nat) : SpState :=
  { pi := []
    tau := (List.range n).map (fun j => (j + 1, (0 : Rat)))
    lastL := 0
    curL := 0
    heap := [] }

/-- One iteration of the `for l, r, children, parent, t in self.records()`
loop body. -/
def spStep (st : SpState) (rec : SRec) : Except SpErr (List SpYield × SpState) :=
  let ys : List SpYield :=
    if st.lastL ≠ rec.left then
      [⟨rec.left - st.lastL, 0, 1, st.pi, st.tau⟩]
    else []
  let lastL2 := if st.lastL ≠ rec.left then rec.left else st.lastL
  let heap2 := hpush st.heap ⟨rec.right, rec.c1, rec.c2, rec.parent⟩
  match sweep rec.left heap2 with
  | none => .error .heapEmpty
  | some (ev, rest) =>
    match applyEvict st.pi st.tau ev with
    | none => .error .keyErr
    | some (pi2, tau2) =>
      .ok (ys,
        { pi := PyD.set (PyD.set pi2 rec.c1 rec.parent) rec.c2 rec.parent
          tau := PyD.set tau2 rec.parent rec.time
          lastL := lastL2
          curL := rec.left
          heap := rest })

/-- The record loop. -/
def spGo (st : SpState) : List SRec → Except SpErr (List SpYield × SpState)
  | [] => .ok ([], st)
  | rec :: rest =>
    match spStep st rec with
    | .error e => .error e
    | .ok (ys, st2) =>
      match spGo st2 rest with
      | .error e => .error e
      | .ok (ys2, fin) => .ok (ys ++ ys2, fin)

/-- `TreeSequence.sparse_trees()` run to exhaustion: all yields (including
the final `yield self.get_num_loci() - l, pi, tau`) plus the final state,
whose `pi`/`tau` are the contents of the objects at addresses 0 and 1 after
the generator finishes. -/
def spRun (ts : TreeSeq) : Except SpErr (List SpYield × SpState) :=
  match spGo (spInit ts.sampleSize) ts.recs with
  | .error e => .error e
  | .ok (ys, fin) =>
    .ok (ys ++ [⟨ts.numLoci - fin.curL, 0, 1, fin.pi, fin.tau⟩], fin)

/-! ## `TreeSequence._diffs` and `_diffs_with_breaks`

A diff record is the `(children, parent, time)` tuple placed in
`used_records`/`records_in`.  `used_records` is a
`collections.defaultdict(list)`: reading a missing key yields `[]` (and the
read in the `yield` line inserts the default before the following
`del used_records[left]`, so that `del` never raises). -/

structure DRec where
  c1 : Nat
  c2 : Nat
  parent : Nat
  time : Rat
deriving DecidableEq

/-- One `(length, records_out, records_in)` delta. -/
abbrev Diff : Type := Nat × List DRec × List DRec

/-- `defaultdict(list)` read. -/
def ddGet (d : PyD.Dict (List DRec)) (k : Nat) : List DRec :=
  (PyD.get? d k).getD []

/-- `used_records[r].append(rec)`. -/
def ddAppend (d : PyD.Dict (List DRec)) (k : Nat) (v : DRec) :
    PyD.Dict (List DRec) :=
  PyD.set d k (ddGet d k ++ [v])

/-- The `for l, r, c, parent, t in self.records()` loop of `_diffs`.
State: current `left`, `used_records`, `records_in`, and the loop variable
`r` (the right endpoint of the record processed last). -/
def dfGo (left : Nat) (used : PyD.Dict (List DRec)) (rin : List DRec)
    (r : Nat) : List SRec → List Diff × Nat × PyD.Dict (List DRec) × List DRec × Nat
  | [] => ([], left, used, rin, r)
  | x :: rest =>
    let d : DRec := ⟨x.c1, x.c2, x.parent, x.time⟩
    if x.left ≠ left then
      let y : Diff := (x.left - left, ddGet used left, rin)
      let used2 := PyD.erase used left
      let used3 := ddAppend used2 x.right d
      let (ys, fin) := dfGo x.left used3 [d] x.right rest
      (y :: ys, fin)
    else
      let used2 := ddAppend used x.right d
      let (ys, fin) := dfGo left used2 (rin ++ [d]) x.right rest
      (ys, fin)

/-- `TreeSequence._diffs()` run to exhaustion.  On an empty record list the
final `yield r - left, ...` reads the never-assigned loop variable `r`
(an `UnboundLocalError`), modelled as `none`. -/
def diffsRun (ts : TreeSeq) : Option (List Diff) :=
  match ts.recs with
  | [] => none
  | _ =>
    let (ys, left, used, rin, r) := dfGo 0 [] [] 0 ts.recs
    some (ys ++ [(r - left, ddGet used left, rin)])

/-- The inner `while self._breakpoints[k] != x: k += 1; yield ...` loop of
`_diffs_with_breaks`; `none` models the `IndexError` when `k` runs past the
end of the breakpoint array.  Recursion is on the distance to the end. -/
def dwbAdvance (b : List Nat) (x : Nat) (k : Nat) :
    Nat → Option (List Diff × Nat)
  | 0 => none
  | fuel + 1 =>
    match b.get? k with
    | none => none
    | some bk =>
      if bk ≠ x then
        let k2 := k + 1
        match b.get? k2, b.get? (k2 - 1) with
        | some bk2, some bk1 =>
          (dwbAdvance b x k2 fuel).map
            (fun p => ((bk2 - bk1, ([] : List DRec), ([] : List DRec)) :: p.1, p.2))
        | _, _ => none
      else
        some ([], k)

/-- The outer loop of `_diffs_with_breaks`. -/
def dwbGo (b : List Nat) : Nat → Nat → List Diff → Option (List Diff)
  | _, _, [] => some []
  | k, x, (len, ro, ri) :: rest => do
    let x2 := x + len
    let bk ← b.get? k
    let bk1 ← b.get? (k - 1)
    let y : Diff := (bk - bk1, ro, ri)
    let (ys, k2) ← dwbAdvance b x2 k (b.length + 1)
    let ys2 ← dwbGo b (k2 + 1) x2 rest
    some (y :: (ys ++ ys2))

/-- `TreeSequence._diffs_with_breaks()` run to exhaustion. -/
def diffsWithBreaksRun (ts : TreeSeq) : Option (List Diff) := do
  let ds ← diffsRun ts
  dwbGo ts.breakpoints 1 0 ds

/-! ## `NewickGenerator`

State dicts `children`, `branch_length`, `time`, `parent`, `subtree`.
Branch lengths and subtree strings are Lean `String`s (the numpy
byte-array concatenation builds exactly the concatenations below).
Failures of `next()` — KeyError, a failed `assert`, the root-following
loop not terminating, or the 2n-slot `nodes` array overflowing — are
`Except` errors. -/

structure NwState where
  children : PyD.Dict (Nat × Nat)
  branchLength : PyD.Dict String
  time : PyD.Dict Rat
  parent : PyD.Dict Nat
  subtree : PyD.Dict String
deriving DecidableEq

inductive NwErr where
  | keyErr
  | assertFail
  | rootLoop
  | nodesOverflow
  | diffErr
deriving DecidableEq

/-- `NewickGenerator.__init__` state: `time` holds the samples at 0.0,
everything else empty. -/
def nwInit (n : Nat) : NwState :=
  ⟨[], [], (List.range n).map (fun j => (j + 1, (0 : Rat))), [], []⟩

/-- `_propogate_subtree_loss`: climb from `node` deleting cached subtree
strings until an uncached node is reached; the climb follows `parent`
links, staying put when the current node has no parent (the loop then
exits because the node was just deleted).  The fuel only bounds the climb:
each iteration deletes one cache entry, so `sub.length + 1` never runs
out. -/
def propagate (par : PyD.Dict Nat) : Nat → PyD.Dict String → Nat →
    PyD.Dict String
  | 0, sub, _ => sub
  | fuel + 1, sub, k =>
    if PyD.contains sub k then
      match PyD.get? par k with
      | some p => propagate par fuel (PyD.erase sub k) p
      | none => PyD.erase sub k
    else sub

/-- Processing of one `records_out` entry in `next()`:
`del children[parent]; del time[parent]`, then for each child
propagate the subtree loss, `del parent[j]`, `del branch_length[j]`. -/
def applyOutRec (st : NwState) (d : DRec) : Option NwState := do
  let ch ← PyD.del st.children d.parent
  let tm ← PyD.del st.time d.parent
  let sub1 := propagate st.parent (st.subtree.length + 1) st.subtree d.c1
  let par1 ← PyD.del st.parent d.c1
  let bl1 ← PyD.del st.branchLength d.c1
  let sub2 := propagate par1 (sub1.length + 1) sub1 d.c2
  let par2 ← PyD.del par1 d.c2
  let bl2 ← PyD.del bl1 d.c2
  some ⟨ch, bl2, tm, par2, sub2⟩

/-- Processing of one `records_in` entry in `next()`:
`children[parent] = children`; for each child set `parent[j]` and
propagate the subtree loss; `time[parent] = time`. -/
def applyInRec (st : NwState) (d : DRec) : NwState :=
  let ch := PyD.set st.children d.parent (d.c1, d.c2)
  let par1 := PyD.set st.parent d.c1 d.parent
  let sub1 := propagate par1 (st.subtree.length + 1) st.subtree d.c1
  let par2 := PyD.set par1 d.c2 d.parent
  let sub2 := propagate par2 (sub1.length + 1) sub1 d.c2
  let tm := PyD.set st.time d.parent d.time
  ⟨ch, st.branchLength, tm, par2, sub2⟩

/-- The branch-length recomputation loop over `records_in`. -/
def applyBL (prec : Nat) (st : NwState) (d : DRec) : Option NwState := do
  let t1 ← PyD.get? st.time d.c1
  let bl1 := PyD.set st.branchLength d.c1 (fmtFixed (d.time - t1) prec)
  let t2 ← PyD.get? st.time d.c2
  let bl2 := PyD.set bl1 d.c2 (fmtFixed (d.time - t2) prec)
  some { st with branchLength := bl2 }

/-- `self._root = 1; while self._root in self._parent: ...`, with fuel;
running out of fuel models the loop not terminating on a cyclic map. -/
def findRoot (par : PyD.Dict Nat) : Nat → Nat → Option Nat
  | 0, _ => none
  | fuel + 1, k =>
    match PyD.get? par k with
    | none => some k
    | some p => findRoot par fuel p

/-- Phase 1 of `_update_subtrees`: the two-stack post-order collection.
Pops the stack (list head), skips cached nodes, records uncached ones into
`acc` (the `nodes` numpy array of size `2 * sample_size`; exceeding it is
an IndexError, modelled as `none`) and pushes their children.  The fuel
`6 * n + 2` passed by `nwNext` dominates the loop measure
`stack.length + 3 * (2 * n - acc.length)`, which shrinks every iteration,
so exhausted fuel also only happens past the array bound. -/
def nwCollect (n : Nat) (sub : PyD.Dict String) (ch : PyD.Dict (Nat × Nat)) :
    Nat → List Nat → List Nat → Option (List Nat)
  | _, [], acc => some acc
  | 0, _ :: _, _ => none
  | fuel + 1, v :: stack, acc =>
    if PyD.contains sub v then nwCollect n sub ch fuel stack acc
    else if 2 * n ≤ acc.length then none
    else
      match PyD.get? ch v with
      | some (a, b) => nwCollect n sub ch fuel (b :: a :: stack) (acc ++ [v])
      | none => nwCollect n sub ch fuel stack (acc ++ [v])

/-- Phase 2 of `_update_subtrees`: build one node's string.  Internal node:
`(s1,s2)` then `;` at the root or `:branch_length` elsewhere; leaf:
`str(node) + ":" + branch_length`. -/
def nwBuildOne (root : Nat) (ch : PyD.Dict (Nat × Nat))
    (blens : PyD.Dict String) (sub : PyD.Dict String) (v : Nat) :
    Option (PyD.Dict String) :=
  match PyD.get? ch v with
  | some (a, b) => do
    let s1 ← PyD.get? sub a
    let s2 ← PyD.get? sub b
    if v = root then
      some (PyD.set sub v ("(" ++ s1 ++ "," ++ s2 ++ ")" ++ ";"))
    else do
      let bl ← PyD.get? blens v
      some (PyD.set sub v ("(" ++ s1 ++ "," ++ s2 ++ ")" ++ ":" ++ bl))
  | none => do
    let bl ← PyD.get? blens v
    some (PyD.set sub v (toString v ++ ":" ++ bl))

/-- Phase 2 of `_update_subtrees` over `nodes[::-1]`. -/
def nwBuildAll (root : Nat) (ch : PyD.Dict (Nat × Nat))
    (blens : PyD.Dict String) : PyD.Dict String → List Nat →
    Option (PyD.Dict String)
  | sub, [] => some sub
  | sub, v :: rest => do
    let sub2 ← nwBuildOne root ch blens sub v
    nwBuildAll root ch blens sub2 rest

/-- Option-to-Except helper. -/
def orErr {α : Type} (e : NwErr) : Option α → Except NwErr α
  | none => .error e
  | some a => .ok a

/-- List fold over an `Option`-valued update. -/
def foldOpt {σ α : Type} (f : σ → α → Option σ) : σ → List α → Option σ
  | s, [] => some s
  | s, x :: rest => (f s x).bind (fun s2 => foldOpt f s2 rest)

/-- `NewickGenerator.next()` on one delta. -/
def nwNext (n prec : Nat) (st : NwState) (d : Diff) :
    Except NwErr ((Nat × String) × NwState) := do
  let (len, rout, rin) := d
  let st1 ← orErr .keyErr (foldOpt applyOutRec st rout)
  let st2 := rin.foldl applyInRec st1
  let st3 ← orErr .keyErr (foldOpt (applyBL prec) st2 rin)
  let root ← orErr .rootLoop (findRoot st3.parent (st3.parent.length + 1) 1)
  if st3.time.length = 2 * n - 1 ∧ st3.parent.length = 2 * n - 2 ∧
      st3.branchLength.length = 2 * n - 2 then
    let nodes ← orErr .nodesOverflow
      (nwCollect n st3.subtree st3.children (6 * n + 2) [root] [])
    let sub2 ← orErr .keyErr
      (nwBuildAll root st3.children st3.branchLength st3.subtree nodes.reverse)
    let out ← orErr .keyErr (PyD.get? sub2 root)
    .ok ((len, out), { st3 with subtree := sub2 })
  else
    .error .assertFail

/-- The iterator run over a list of deltas. -/
def nwRunGo (n prec : Nat) (st : NwState) :
    List Diff → Except NwErr (List (Nat × String))
  | [] => .ok []
  | d :: rest => do
    let (y, st2) ← nwNext n prec st d
    let ys ← nwRunGo n prec st2 rest
    .ok (y :: ys)

/-- `NewickGenerator` run over an explicit delta stream from the freshly
initialised state. -/
def nwRun (n prec : Nat) (ds : List Diff) : Except NwErr (List (Nat × String)) :=
  nwRunGo n prec (nwInit n) ds

/-! ## Naive Newick builder (specification side of the refinement claim)

Follows the spec's description of "the string a naive builder would
produce by a full post-order rebuild of the current tree with no cache":
recursively, an internal node renders as `"(" + left + "," + right + ")"`
followed by `";"` at the root (a node with no parent entry) and
`":" + branch_length` elsewhere; a leaf renders as
`"<node_id>:" + branch_length`.  Fuel bounds the recursion depth; on a
well-formed forest state `time.length + 1` is always enough. -/

def naiveStr (ch : PyD.Dict (Nat × Nat)) (blens : PyD.Dict String)
    (par : PyD.Dict Nat) : Nat → Nat → Option String
  | 0, _ => none
  | fuel + 1, v =>
    match PyD.get? ch v with
    | some (a, b) => do
      let s1 ← naiveStr ch blens par fuel a
      let s2 ← naiveStr ch blens par fuel b
      if PyD.contains par v then do
        let bl ← PyD.get? blens v
        some ("(" ++ s1 ++ "," ++ s2 ++ ")" ++ ":" ++ bl)
      else
        some ("(" ++ s1 ++ "," ++ s2 ++ ")" ++ ";")
    | none => do
      let bl ← PyD.get? blens v
      some (toString v ++ ":" ++ bl)

/-- The cache-free builder state: the same four forest maps, no `subtree`
dict. -/
structure NvState where
  children : PyD.Dict (Nat × Nat)
  branchLength : PyD.Dict String
  time : PyD.Dict Rat
  parent : PyD.Dict Nat
deriving DecidableEq

def nvInit (n : Nat) : NvState :=
  ⟨[], [], (List.range n).map (fun j => (j + 1, (0 : Rat))), []⟩

/-- Spec step 1 (retire `records_out`), without any cache. -/
def nvOutRec (st : NvState) (d : DRec) : Option NvState := do
  let ch ← PyD.del st.children d.parent
  let tm ← PyD.del st.time d.parent
  let par1 ← PyD.del st.parent d.c1
  let bl1 ← PyD.del st.branchLength d.c1
  let par2 ← PyD.del par1 d.c2
  let bl2 ← PyD.del bl1 d.c2
  some ⟨ch, bl2, tm, par2⟩

/-- Spec step 2 (apply `records_in`), without any cache. -/
def nvInRec (st : NvState) (d : DRec) : NvState :=
  { st with
      children := PyD.set st.children d.parent (d.c1, d.c2)
      parent := PyD.set (PyD.set st.parent d.c1 d.parent) d.c2 d.parent
      time := PyD.set st.time d.parent d.time }

/-- Spec step 3 (recompute branch lengths of the children introduced). -/
def nvBL (prec : Nat) (st : NvState) (d : DRec) : Option NvState := do
  let t1 ← PyD.get? st.time d.c1
  let bl1 := PyD.set st.branchLength d.c1 (fmtFixed (d.time - t1) prec)
  let t2 ← PyD.get? st.time d.c2
  let bl2 := PyD.set bl1 d.c2 (fmtFixed (d.time - t2) prec)
  some { st with branchLength := bl2 }

/-- The naive per-interval step: update the maps (spec steps 1–3), find the
root (step 4), check the coalescence invariant (step 5), then rebuild the
whole string from scratch (step 6, no cache). -/
def nvNext (n prec : Nat) (st : NvState) (d : Diff) :
    Except NwErr ((Nat × String) × NvState) := do
  let (len, rout, rin) := d
  let st1 ← orErr .keyErr (foldOpt nvOutRec st rout)
  let st2 := rin.foldl nvInRec st1
  let st3 ← orErr .keyErr (foldOpt (nvBL prec) st2 rin)
  let root ← orErr .rootLoop (findRoot st3.parent (st3.parent.length + 1) 1)
  if st3.time.length = 2 * n - 1 ∧ st3.parent.length = 2 * n - 2 ∧
      st3.branchLength.length = 2 * n - 2 then
    let out ← orErr .keyErr
      (naiveStr st3.children st3.branchLength st3.parent
        (st3.time.length + 1) root)
    .ok ((len, out), st3)
  else
    .error .assertFail

def nvRunGo (n prec : Nat) (st : NvState) :
    List Diff → Except NwErr (List (Nat × String))
  | [] => .ok []
  | d :: rest => do
    let (y, st2) ← nvNext n prec st d
    let ys ← nvRunGo n prec st2 rest
    .ok (y :: ys)

/-- The naive builder run over a delta stream. -/
def nvRun (n prec : Nat) (ds : List Diff) : Except NwErr (List (Nat × String)) :=
  nvRunGo n prec (nvInit n) ds

/-! ## `HaplotypeGenerator`

The seed handling of `__init__` is modelled separately (`hgSeedSetup`)
because it is the subject of its own claim: the fresh draw of
`random.randint(0, 2**31)` is an oracle argument, and the function returns
both the recorded `self._random_seed` and the argument actually passed to
`np.random.RandomState` (which the source passes as the constructor
parameter `random_seed`, not as the recorded value).

The haplotype matrix is a list of `sample_size` rows, each a list of
`_max_segregating_sites` characters.  The numpy RNG is an oracle stream
`Nat → Nat` consumed at an increasing counter; `poisson(0)` is `0`
(the whole support of a Poisson with mean zero), any other draw reads the
stream.  `np.random.choice(branches, num, p=probabilities)` is modelled by
reading `num` stream values and reducing them modulo the branch count
(which probabilistic weighting is applied is irrelevant to every claim
below; the weight array is still computed as the source does). -/

/-- Seed bookkeeping of `HaplotypeGenerator.__init__`: returns
`(self._random_seed, argument passed to np.random.RandomState)`.  The
source stores the fresh draw when no seed is given, but constructs
`np.random.RandomState(random_seed)` from the original parameter. -/
def hgSeedSetup (randomSeed : Option Nat) (freshDraw : Nat) :
    Nat × Option Nat :=
  let recorded := match randomSeed with
    | none => freshDraw
    | some s => s
  (recorded, randomSeed)

abbrev HMatrix : Type := List (List Char)

/-- `self._haplotype[row, col] = b"1"`, with numpy bounds semantics:
`none` on an out-of-range index. -/
def setCell (m : HMatrix) (row col : Nat) : Option HMatrix :=
  match m.get? row with
  | none => none
  | some r =>
    match r.get? col with
    | none => none
    | some _ => some (m.set row (r.set col '1'))

structure HGState where
  children : PyD.Dict (Nat × Nat)
  time : PyD.Dict Rat
  branchLength : PyD.Dict Rat
  totalBL : Rat
  numSeg : Nat
  maxSeg : Nat
  hap : HMatrix
deriving DecidableEq

/-- `__init__` state: `_max_segregating_sites = num_loci`, matrix filled
with `'0'`. -/
def hgInit (n numLoci : Nat) : HGState :=
  { children := []
    time := (List.range n).map (fun j => (j + 1, (0 : Rat)))
    branchLength := []
    totalBL := 0
    numSeg := 0
    maxSeg := numLoci
    hap := List.replicate n (List.replicate numLoci '0') }

/-- The stack descent of `_apply_rare_mutations` for one drawn branch:
pop `u`; if `u <= sample_size` write `'1'` at row `u - 1` (numpy index
`u - 1`, which for `u = 0` wraps to the last row `n - 1`) and column
`col`; otherwise push `children[u]` (`extend` appends the pair in order,
so the second child is popped first).  Fuel bounds the loop; exhaustion
models the non-terminating descent on a cyclic children map. -/
def mutDescend (n : Nat) (ch : PyD.Dict (Nat × Nat)) (col : Nat) :
    Nat → List Nat → HMatrix → Option HMatrix
  | _, [], m => some m
  | 0, _ :: _, _ => none
  | fuel + 1, u :: stack, m =>
    if u ≤ n then do
      let m2 ← setCell m (if u = 0 then n - 1 else u - 1) col
      mutDescend n ch col fuel stack m2
    else do
      let (a, b) ← PyD.get? ch u
      mutDescend n ch col fuel (b :: a :: stack) m

/-- `_apply_rare_mutations`: one descent per drawn branch, incrementing
`_num_segregating_sites` after each. -/
def applyRare (n : Nat) (ch : PyD.Dict (Nat × Nat)) :
    List Nat → Nat → HMatrix → Option (Nat × HMatrix)
  | [], numSeg, m => some (numSeg, m)
  | v :: rest, numSeg, m => do
    let m2 ← mutDescend n ch numSeg (2 * ch.length + 2) [v] m
    applyRare n ch rest (numSeg + 1) m2

/-- The growth step of `_apply_mutations`: when
`num_segregating_sites + len(branches) >= max_segregating_sites`, grow the
column capacity to `max(2 * k, new_s + 1)`, copy columns `0..k-1` and fill
the new columns with `'0'`. -/
def hgGrow (n : Nat) (branchCount : Nat) (numSeg maxSeg : Nat) (m : HMatrix) :
    Nat × HMatrix :=
  let newS := numSeg + branchCount
  if maxSeg ≤ newS then
    let k := maxSeg
    let maxSeg2 := max (2 * k) (newS + 1)
    (maxSeg2, m.map (fun row => row.take k ++ List.replicate (maxSeg2 - k) '0'))
  else (maxSeg, m)

/-- `_apply_mutations`: grow if needed, then apply the rare-mutation
algorithm. -/
def applyMutations (n : Nat) (ch : PyD.Dict (Nat × Nat)) (branches : List Nat)
    (numSeg maxSeg : Nat) (m : HMatrix) : Option (Nat × Nat × HMatrix) := do
  let (maxSeg2, m2) := hgGrow n branches.length numSeg maxSeg m
  let (numSeg2, m3) ← applyRare n ch branches numSeg m2
  some (numSeg2, maxSeg2, m3)

/-- Poisson draw: mean zero gives zero; otherwise the oracle value. -/
def oraclePoisson (oracle : Nat → Nat) (ctr : Nat) (mu : Rat) : Nat :=
  if mu = 0 then 0 else oracle ctr

/-- `np.random.choice(branches, num_mutations, p=probabilities)` modelled
through the oracle stream. -/
def oracleChoice (oracle : Nat → Nat) (ctr : Nat) (branches : List Nat)
    (num : Nat) : List Nat :=
  (List.range num).map
    (fun i => branches.getD (oracle (ctr + 1 + i) % branches.length) 0)

/-- One `records_out` entry of `_generate_haplotypes`: drop the parent's
children/time entries, subtract each child's branch length from the total
and drop it. -/
def hgOutRec (s : HGState) (x : DRec) : Option HGState := do
  let ch ← PyD.del s.children x.parent
  let tm ← PyD.del s.time x.parent
  let b1 ← PyD.get? s.branchLength x.c1
  let bl1 ← PyD.del s.branchLength x.c1
  let b2 ← PyD.get? bl1 x.c2
  let bl2 ← PyD.del bl1 x.c2
  some { s with children := ch, time := tm, branchLength := bl2,
                totalBL := s.totalBL - b1 - b2 }

/-- One `records_in` entry: set the parent's children/time entries. -/
def hgInRec (s : HGState) (x : DRec) : HGState :=
  { s with children := PyD.set s.children x.parent (x.c1, x.c2),
           time := PyD.set s.time x.parent x.time }

/-- Branch-length recomputation for one new record's children. -/
def hgBLRec (s : HGState) (x : DRec) : Option HGState := do
  let t1 ← PyD.get? s.time x.c1
  let t2 ← PyD.get? s.time x.c2
  let b1 := x.time - t1
  let b2 := x.time - t2
  some { s with
    branchLength := PyD.set (PyD.set s.branchLength x.c1 b1) x.c2 b2,
    totalBL := s.totalBL + b1 + b2 }

/-- One interval of `_generate_haplotypes`. -/
def hgStep (n numLoci : Nat) (rate : Rat) (oracle : Nat → Nat)
    (st : HGState) (ctr : Nat) (d : Diff) : Option (HGState × Nat) := do
  let (len, rout, rin) := d
  let st1 ← foldOpt hgOutRec st rout
  let st2 := rin.foldl hgInRec st1
  let st3 ← foldOpt hgBLRec st2 rin
  let mu : Rat := st3.totalBL * rate * (len : Rat) / (numLoci : Rat)
  let numMut := oraclePoisson oracle ctr mu
  if numMut > 0 then
    -- the branches / probabilities arrays are filled from
    -- branch_length.items()
    let branches := st3.branchLength.map Prod.fst
    let _probs := st3.branchLength.map (fun p => p.2 / st3.totalBL)
    let chosen := oracleChoice oracle ctr branches numMut
    let (numSeg2, maxSeg2, m2) ←
      applyMutations n st3.children chosen st3.numSeg st3.maxSeg st3.hap
    some ({ st3 with numSeg := numSeg2, maxSeg := maxSeg2, hap := m2 },
      ctr + 1 + numMut)
  else
    some (st3, ctr + 1)

/-- The `for length, records_out, records_in in self._tree_sequence.diffs()`
loop of `_generate_haplotypes`. -/
def hgGo (n numLoci : Nat) (rate : Rat) (oracle : Nat → Nat) :
    HGState → Nat → List Diff → Option HGState
  | st, _, [] => some st
  | st, ctr, d :: rest => do
    let (st2, ctr2) ← hgStep n numLoci rate oracle st ctr d
    hgGo n numLoci rate oracle st2 ctr2 rest

/-- `HaplotypeGenerator` construction and `_generate_haplotypes()` run. -/
def hgRun (ts : TreeSeq) (rate : Rat) (oracle : Nat → Nat) : Option HGState := do
  let ds ← diffsRun ts
  hgGo ts.sampleSize ts.numLoci rate oracle
    (hgInit ts.sampleSize ts.numLoci) 0 ds

/-- `haplotypes()`: each row truncated to the realized number of
segregating sites. -/
def hgHaplotypes (st : HGState) : List (List Char) :=
  st.hap.map (fun row => row.take st.numSeg)

/-- `haplotype_strings()`. -/
def hgHaplotypeStrings (st : HGState) : List String :=
  (hgHaplotypes st).map (fun row => String.mk row)

/-! ## Concrete example inputs used in counterexamples and witnesses -/

/-- Two records over `[0,5)` and `[5,10)`, sample size 2, 10 loci:
node 3 is the root on the first interval, node 4 on the second. -/
def exTs4 : TreeSeq :=
  ⟨[0, 5, 10], [⟨0, 5, 1, 2, 3, 1⟩, ⟨5, 10, 1, 2, 4, 2⟩], 2, 10⟩

/-- The first yield of `spRun exTs4`. -/
def exY40 : SpYield := ⟨5, 0, 1, [(1, 3), (2, 3)], [(1, 0), (2, 0), (3, 1)]⟩

/-- The second (final) yield of `spRun exTs4`. -/
def exY41 : SpYield := ⟨5, 0, 1, [(1, 4), (2, 4)], [(1, 0), (2, 0), (4, 2)]⟩

/-- The final generator state of `spRun exTs4`. -/
def exFin4 : SpState :=
  ⟨[(1, 4), (2, 4)], [(1, 0), (2, 0), (4, 2)], 5, 5, [⟨10, 1, 2, 4⟩]⟩

/-- A malformed sequence: one record closing at 3 while `num_loci = 10`,
so the last run's `right` does not match the expected closing boundary and
the record at exit locus 3 is still live when the records run out. -/
def exTs8 : TreeSeq := ⟨[0, 10], [⟨0, 3, 1, 2, 3, 1⟩], 2, 10⟩

/-- Records that are not sorted by `left`. -/
def exRecsU : List SRec := [⟨5, 6, 1, 2, 3, 1⟩, ⟨0, 3, 1, 2, 4, 1⟩]

/-- The delta stream of `exTs4` (both diff modes produce it). -/
def exDiffs4 : List Diff :=
  [(5, [], [⟨1, 2, 3, 1⟩]), (5, [⟨1, 2, 3, 1⟩], [⟨1, 2, 4, 2⟩])]

/-- Matrix cell read (`none` when out of range). -/
def cellAt (m : HMatrix) (row col : Nat) : Option Char :=
  (m.get? row).bind (fun r => r.get? col)

/-- The sample leaves in the subtree hanging below node `v` under the
children map `ch` (the claim's "sample leaves in the subtree rooted at v"):
a node of identifier at most `n` is itself a reached leaf, an internal node
reaches whatever either child reaches. -/
inductive MarkedBelow (ch : PyD.Dict (Nat × Nat)) (n : Nat) : Nat → Nat → Prop
  | leaf (v : Nat) : v ≤ n → MarkedBelow ch n v v
  | viaLeft (v a b w : Nat) : n < v → PyD.get? ch v = some (a, b) →
      MarkedBelow ch n a w → MarkedBelow ch n v w
  | viaRight (v a b w : Nat) : n < v → PyD.get? ch v = some (a, b) →
      MarkedBelow ch n b w → MarkedBelow ch n v w

/-! ## Validity of a coalescent record sequence (used by C3)

`liveAt recs b` is the set of records whose interval covers locus `b`;
a valid fully-coalesced sequence has, at every left boundary, exactly
`sample_size - 1` live records forming a binary forest layer: pairwise
distinct children entries, pairwise distinct parents, parents above the
sample range. -/

/-- The heap entry `(r, (children, parent))` pushed for a record. -/
def toEntry (x : SRec) : HEntry := ⟨x.right, x.c1, x.c2, x.parent⟩

/-- The `pi` contents contributed by a list of live records. -/
def piShape (live : List SRec) : PyD.Dict Nat :=
  live.bind (fun x => [(x.c1, x.parent), (x.c2, x.parent)])

/-- The `tau` contents: the samples at time 0 plus one entry per live
record's parent. -/
def tauShape (n : Nat) (live : List SRec) : PyD.Dict Rat :=
  (List.range n).map (fun j => (j + 1, (0 : Rat))) ++
    live.map (fun x => (x.parent, x.time))

/-- Records covering locus `b`. -/
def liveAt (recs : List SRec) (b : Nat) : List SRec :=
  recs.filter (fun x => x.left ≤ b && b < x.right)

/-- Executable no-duplicates check. -/
def nodupB : List Nat → Bool
  | [] => true
  | x :: t => t.all (fun y => !(y = x : Bool)) && nodupB t

/-- The forest-layer shape at one boundary. -/
def boundaryOK (n : Nat) (recs : List SRec) (b : Nat) : Bool :=
  let lv := liveAt recs b
  (lv.length = n - 1 : Bool) &&
  nodupB (lv.bind (fun x => [x.c1, x.c2])) &&
  nodupB (lv.map SRec.parent) &&
  lv.all (fun x => n < x.parent)

/-- Executable check that the lefts ascend. -/
def sortedLeftsB : List SRec → Bool
  | [] => true
  | [_] => true
  | x :: y :: t => (x.left ≤ y.left : Bool) && sortedLeftsB (y :: t)

/-- A valid fully-coalesced record sequence: nonempty, lefts ascending
from 0, every interval nonempty, and a proper forest layer at every left
boundary. -/
def validCoal (ts : TreeSeq) : Bool :=
  (match ts.recs with
   | [] => false
   | x :: _ => (x.left = 0 : Bool)) &&
  sortedLeftsB ts.recs &&
  ts.recs.all (fun x => x.left < x.right) &&
  (ts.recs.map SRec.left).all (fun b => boundaryOK ts.sampleSize ts.recs b)

/-- The forest-layer conditions as a proposition. -/
def KidsOK (n : Nat) (live : List SRec) : Prop :=
  (live.bind (fun x => [x.c1, x.c2])).Nodup ∧
  (live.map SRec.parent).Nodup ∧ ∀ x ∈ live, n < x.parent

/-- The loop invariant of the sparse-tree materializer after a processed
record prefix `P`: the two dicts and the heap hold exactly the
contributions of the records of `P` still alive past the current left
boundary, the heap is sorted, the processed lefts are all behind the
boundary, and the boundary itself is a processed left (or `0` at start). -/
def SpInv (n : Nat) (P : List SRec) (st : SpState) : Prop :=
  st.lastL = st.curL ∧
  st.pi.Perm (piShape (P.filter (fun y => st.curL < y.right))) ∧
  st.tau.Perm (tauShape n (P.filter (fun y => st.curL < y.right))) ∧
  st.heap.Perm ((P.filter (fun y => st.curL < y.right)).map toEntry) ∧
  st.heap.Pairwise rLE ∧
  (∀ y ∈ P, y.left ≤ st.curL) ∧
  KidsOK n (P.filter (fun y => st.curL < y.right)) ∧
  (st.curL ∈ P.map SRec.left ∨ (P = [] ∧ st.curL = 0))

/-- A fully-coalesced two-interval sequence on three samples. -/
def exTs3 : TreeSeq :=
  ⟨[0, 4, 10],
   [⟨0, 4, 1, 2, 4, 1⟩, ⟨0, 4, 4, 3, 5, 2⟩,
    ⟨4, 10, 1, 2, 6, 3⟩, ⟨4, 10, 6, 3, 7, 4⟩], 3, 10⟩

/-! ## Validity of a delta stream, and the cache-coherence invariant

`spec.md` states the Newick builder's cache-validity invariant (§4.3) and
claims the cached rebuild agrees with a naive full rebuild on every valid
diff stream.  `streamOK` is the executable validity check used to
formalise "valid diff stream": it replays the stream on the cache-free
state and checks, at each point where the proof needs it, the structural
facts that hold for every delta stream produced from a well-formed tree
sequence (duplicate-free dict keys, mutual consistency of `children` and
`parent`, membership of all nodes in `time`, fresh incoming parents,
parentless incoming children, retired records matching their `children`
entry, and terminating parent climbs). -/

/-- Forget the cache: the four forest maps of a `NewickGenerator` state. -/
def nwProj (st : NwState) : NvState :=
  ⟨st.children, st.branchLength, st.time, st.parent⟩

/-- Reachability along `children` edges (the node set a subtree string
depends on). -/
inductive Reach (ch : PyD.Dict (Nat × Nat)) : Nat → Nat → Prop where
  | refl (v : Nat) : Reach ch v v
  | left {v a b u : Nat} : PyD.get? ch v = some (a, b) → Reach ch a u →
      Reach ch v u
  | right {v a b u : Nat} : PyD.get? ch v = some (a, b) → Reach ch b u →
      Reach ch v u

/-- A parent-link climb from `k` to `v`. -/
inductive UpChainBare (par : PyD.Dict Nat) : Nat → Nat → Prop where
  | here (k : Nat) : UpChainBare par k k
  | up {k p v : Nat} : PyD.get? par k = some p → UpChainBare par p v →
      UpChainBare par k v

/-- A parent-link climb from `k` to `v` through cached nodes only. -/
inductive UpChainCached (par : PyD.Dict Nat) (sub : PyD.Dict String) :
    Nat → Nat → Prop where
  | here {k : Nat} : PyD.contains sub k = true → UpChainCached par sub k k
  | up {k p v : Nat} : PyD.contains sub k = true → PyD.get? par k = some p →
      UpChainCached par sub p v → UpChainCached par sub k v

/-- The exact list of cache entries `_propogate_subtree_loss` deletes:
the maximal cached parent-chain from `k`. -/
def cachedChain (par : PyD.Dict Nat) : Nat → PyD.Dict String → Nat → List Nat
  | 0, _, _ => []
  | fuel + 1, sub, k =>
    if PyD.contains sub k then
      k :: (match PyD.get? par k with
            | some p => cachedChain par fuel (PyD.erase sub k) p
            | none => [])
    else []

/-- Key uniqueness and `children`/`parent` mutual consistency, the part of
well-formedness that holds at every point between two record
applications. -/
def wfMidB (st : NvState) : Bool :=
  nodupB (st.children.map Prod.fst) && nodupB (st.branchLength.map Prod.fst) &&
  nodupB (st.time.map Prod.fst) && nodupB (st.parent.map Prod.fst) &&
  st.children.all (fun e =>
    (PyD.get? st.parent e.2.1 = some e.1 : Bool) &&
    (PyD.get? st.parent e.2.2 = some e.1 : Bool) && !(e.2.1 = e.2.2 : Bool)) &&
  st.parent.all (fun e =>
    match PyD.get? st.children e.2 with
    | some (a, b) => (e.1 = a : Bool) || (e.1 = b : Bool)
    | none => false)

/-- Per-`records_out` conditions: the retired record matches the live
`children` entry and both children have terminating parent climbs. -/
def outRecB (st : NvState) (d : DRec) : Bool :=
  (PyD.get? st.children d.parent = some (d.c1, d.c2) : Bool) &&
  (findRoot st.parent (st.parent.length + 1) d.c1).isSome &&
  (findRoot st.parent (st.parent.length + 1) d.c2).isSome

/-- Per-`records_in` conditions: the incoming parent is a fresh node and
the two distinct children are currently parentless roots. -/
def inRecB (st : NvState) (d : DRec) : Bool :=
  !PyD.contains st.time d.parent && !PyD.contains st.parent d.parent &&
  !PyD.contains st.children d.parent &&
  !PyD.contains st.parent d.c1 && !PyD.contains st.parent d.c2 &&
  !(d.c1 = d.c2 : Bool) &&
  PyD.contains st.time d.c1 && PyD.contains st.time d.c2

/-- Full interval-boundary well-formedness: additionally every node with a
parent has a branch length and a time, every `children` family is inside
`time`, and the sample node `1` exists. -/
def wfB (st : NvState) : Bool :=
  wfMidB st &&
  st.parent.all (fun e =>
    PyD.contains st.branchLength e.1 && PyD.contains st.time e.1) &&
  st.children.all (fun e =>
    PyD.contains st.time e.1 && PyD.contains st.time e.2.1 &&
      PyD.contains st.time e.2.2) &&
  PyD.contains st.time 1

def nvChkOut : NvState → List DRec → Bool
  | _, [] => true
  | st, d :: rest =>
    wfMidB st && outRecB st d &&
    (match nvOutRec st d with
     | none => false
     | some st2 => nvChkOut st2 rest)

def nvChkIn : NvState → List DRec → Bool
  | _, [] => true
  | st, d :: rest =>
    wfMidB st && inRecB st d && nvChkIn (nvInRec st d) rest

/-- The executable validity check of a delta stream, replayed on the
cache-free state. -/
def streamOK (n prec : Nat) : NvState → List Diff → Bool
  | _, [] => true
  | st, d :: rest =>
    nvChkOut st d.2.1 &&
    (match foldOpt nvOutRec st d.2.1 with
     | none => false
     | some st1 =>
       nvChkIn st1 d.2.2 &&
       (match nvNext n prec st d with
        | .error _ => false
        | .ok (_, st4) => wfB st4 && streamOK n prec st4 rest))

/-- The §4.3 invariant: every cached subtree string is closed under
children, belongs to the current forest, and equals the string the naive
builder computes for that node (with enough fuel). -/
def Coherent (st : NwState) : Prop :=
  (∀ v a b, PyD.contains st.subtree v = true →
    PyD.get? st.children v = some (a, b) →
    PyD.contains st.subtree a = true ∧ PyD.contains st.subtree b = true) ∧
  (∀ v, PyD.contains st.subtree v = true → PyD.contains st.time v = true) ∧
  (∀ v s, PyD.get? st.subtree v = some s →
    ∃ F, naiveStr st.children st.branchLength st.parent F v = some s)

/-! # Theorems

Basic lemmas about the dict model, then the per-claim developments. -/

namespace PyD

@[simp] theorem get?_nil {β : Type} (k : Nat) : get? ([] : Dict β) k = none := rfl

theorem get?_cons {β : Type} (k2 : Nat) (v : β) (t : Dict β) (k : Nat) :
    get? ((k2, v) :: t) k = if k2 = k then some v else get? t k := rfl

@[simp] theorem get?_set_self {β : Type} (d : Dict β) (k : Nat) (v : β) :
    get? (set d k v) k = some v := by
  induction d with
  | nil => simp [set, get?]
  | cons h t ih =>
    obtain ⟨k2, v2⟩ := h
    by_cases hk : k2 = k
    · simp [set, hk, get?]
    · simp [set, hk, get?, ih]

theorem get?_set_ne {β : Type} (d : Dict β) (k k2 : Nat) (v : β) (h : k ≠ k2) :
    get? (set d k v) k2 = get? d k2 := by
  induction d with
  | nil => simp [set, get?, h]
  | cons hd t ih =>
    obtain ⟨k3, v3⟩ := hd
    by_cases hk : k3 = k
    · subst hk; simp [set, get?, h]
    · simp only [set, if_neg hk, get?]
      by_cases hk2 : k3 = k2
      · simp [hk2]
      · simp [hk2, ih]

theorem mem_keys_iff_get {β : Type} (d : Dict β) (k : Nat) :
    k ∈ d.map Prod.fst ↔ (get? d k).isSome := by
  induction d with
  | nil => simp
  | cons hd t ih =>
    obtain ⟨k2, v2⟩ := hd
    by_cases hk : k2 = k
    · subst hk; simp [get?]
    · simp only [List.map_cons, List.mem_cons, get?, if_neg hk]
      constructor
      · rintro (h | h)
        · exact absurd h.symm hk
        · exact ih.mp h
      · intro h; exact Or.inr (ih.mpr h)

theorem get?_eq_none_of_not_mem {β : Type} (d : Dict β) (k : Nat)
    (h : k ∉ d.map Prod.fst) : get? d k = none := by
  cases hg : get? d k with
  | none => rfl
  | some v =>
    exact absurd ((mem_keys_iff_get d k).mpr (by simp [hg])) h

theorem get?_erase_self {β : Type} (d : Dict β) (k : Nat)
    (hnd : (d.map Prod.fst).Nodup) : get? (erase d k) k = none := by
  induction d with
  | nil => simp [erase]
  | cons hd t ih =>
    obtain ⟨k2, v2⟩ := hd
    simp only [List.map_cons, List.nodup_cons] at hnd
    by_cases hk : k2 = k
    · subst hk
      simp only [erase, if_pos rfl]
      exact get?_eq_none_of_not_mem t k2 hnd.1
    · simp [erase, hk, get?, ih hnd.2]

theorem get?_erase_ne {β : Type} (d : Dict β) (k k2 : Nat) (h : k ≠ k2) :
    get? (erase d k) k2 = get? d k2 := by
  induction d with
  | nil => simp [erase]
  | cons hd t ih =>
    obtain ⟨k3, v3⟩ := hd
    by_cases hk : k3 = k
    · subst hk; simp [erase, get?, h]
    · simp only [erase, if_neg hk, get?]
      by_cases hk2 : k3 = k2 <;> simp [hk2, ih]

theorem length_set {β : Type} (d : Dict β) (k : Nat) (v : β) :
    (set d k v).length = if contains d k then d.length else d.length + 1 := by
  induction d with
  | nil => simp [set, contains, get?]
  | cons hd t ih =>
    obtain ⟨k2, v2⟩ := hd
    by_cases hk : k2 = k
    · simp [set, hk, contains, get?]
    · simp only [set, if_neg hk, List.length_cons, contains, get?, ih]
      by_cases hc : contains t k
      · simp [contains] at hc
        simp [hk, hc]
      · simp [contains] at hc
        simp [hk, hc]

/-- Fresh-key insertion appends at the end. -/
theorem set_eq_append {β : Type} (d : Dict β) (k : Nat) (v : β)
    (h : contains d k = false) : set d k v = d ++ [(k, v)] := by
  induction d with
  | nil => simp [set]
  | cons hd t ih =>
    obtain ⟨k2, v2⟩ := hd
    simp only [contains, get?] at h
    by_cases hk : k2 = k
    · simp [hk] at h
    · simp only [contains, if_neg hk] at h
      simp [set, hk, ih h]

theorem contains_set {β : Type} (d : Dict β) (k k2 : Nat) (v : β) :
    contains (set d k v) k2 = (k = k2 || contains d k2) := by
  by_cases h : k = k2
  · subst h; simp [contains, get?_set_self]
  · simp [contains, get?_set_ne d k k2 v h, h]

theorem keys_set_of_contains {β : Type} (d : Dict β) (k : Nat) (v : β)
    (h : contains d k = true) : (set d k v).map Prod.fst = d.map Prod.fst := by
  induction d with
  | nil => simp [contains, get?] at h
  | cons hd t ih =>
    obtain ⟨k2, v2⟩ := hd
    by_cases hk : k2 = k
    · simp [set, hk]
    · simp only [contains, get?, if_neg hk] at h
      simp [set, hk, ih h]

theorem keys_nodup_set {β : Type} (d : Dict β) (k : Nat) (v : β)
    (h : (d.map Prod.fst).Nodup) : ((set d k v).map Prod.fst).Nodup := by
  by_cases hc : contains d k
  · rw [keys_set_of_contains d k v hc]; exact h
  · rw [set_eq_append d k v (by simp_all)]
    simp only [List.map_append, List.map_cons, List.map_nil]
    rw [List.nodup_append]
    refine ⟨h, List.nodup_singleton _, ?_⟩
    intro a ha hb
    simp only [List.mem_singleton] at hb
    subst hb
    simp only [contains] at hc
    have := (mem_keys_iff_get d a).mp ha
    simp [this] at hc

theorem erase_subset_dict {β : Type} (d : Dict β) (k : Nat) : erase d k ⊆ d := by
  induction d with
  | nil => simp [erase]
  | cons hd t ih =>
    obtain ⟨k2, v2⟩ := hd
    by_cases hk : k2 = k
    · simp only [erase, if_pos hk]
      exact fun a ha => List.mem_cons_of_mem _ ha
    · simp only [erase, if_neg hk]
      intro a ha
      rcases List.mem_cons.mp ha with h | h
      · simp [h]
      · exact List.mem_cons_of_mem _ (ih h)

theorem keys_nodup_erase {β : Type} (d : Dict β) (k : Nat)
    (h : (d.map Prod.fst).Nodup) : ((erase d k).map Prod.fst).Nodup := by
  induction d with
  | nil => simp [erase]
  | cons hd t ih =>
    obtain ⟨k2, v2⟩ := hd
    simp only [List.map_cons, List.nodup_cons] at h
    by_cases hk : k2 = k
    · simp [erase, hk, h.2]
    · simp only [erase, if_neg hk, List.map_cons, List.nodup_cons]
      refine ⟨fun hm => ?_, ih h.2⟩
      have : k2 ∈ t.map Prod.fst := by
        simp only [List.mem_map] at hm ⊢
        obtain ⟨p, hp, he⟩ := hm
        exact ⟨p, erase_subset_dict t k hp, he⟩
      exact h.1 this

end PyD

/-! ## C7 — seed handling of `HaplotypeGenerator.__init__` -/

/-- C7: the claim says the pseudo-random generator is seeded exactly once
with the seed the instance records.  The code records the fresh draw in
`self._random_seed` but passes the original constructor parameter to
`np.random.RandomState`; with no explicit seed the recorded value is the
fresh draw (here 42) while the generator is seeded from `None` (operating
system entropy), so a second instance constructed with the recorded seed
need not reproduce the haplotype matrix.  With an explicit seed the
parameter and the recorded value coincide. -/
theorem claim7_seed_divergence :
    hgSeedSetup (some 9) 0 = (9, some 9) ∧
    hgSeedSetup none 42 = (42, none) ∧
    (hgSeedSetup none 42).2 ≠ some (hgSeedSetup none 42).1 := by
  refine ⟨rfl, rfl, ?_⟩
  intro h
  simp [hgSeedSetup] at h

/-! ## C8 — `_diffs` does not validate its input -/

/-- C8 counterexample: on `exTs8` the right value of the (only and last)
record in the run is 3, not the closing boundary 10, and that record's
exit locus is never reached, i.e. a live edge is outstanding when the
records are exhausted; the claim says the diff engine must fail without
yielding, but `_diffs` yields a normal `(3, [], [record])` delta and
raises nothing. -/
theorem claim8_counterexample :
    diffsRun exTs8 = some [(3, [], [⟨1, 2, 3, 1⟩])] ∧
    (3 : Nat) ≠ exTs8.numLoci := by
  exact ⟨by decide, by decide⟩

/-- C8 amended: `_diffs` performs no closing-boundary or
unterminated-ancestry validation at all.  For every nonempty record list
it runs to completion and yields a final
`(r - left, used_records[left], records_in)` tuple, the mismatched or
still-live records being silently dropped; the only failing input is an
empty record list, where the final yield reads the never-assigned loop
variable `r`. -/
theorem claim8_amended (ts : TreeSeq) (h : ts.recs ≠ []) :
    (diffsRun ts).isSome ∧ (diffsRun ⟨ts.breakpoints, [], ts.sampleSize, ts.numLoci⟩) = none := by
  constructor
  · unfold diffsRun
    cases hr : ts.recs with
    | nil => exact absurd hr h
    | cons a t => simp
  · rfl

/-- C8 amended witness at `exTs8`. -/
theorem claim8_amended_witness :
    ([⟨0, 3, 1, 2, 3, 1⟩] : List SRec) ≠ [] ∧
    (diffsRun exTs8).isSome ∧
    (diffsRun ⟨exTs8.breakpoints, [], exTs8.sampleSize, exTs8.numLoci⟩) = none :=
  ⟨by decide, claim8_amended exTs8 (by decide)⟩

/-! ## C9 — record ordering on construction and load -/

/-- C9 counterexample: constructing from raw unsorted arrays without the
`sort_records` flag (exactly what `load` does) leaves the records
unsorted, so iteration via `records()` visits lefts `[5, 0]`, which is
not ascending; dumping and loading preserves that unsorted order. -/
theorem claim9_counterexample :
    (tsRecords (tsLoad (tsDump (tsInit [0] exRecsU 2 6 false)))).map SRec.left
      = [5, 0] ∧
    ¬ List.Sorted (· ≤ ·)
      ((tsRecords (tsLoad (tsDump (tsInit [0] exRecsU 2 6 false)))).map SRec.left) := by
  constructor
  · decide
  · intro hs
    have h1 := List.rel_of_sorted_cons (by
      have : (tsRecords (tsLoad (tsDump (tsInit [0] exRecsU 2 6 false)))).map SRec.left
          = [5, 0] := by decide
      rw [this] at hs
      exact hs) 0 (by decide)
    omega

/-- C9 amended: the constructor normalizes to ascending `left` order only
when `sort_records` is passed as true (the five arrays are permuted
together by the sorting permutation, with no stability guarantee taken
from `np.argsort`); `load` does not sort — it constructs with the default
`sort_records=False`, so it preserves the container's stored order —
and `dump` writes the arrays as stored.  Hence `records()` is ascending
by `left` exactly when the source order was already ascending or the
sequence was built with `sort_records=True`. -/
theorem claim9_amended :
    (∀ bp recs n m, List.Sorted (· ≤ ·)
        ((tsInit bp recs n m true).recs.map SRec.left) ∧
      (tsInit bp recs n m true).recs.Perm recs) ∧
    (∀ c, tsRecords (tsLoad c) = c.recs) ∧
    (∀ ts, (tsDump ts).recs = ts.recs) := by
  refine ⟨fun bp recs n m => ⟨?_, ?_⟩, fun c => rfl, fun ts => rfl⟩
  · have hs : List.Sorted leftLE (recs.insertionSort leftLE) :=
      List.sorted_insertionSort leftLE recs
    simpa [tsInit] using
      List.Pairwise.map SRec.left (fun a b (hab : leftLE a b) => hab) hs
  · simpa [tsInit] using List.perm_insertionSort leftLE recs

/-! ## C4 — yielded sparse-tree snapshots are aliases, not copies -/

/-- C4 counterexample: running `sparse_trees` on `exTs4`, both yields pass
the same `pi`/`tau` objects (addresses 0 and 1); after merely advancing
the iterator to exhaustion the contents of the object passed in the first
yield are the final contents `{1: 4, 2: 4}`, no longer the
`{1: 3, 2: 3}` it held when yielded, so a previously yielded snapshot is
changed by advancing the iterator. -/
theorem claim4_counterexample :
    spRun exTs4 = .ok ([exY40, exY41], exFin4) ∧
    exY40.piAddr = exY41.piAddr ∧ exY40.tauAddr = exY41.tauAddr ∧
    exY40.piSnap ≠ exY41.piSnap ∧
    exY40.piSnap ≠ exFin4.pi := by
  refine ⟨by decide, rfl, rfl, by decide, by decide⟩

/-- Every yield a single `spStep` produces carries addresses 0 and 1. -/
theorem spStep_addrs (st : SpState) (rec : SRec) (ys : List SpYield)
    (st2 : SpState) (h : spStep st rec = .ok (ys, st2)) :
    ∀ y ∈ ys, y.piAddr = 0 ∧ y.tauAddr = 1 := by
  unfold spStep at h
  cases hs : sweep rec.left (hpush st.heap ⟨rec.right, rec.c1, rec.c2, rec.parent⟩) with
  | none => simp only [hs] at h; cases h
  | some p =>
    obtain ⟨ev, rest⟩ := p
    simp only [hs] at h
    cases ha : applyEvict st.pi st.tau ev with
    | none => simp only [ha] at h; cases h
    | some q =>
      obtain ⟨pi2, tau2⟩ := q
      simp only [ha] at h
      simp only [Except.ok.injEq, Prod.mk.injEq] at h
      obtain ⟨hys, _⟩ := h
      subst hys
      by_cases hl : st.lastL ≠ rec.left
      · simp only [if_pos hl]
        intro y hy
        simp only [List.mem_singleton] at hy
        subst hy
        exact ⟨rfl, rfl⟩
      · simp only [if_neg hl]
        intro y hy
        simp at hy

/-- Every yield of the record loop carries addresses 0 and 1. -/
theorem spGo_addrs (recs : List SRec) :
    ∀ st ys fin, spGo st recs = .ok (ys, fin) →
    ∀ y ∈ ys, y.piAddr = 0 ∧ y.tauAddr = 1 := by
  induction recs with
  | nil =>
    intro st ys fin h y hy
    simp only [spGo, Except.ok.injEq, Prod.mk.injEq] at h
    obtain ⟨h1, _⟩ := h
    subst h1
    simp at hy
  | cons rec rest ih =>
    intro st ys fin h y hy
    simp only [spGo] at h
    cases hstep : spStep st rec with
    | error e => simp only [hstep] at h; cases h
    | ok p =>
      obtain ⟨ys1, st2⟩ := p
      simp only [hstep] at h
      cases hgo : spGo st2 rest with
      | error e => simp only [hgo] at h; cases h
      | ok q =>
        obtain ⟨ys2, fin2⟩ := q
        simp only [hgo] at h
        simp only [Except.ok.injEq, Prod.mk.injEq] at h
        obtain ⟨h1, _⟩ := h
        subst h1
        rcases List.mem_append.mp hy with hm | hm
        · exact spStep_addrs st rec ys1 st2 hstep y hm
        · exact ih st2 ys2 fin2 hgo y hm

/-- C4 amended: the yields of `sparse_trees` alias the generator's two
internal dict objects rather than copying them — every yielded triple
passes the objects at addresses 0 (`pi`) and 1 (`tau`), so all yields
share the same two mutable objects, a retained snapshot observes the
traversal's final contents once the iterator has advanced, and mutating a
yielded map is mutating the generator's own state. -/
theorem claim4_amended (ts : TreeSeq) (ys : List SpYield) (fin : SpState)
    (h : spRun ts = .ok (ys, fin)) :
    ∀ y ∈ ys, y.piAddr = 0 ∧ y.tauAddr = 1 := by
  unfold spRun at h
  cases hgo : spGo (spInit ts.sampleSize) ts.recs with
  | error e => simp only [hgo] at h; cases h
  | ok p =>
    obtain ⟨ys1, fin1⟩ := p
    simp only [hgo] at h
    simp only [Except.ok.injEq, Prod.mk.injEq] at h
    obtain ⟨h1, _⟩ := h
    subst h1
    intro y hy
    rcases List.mem_append.mp hy with hm | hm
    · exact spGo_addrs ts.recs _ ys1 fin1 hgo y hm
    · simp only [List.mem_singleton] at hm
      subst hm
      exact ⟨rfl, rfl⟩

/-- C4 amended witness at `exTs4`. -/
theorem claim4_amended_witness :
    spRun exTs4 = .ok ([exY40, exY41], exFin4) ∧
    ∀ y ∈ [exY40, exY41], y.piAddr = 0 ∧ y.tauAddr = 1 :=
  ⟨by decide, claim4_amended exTs4 [exY40, exY41] exFin4 (by decide)⟩

/-! ## C1 — interval lengths sum to `num_loci` -/

/-- One `spStep` yields total length `rec.left - st.lastL` and leaves
`lastL = curL = rec.left`. -/
theorem spStep_out (st : SpState) (rec : SRec) (ys : List SpYield)
    (st2 : SpState) (h : spStep st rec = .ok (ys, st2)) :
    (ys.map SpYield.len).sum = rec.left - st.lastL ∧
    st2.lastL = rec.left ∧ st2.curL = rec.left := by
  unfold spStep at h
  cases hs : sweep rec.left (hpush st.heap ⟨rec.right, rec.c1, rec.c2, rec.parent⟩) with
  | none => simp only [hs] at h; cases h
  | some p =>
    obtain ⟨ev, rest⟩ := p
    simp only [hs] at h
    cases ha : applyEvict st.pi st.tau ev with
    | none => simp only [ha] at h; cases h
    | some q =>
      obtain ⟨pi2, tau2⟩ := q
      simp only [ha] at h
      simp only [Except.ok.injEq, Prod.mk.injEq] at h
      obtain ⟨hys, hst⟩ := h
      subst hys
      by_cases hl : st.lastL ≠ rec.left
      · subst hst
        simp [if_pos hl]
      · push_neg at hl
        subst hst
        simp [hl]

/-- Sum of yield lengths over the record loop telescopes between the
initial and final `last_l`, provided the lefts ascend. -/
theorem spGo_sum (recs : List SRec) :
    ∀ st ys fin, spGo st recs = .ok (ys, fin) →
    List.Chain (· ≤ ·) st.lastL (recs.map SRec.left) →
    st.lastL = st.curL →
    (ys.map SpYield.len).sum = fin.lastL - st.lastL ∧
    st.lastL ≤ fin.lastL ∧ fin.lastL = fin.curL ∧
    (fin.lastL = st.lastL ∨ fin.lastL ∈ recs.map SRec.left) := by
  induction recs with
  | nil =>
    intro st ys fin h _ hinv
    simp only [spGo, Except.ok.injEq, Prod.mk.injEq] at h
    obtain ⟨h1, h2⟩ := h
    subst h1; subst h2
    simp [hinv]
  | cons rec rest ih =>
    intro st ys fin h hch hinv
    simp only [spGo] at h
    cases hstep : spStep st rec with
    | error e => simp only [hstep] at h; cases h
    | ok p =>
      obtain ⟨ys1, st2⟩ := p
      simp only [hstep] at h
      cases hgo : spGo st2 rest with
      | error e => simp only [hgo] at h; cases h
      | ok q =>
        obtain ⟨ys2, fin2⟩ := q
        simp only [hgo] at h
        simp only [Except.ok.injEq, Prod.mk.injEq] at h
        obtain ⟨h1, h2⟩ := h
        subst h1; subst h2
        obtain ⟨hsum1, hl2, hc2⟩ := spStep_out st rec ys1 st2 hstep
        simp only [List.map_cons, List.chain_cons] at hch
        obtain ⟨hle, hch2⟩ := hch
        obtain ⟨hsum2, hle2, hfin, hmem⟩ := ih st2 ys2 fin2 hgo
          (by rw [hl2]; exact hch2) (by rw [hl2, hc2])
        rw [hl2] at hsum2 hle2
        refine ⟨?_, ?_, hfin, ?_⟩
        · simp only [List.map_append, List.sum_append, hsum1, hsum2]
          omega
        · omega
        · rcases hmem with hm | hm
          · rw [hm, hl2]; right; simp
          · right; simp [hm]

/-- The `_diffs` loop telescopes: yields sum to `left2 - left`, and the
final state's `left`/`r` are the last record's. -/
theorem dfGo_spec (recs : List SRec) :
    ∀ left used rin r ys left2 used2 rin2 r2,
    dfGo left used rin r recs = (ys, left2, used2, rin2, r2) →
    List.Chain (· ≤ ·) left (recs.map SRec.left) →
    (ys.map (fun d => d.1)).sum = left2 - left ∧ left ≤ left2 ∧
    (recs = [] → left2 = left ∧ r2 = r) ∧
    (recs ≠ [] → ∃ last, recs.getLast? = some last ∧
      left2 = last.left ∧ r2 = last.right) := by
  induction recs with
  | nil =>
    intro left used rin r ys left2 used2 rin2 r2 h _
    simp only [dfGo, Prod.mk.injEq] at h
    obtain ⟨h1, h2, h3, h4, h5⟩ := h
    subst h1; subst h2; subst h3; subst h4; subst h5
    simp
  | cons x rest ih =>
    intro left used rin r ys left2 used2 rin2 r2 h hch
    simp only [List.map_cons, List.chain_cons] at hch
    obtain ⟨hle, hch2⟩ := hch
    simp only [dfGo] at h
    by_cases hx : x.left ≠ left
    · simp only [if_pos hx] at h
      cases hrec : dfGo x.left
          (ddAppend (PyD.erase used left) x.right ⟨x.c1, x.c2, x.parent, x.time⟩)
          [⟨x.c1, x.c2, x.parent, x.time⟩] x.right rest with
      | mk ys3 fin3 =>
        rw [hrec] at h
        obtain ⟨l3, u3, ri3, r3⟩ := fin3
        simp only [Prod.mk.injEq] at h
        obtain ⟨h1, h2, h3, h4, h5⟩ := h
        subst h1; subst h2; subst h3; subst h4; subst h5
        obtain ⟨hsum, hle2, hemp, hne⟩ :=
          ih x.left _ _ x.right ys3 l3 u3 ri3 r3 hrec hch2
        cases hre : rest with
        | nil =>
          subst hre
          obtain ⟨he1, he2⟩ := hemp rfl
          subst he1; subst he2
          refine ⟨?_, by omega, by simp, ?_⟩
          · simp only [List.map_cons, List.sum_cons, hsum]; omega
          · intro _; exact ⟨x, by simp, rfl, rfl⟩
        | cons y t =>
          refine ⟨?_, by omega, by simp, ?_⟩
          · simp only [List.map_cons, List.sum_cons, hsum]; omega
          · intro _
            obtain ⟨last, hl, he1, he2⟩ := hne (by simp [hre])
            refine ⟨last, ?_, he1, he2⟩
            rw [← hl, hre, List.getLast?_cons_cons]
    · push_neg at hx
      simp only [if_neg (show ¬(x.left ≠ left) from fun hh => hh hx)] at h
      cases hrec : dfGo left (ddAppend used x.right ⟨x.c1, x.c2, x.parent, x.time⟩)
          (rin ++ [⟨x.c1, x.c2, x.parent, x.time⟩]) x.right rest with
      | mk ys3 fin3 =>
        rw [hrec] at h
        obtain ⟨l3, u3, ri3, r3⟩ := fin3
        simp only [Prod.mk.injEq] at h
        obtain ⟨h1, h2, h3, h4, h5⟩ := h
        subst h1; subst h2; subst h3; subst h4; subst h5
        obtain ⟨hsum, hle2, hemp, hne⟩ :=
          ih left _ _ x.right ys3 l3 u3 ri3 r3 hrec (hx ▸ hch2)
        cases hre : rest with
        | nil =>
          subst hre
          obtain ⟨he1, he2⟩ := hemp rfl
          subst he1; subst he2
          refine ⟨hsum, hle2, by simp, ?_⟩
          intro _; exact ⟨x, by simp, by omega, rfl⟩
        | cons y t =>
          refine ⟨hsum, hle2, by simp, ?_⟩
          intro _
          obtain ⟨last, hl, he1, he2⟩ := hne (by simp [hre])
          refine ⟨last, ?_, he1, he2⟩
          rw [← hl, hre, List.getLast?_cons_cons]

/-- Monotone access into a sorted list. -/
theorem sorted_get?_le (b : List Nat) (hb : List.Sorted (· ≤ ·) b)
    (i j : Nat) (hij : i ≤ j) (bi bj : Nat)
    (hi : b.get? i = some bi) (hj : b.get? j = some bj) : bi ≤ bj := by
  rcases Nat.lt_or_ge i j with hlt | hge
  · have hjl : j < b.length := by
      by_contra hc
      push_neg at hc
      rw [List.get?_eq_none.mpr hc] at hj
      cases hj
    have hil : i < b.length := lt_trans hlt hjl
    rw [List.get?_eq_get hil] at hi
    rw [List.get?_eq_get hjl] at hj
    have := List.pairwise_iff_get.mp hb ⟨i, hil⟩ ⟨j, hjl⟩ hlt
    simp only [Option.some.injEq] at hi hj
    rw [← hi, ← hj]
    exact this
  · have : i = j := le_antisymm hij hge
    subst this
    rw [hi] at hj
    cases hj
    exact le_refl _

/-- The inner breakpoint-advance loop: it stops at an index holding the
current cumulative boundary `x`, and its yields telescope. -/
theorem dwbAdvance_spec (b : List Nat) (x : Nat)
    (hb : List.Sorted (· ≤ ·) b) :
    ∀ fuel k ys k2, dwbAdvance b x k fuel = some (ys, k2) →
    ∀ bk, b.get? k = some bk →
    k ≤ k2 ∧ b.get? k2 = some x ∧
    (ys.map (fun d => d.1)).sum = x - bk ∧ bk ≤ x := by
  intro fuel
  induction fuel with
  | zero => intro k ys k2 h bk hbk; cases h
  | succ fuel ih =>
    intro k ys k2 h bk hbk
    simp only [dwbAdvance] at h
    rw [hbk] at h
    by_cases hne : bk ≠ x
    · simp only [if_pos hne] at h
      cases hbk2 : b.get? (k + 1) with
      | none => rw [hbk2] at h; simp at h
      | some bkk =>
        rw [hbk2] at h
        simp only [Nat.add_sub_cancel] at h
        rw [hbk] at h
        cases hrec : dwbAdvance b x (k + 1) fuel with
        | none => simp only [hrec, Option.map_none'] at h; cases h
        | some p =>
          obtain ⟨ys3, k3⟩ := p
          simp only [hrec, Option.map_some'] at h
          simp only [Option.some.injEq, Prod.mk.injEq] at h
          obtain ⟨hy, hk⟩ := h
          subst hy; subst hk
          obtain ⟨hk2, hx2, hsum, hle⟩ := ih (k + 1) ys3 k3 hrec bkk hbk2
          have hbb : bk ≤ bkk :=
            sorted_get?_le b hb k (k + 1) (by omega) bk bkk hbk hbk2
          refine ⟨by omega, hx2, ?_, by omega⟩
          simp only [List.map_cons, List.sum_cons, hsum]
          omega
    · push_neg at hne
      subst hne
      simp only [ne_eq, not_true_eq_false, if_false] at h
      simp only [Option.some.injEq, Prod.mk.injEq] at h
      obtain ⟨hy, hk⟩ := h
      subst hy; subst hk
      exact ⟨le_refl _, hbk, by simp, le_refl _⟩

/-- The outer `_diffs_with_breaks` loop preserves the total length. -/
theorem dwbGo_spec (b : List Nat) (hb : List.Sorted (· ≤ ·) b) :
    ∀ ds k x ys, dwbGo b k x ds = some ys →
    1 ≤ k → b.get? (k - 1) = some x →
    (ys.map (fun d => d.1)).sum = (ds.map (fun d => d.1)).sum := by
  intro ds
  induction ds with
  | nil =>
    intro k x ys h _ _
    simp only [dwbGo, Option.some.injEq] at h
    subst h
    simp
  | cons d rest ih =>
    intro k x ys h hk hkx
    obtain ⟨len, ro, ri⟩ := d
    simp only [dwbGo] at h
    cases hbk : b.get? k with
    | none => rw [hbk] at h; simp at h
    | some bk =>
      rw [hbk] at h
      rw [hkx] at h
      simp only [Option.bind_eq_bind, Option.some_bind] at h
      cases hadv : dwbAdvance b (x + len) k (b.length + 1) with
      | none => simp only [hadv, Option.none_bind] at h; cases h
      | some p =>
        obtain ⟨ysAdv, k2⟩ := p
        simp only [hadv, Option.some_bind] at h
        cases hgo : dwbGo b (k2 + 1) (x + len) rest with
        | none => simp only [hgo, Option.none_bind] at h; cases h
        | some ys2 =>
          simp only [hgo, Option.some_bind, Option.some.injEq] at h
          subst h
          obtain ⟨hk2, hx2, hsum, hble⟩ :=
            dwbAdvance_spec b (x + len) hb (b.length + 1) k ysAdv k2 hadv bk hbk
          have hxbk : x ≤ bk :=
            sorted_get?_le b hb (k - 1) k (by omega) x bk hkx hbk
          have hrest : (ys2.map (fun dd => dd.1)).sum =
              (rest.map (fun dd => dd.1)).sum :=
            ih (k2 + 1) (x + len) ys2 hgo (by omega) (by simpa using hx2)
          simp only [List.map_cons, List.sum_cons, List.map_append,
            List.sum_append, hsum, hrest]
          omega

/-- Total yielded length of `_diffs` equals the last record's `right`. -/
theorem diffs_sum (ts : TreeSeq) (out : List Diff)
    (h : diffsRun ts = some out)
    (hch : List.Chain (· ≤ ·) 0 (ts.recs.map SRec.left))
    (hlast : ∀ last, ts.recs.getLast? = some last →
      last.left ≤ last.right ∧ last.right = ts.numLoci) :
    (out.map (fun d => d.1)).sum = ts.numLoci := by
  unfold diffsRun at h
  cases hrecs : ts.recs with
  | nil => rw [hrecs] at h; cases h
  | cons a t =>
    rw [hrecs] at h
    rw [hrecs] at hch
    cases hdf : dfGo 0 [] [] 0 (a :: t) with
    | mk ys fin =>
      obtain ⟨left2, used2, rin2, r2⟩ := fin
      rw [hdf] at h
      simp only [Option.some.injEq] at h
      subst h
      obtain ⟨hsum, _, _, hne⟩ :=
        dfGo_spec (a :: t) 0 [] [] 0 ys left2 used2 rin2 r2 hdf hch
      obtain ⟨last, hgl, hl2, hr2⟩ := hne (by simp)
      obtain ⟨hlr, hrn⟩ := hlast last (by rw [← hgl, hrecs])
      subst hl2; subst hr2
      simp only [List.map_append, List.sum_append, List.map_cons,
        List.sum_cons, List.map_nil, List.sum_nil, hsum]
      omega

/-- C1: for a valid record sequence — records sorted by ascending `left`,
lefts within the locus range, last record closing at `num_loci` with
`left <= right`, breakpoints ascending and starting at 0 — the
`interval_length` values yielded by each of the three consumer streams
(`sparse_trees`, `_diffs`, `_diffs_with_breaks`) sum to exactly
`num_loci`. -/
theorem claim1_stream_length_sums :
    (∀ ts ys fin, spRun ts = .ok (ys, fin) →
      List.Chain (· ≤ ·) 0 (ts.recs.map SRec.left) →
      (∀ x ∈ ts.recs, x.left ≤ ts.numLoci) →
      (ys.map SpYield.len).sum = ts.numLoci) ∧
    (∀ ts out, diffsRun ts = some out →
      List.Chain (· ≤ ·) 0 (ts.recs.map SRec.left) →
      (∀ last, ts.recs.getLast? = some last →
        last.left ≤ last.right ∧ last.right = ts.numLoci) →
      (out.map (fun d => d.1)).sum = ts.numLoci) ∧
    (∀ ts out, diffsWithBreaksRun ts = some out →
      List.Chain (· ≤ ·) 0 (ts.recs.map SRec.left) →
      (∀ last, ts.recs.getLast? = some last →
        last.left ≤ last.right ∧ last.right = ts.numLoci) →
      List.Sorted (· ≤ ·) ts.breakpoints →
      ts.breakpoints.get? 0 = some 0 →
      (out.map (fun d => d.1)).sum = ts.numLoci) := by
  refine ⟨?_, fun ts out h hch hlast => diffs_sum ts out h hch hlast, ?_⟩
  · intro ts ys fin h hch hbound
    unfold spRun at h
    cases hgo : spGo (spInit ts.sampleSize) ts.recs with
    | error e => simp only [hgo] at h; cases h
    | ok p =>
      obtain ⟨ys1, fin1⟩ := p
      simp only [hgo] at h
      simp only [Except.ok.injEq, Prod.mk.injEq] at h
      obtain ⟨h1, h2⟩ := h
      subst h1; subst h2
      obtain ⟨hsum, hle, hlc, hmem⟩ := spGo_sum ts.recs (spInit ts.sampleSize)
        ys1 fin1 hgo (by exact hch) (by exact rfl)
      simp only [spInit] at hsum hle
      have hfl : fin1.lastL ≤ ts.numLoci := by
        rcases hmem with hm | hm
        · simp only [spInit] at hm; omega
        · simp only [List.mem_map] at hm
          obtain ⟨x, hx, he⟩ := hm
          rw [← he]
          exact hbound x hx
      simp only [List.map_append, List.sum_append, List.map_cons,
        List.sum_cons, List.map_nil, List.sum_nil, hsum]
      omega
  · intro ts out h hch hlast hbs hb0
    unfold diffsWithBreaksRun at h
    cases hds : diffsRun ts with
    | none => rw [hds] at h; cases h
    | some ds =>
      rw [hds] at h
      simp only [Option.bind_eq_bind, Option.some_bind] at h
      have h1 := dwbGo_spec ts.breakpoints hbs ds 1 0 out h (le_refl 1)
        (by simpa using hb0)
      rw [h1]
      exact diffs_sum ts ds hds hch hlast

/-- C1 witness at `exTs4`: all three streams run and their interval
lengths sum to `num_loci = 10`. -/
theorem claim1_witness :
    (spRun exTs4 = .ok ([exY40, exY41], exFin4) ∧
      (([exY40, exY41]).map SpYield.len).sum = exTs4.numLoci) ∧
    (diffsRun exTs4 = some exDiffs4 ∧
      (exDiffs4.map (fun d => d.1)).sum = exTs4.numLoci) ∧
    (diffsWithBreaksRun exTs4 = some exDiffs4 ∧
      (exDiffs4.map (fun d => d.1)).sum = exTs4.numLoci) := by
  have hlast : ∀ last, exTs4.recs.getLast? = some last →
      last.left ≤ last.right ∧ last.right = exTs4.numLoci := by
    intro last hl
    have h2 : some (⟨5, 10, 1, 2, 4, 2⟩ : SRec) = some last := hl
    cases h2
    exact ⟨by decide, by decide⟩
  refine ⟨⟨by decide, ?_⟩, ⟨by decide, ?_⟩, ⟨by decide, ?_⟩⟩
  · exact claim1_stream_length_sums.1 exTs4 [exY40, exY41] exFin4 (by decide)
      (by simp [exTs4, List.chain_cons]) (by decide)
  · exact claim1_stream_length_sums.2.1 exTs4 exDiffs4 (by decide)
      (by simp [exTs4, List.chain_cons]) hlast
  · exact claim1_stream_length_sums.2.2 exTs4 exDiffs4 (by decide)
      (by simp [exTs4, List.chain_cons]) hlast
      (by simp [exTs4, List.sorted_cons]) (by decide)

/-! ## C10 — the eviction loop never inspects an empty heap -/

/-- Heap entries in nondecreasing `r` order. -/
theorem mem_hpush (h : List HEntry) (e a : HEntry) :
    a ∈ hpush h e ↔ a = e ∨ a ∈ h := by
  induction h with
  | nil => simp [hpush]
  | cons x t ih =>
    by_cases hl : hLT e x
    · simp [hpush, hl]
    · simp only [hpush, if_neg hl, List.mem_cons, ih]
      tauto

theorem hLT_r_le (a b : HEntry) (h : hLT a b = true) : a.r ≤ b.r := by
  simp only [hLT, decide_eq_true_eq] at h
  rcases h with h | ⟨h, _⟩
  · omega
  · omega

theorem not_hLT_r_le (a b : HEntry) (h : ¬ hLT a b = true) : b.r ≤ a.r := by
  simp only [hLT, decide_eq_true_eq, not_or, not_and] at h
  omega

theorem hpush_sorted (h : List HEntry) (e : HEntry)
    (hs : h.Pairwise rLE) : (hpush h e).Pairwise rLE := by
  induction h with
  | nil => simp [hpush, List.pairwise_cons]
  | cons x t ih =>
    rw [List.pairwise_cons] at hs
    obtain ⟨hx, ht⟩ := hs
    by_cases hl : hLT e x = true
    · simp only [hpush, if_pos hl]
      refine List.pairwise_cons.mpr ⟨?_, List.pairwise_cons.mpr ⟨hx, ht⟩⟩
      intro a ha
      rcases List.mem_cons.mp ha with hm | hm
      · rw [hm]; exact hLT_r_le e x hl
      · exact le_trans (hLT_r_le e x hl) (hx a hm)
    · simp only [hpush, if_neg hl]
      refine List.pairwise_cons.mpr ⟨?_, ih ht⟩
      intro a ha
      rcases (mem_hpush t e a).mp ha with hm | hm
      · rw [hm]; exact not_hLT_r_le e x hl
      · exact hx a hm

/-- The eviction sweep on a sorted heap holding at least one entry with
`l < r` never inspects an empty heap: it succeeds, splits the heap, and no
entry with `r ≤ l` survives. -/
theorem sweep_spec (l : Nat) (h : List HEntry) (hs : h.Pairwise rLE)
    (hex : ∃ e ∈ h, l < e.r) :
    ∃ ev rest, sweep l h = some (ev, rest) ∧ ev ++ rest = h ∧
      (∀ e ∈ ev, e.r ≤ l) ∧ (∀ e ∈ rest, l < e.r) := by
  induction h with
  | nil => obtain ⟨e, he, _⟩ := hex; cases he
  | cons x t ih =>
    simp only [List.pairwise_cons] at hs
    obtain ⟨hx, ht⟩ := hs
    by_cases hr : x.r ≤ l
    · have hex2 : ∃ e ∈ t, l < e.r := by
        obtain ⟨e, he, hle⟩ := hex
        rcases List.mem_cons.mp he with hm | hm
        · subst hm; omega
        · exact ⟨e, hm, hle⟩
      obtain ⟨ev, rest, hsw, happ, hev, hrest⟩ := ih ht hex2
      refine ⟨x :: ev, rest, ?_, by simp [happ], ?_, hrest⟩
      · simp only [sweep, if_pos hr, hsw, Option.map_some']
      · intro e he
        rcases List.mem_cons.mp he with hm | hm
        · subst hm; exact hr
        · exact hev e hm
    · refine ⟨[], x :: t, ?_, rfl, by simp, ?_⟩
      · simp only [sweep, if_neg hr]
      · intro e he
        rcases List.mem_cons.mp he with hm | hm
        · subst hm; omega
        · exact lt_of_lt_of_le (by omega) (hx e hm)

/-- A step on a record with `left < right` cannot fail with the
empty-heap `IndexError`, and keeps the heap sorted. -/
theorem spStep_no_heapEmpty (st : SpState) (rec : SRec)
    (hlr : rec.left < rec.right) (hs : st.heap.Pairwise rLE) :
    spStep st rec ≠ .error .heapEmpty ∧
    ∀ ys st2, spStep st rec = .ok (ys, st2) → st2.heap.Pairwise rLE := by
  have hs2 : (hpush st.heap ⟨rec.right, rec.c1, rec.c2, rec.parent⟩).Pairwise rLE :=
    hpush_sorted st.heap _ hs
  have hex : ∃ e ∈ hpush st.heap ⟨rec.right, rec.c1, rec.c2, rec.parent⟩,
      rec.left < e.r := by
    refine ⟨⟨rec.right, rec.c1, rec.c2, rec.parent⟩, ?_, hlr⟩
    exact (mem_hpush st.heap _ _).mpr (Or.inl rfl)
  obtain ⟨ev, rest, hsw, happ, hev, hrest⟩ := sweep_spec rec.left _ hs2 hex
  constructor
  · intro hcon
    unfold spStep at hcon
    simp only [hsw] at hcon
    cases ha : applyEvict st.pi st.tau ev with
    | none => simp only [ha] at hcon; cases hcon
    | some q => obtain ⟨pi2, tau2⟩ := q; simp only [ha] at hcon; cases hcon
  · intro ys st2 hok
    unfold spStep at hok
    simp only [hsw] at hok
    cases ha : applyEvict st.pi st.tau ev with
    | none => simp only [ha] at hok; cases hok
    | some q =>
      obtain ⟨pi2, tau2⟩ := q
      simp only [ha] at hok
      simp only [Except.ok.injEq, Prod.mk.injEq] at hok
      obtain ⟨_, hst⟩ := hok
      subst hst
      have : rest.Pairwise rLE := by
        rw [← happ] at hs2
        exact (List.pairwise_append.mp hs2).2.1
      exact this

/-- The whole record loop never fails with the empty-heap error. -/
theorem spGo_no_heapEmpty (recs : List SRec) :
    ∀ st, (∀ rec ∈ recs, rec.left < rec.right) → st.heap.Pairwise rLE →
    spGo st recs ≠ .error .heapEmpty := by
  induction recs with
  | nil => intro st _ _ hcon; cases hcon
  | cons rec rest ih =>
    intro st hlr hs hcon
    simp only [spGo] at hcon
    cases hstep : spStep st rec with
    | error e =>
      simp only [hstep] at hcon
      cases hcon
      exact (spStep_no_heapEmpty st rec (hlr rec (by simp)) hs).1 hstep
    | ok p =>
      obtain ⟨ys1, st2⟩ := p
      simp only [hstep] at hcon
      cases hgo : spGo st2 rest with
      | error e =>
        simp only [hgo] at hcon
        cases hcon
        exact ih st2 (fun r hr => hlr r (by simp [hr]))
          ((spStep_no_heapEmpty st rec (hlr rec (by simp)) hs).2 ys1 st2 hstep) hgo
      | ok q => simp only [hgo] at hcon; cases hcon

/-- C10: with every record satisfying `left < right`, the eviction loop of
`sparse_trees` is safe: (i) on a sorted heap containing an entry with
`r > l` — which the just-pushed current record always provides — the
`while live_segments[0][0] <= l` loop never inspects an empty heap,
terminates, and leaves no live segment with `right <= l` in the heap; and
(ii) consequently a full `sparse_trees` run never raises the empty-heap
IndexError. -/
theorem claim10_eviction_safe :
    (∀ l h, h.Pairwise rLE → (∃ e ∈ h, l < e.r) →
      ∃ ev rest, sweep l h = some (ev, rest) ∧ ev ++ rest = h ∧
        (∀ e ∈ ev, e.r ≤ l) ∧ (∀ e ∈ rest, l < e.r)) ∧
    (∀ ts, (∀ rec ∈ ts.recs, rec.left < rec.right) →
      spRun ts ≠ .error .heapEmpty) := by
  refine ⟨fun l h hs hex => sweep_spec l h hs hex, ?_⟩
  intro ts hlr hcon
  unfold spRun at hcon
  cases hgo : spGo (spInit ts.sampleSize) ts.recs with
  | error e =>
    simp only [hgo] at hcon
    cases hcon
    exact spGo_no_heapEmpty ts.recs (spInit ts.sampleSize) hlr (by simp [spInit]) hgo
  | ok p => obtain ⟨ys, fin⟩ := p; simp only [hgo] at hcon; cases hcon

/-- C10 witness: the sweep at `l = 0` on the heap after pushing the first
record of `exTs4`, and the full run on `exTs4`. -/
theorem claim10_witness :
    (∃ ev rest, sweep 0 [⟨5, 1, 2, 3⟩] = some (ev, rest) ∧
      ev ++ rest = [⟨5, 1, 2, 3⟩] ∧ (∀ e ∈ ev, e.r ≤ 0) ∧
      (∀ e ∈ rest, 0 < e.r)) ∧
    spRun exTs4 ≠ .error .heapEmpty := by
  constructor
  · exact claim10_eviction_safe.1 0 [⟨5, 1, 2, 3⟩] (by simp)
      ⟨⟨5, 1, 2, 3⟩, by simp, by decide⟩
  · exact claim10_eviction_safe.2 exTs4 (by decide)

/-! ## C5 — mutations mark exactly the subtree leaves in a fresh column -/

theorem setCell_spec (m : HMatrix) (row col : Nat) (m2 : HMatrix)
    (h : setCell m row col = some m2) :
    m2.length = m.length ∧
    (∀ r c, cellAt m2 r c =
      if r = row ∧ c = col then some '1' else cellAt m r c) := by
  unfold setCell at h
  cases hrow : m.get? row with
  | none => simp only [hrow] at h; cases h
  | some rw0 =>
    simp only [hrow] at h
    cases hcol : rw0.get? col with
    | none => simp only [hcol] at h; cases h
    | some ch0 =>
      simp only [hcol] at h
      simp only [Option.some.injEq] at h
      subst h
      have hrl : row < m.length := by
        by_contra hc
        push_neg at hc
        rw [List.get?_eq_none.mpr hc] at hrow
        cases hrow
      have hcl : col < rw0.length := by
        by_contra hc
        push_neg at hc
        rw [List.get?_eq_none.mpr hc] at hcol
        cases hcol
      refine ⟨by simp, ?_⟩
      intro r c
      by_cases hr : r = row
      · subst hr
        rw [cellAt, List.get?_set_eq_of_lt _ hrl]
        simp only [Option.some_bind]
        by_cases hc : c = col
        · subst hc
          rw [List.get?_set_eq_of_lt _ hcl]
          simp
        · rw [List.get?_set_ne _ _ (fun he => hc he.symm)]
          simp only [hc, and_false, if_false, cellAt, hrow, Option.some_bind]
      · simp only [hr, false_and, if_false]
        rw [cellAt, List.get?_set_ne _ _ (fun he => hr he.symm)]
        rfl

/-- Inverting `MarkedBelow` at a leaf identifier. -/
theorem markedBelow_leaf_inv (ch : PyD.Dict (Nat × Nat)) (n u w : Nat)
    (hu : u ≤ n) (h : MarkedBelow ch n u w) : w = u := by
  cases h with
  | leaf _ _ => rfl
  | viaLeft _ a b _ hn _ _ => omega
  | viaRight _ a b _ hn _ _ => omega

/-- Inverting `MarkedBelow` at an internal node. -/
theorem markedBelow_internal_inv (ch : PyD.Dict (Nat × Nat)) (n u a b w : Nat)
    (hu : n < u) (hab : PyD.get? ch u = some (a, b))
    (h : MarkedBelow ch n u w) :
    MarkedBelow ch n a w ∨ MarkedBelow ch n b w := by
  cases h with
  | leaf _ hle => omega
  | viaLeft _ a2 b2 _ _ hab2 hm =>
    rw [hab] at hab2
    cases hab2
    exact Or.inl hm
  | viaRight _ a2 b2 _ _ hab2 hm =>
    rw [hab] at hab2
    cases hab2
    exact Or.inr hm

/-- What one stack descent of `_apply_rare_mutations` does to the matrix:
only column `col` changes, a cell of that column becomes `'1'` exactly when
it already was `'1'` or the corresponding sample leaf lies below a stack
node, and cells never change to anything but `'1'`. -/
theorem mutDescend_spec (n : Nat) (ch : PyD.Dict (Nat × Nat)) (col : Nat)
    (hch : ∀ p a b, PyD.get? ch p = some (a, b) → 1 ≤ a ∧ 1 ≤ b) :
    ∀ fuel stack m m2, mutDescend n ch col fuel stack m = some m2 →
    (∀ u ∈ stack, 1 ≤ u) →
    m2.length = m.length ∧
    (∀ r c, c ≠ col → cellAt m2 r c = cellAt m r c) ∧
    (∀ r, (cellAt m2 r col = some '1' ↔
      (cellAt m r col = some '1' ∨ ∃ u ∈ stack, MarkedBelow ch n u (r + 1)))) ∧
    (∀ r, cellAt m2 r col = cellAt m r col ∨ cellAt m2 r col = some '1') := by
  intro fuel
  induction fuel with
  | zero =>
    intro stack m m2 h hpos
    cases stack with
    | nil =>
      simp only [mutDescend, Option.some.injEq] at h
      subst h
      exact ⟨rfl, fun r c _ => rfl, fun r => by simp, fun r => Or.inl rfl⟩
    | cons u t => cases h
  | succ fuel ih =>
    intro stack m m2 h hpos
    cases stack with
    | nil =>
      simp only [mutDescend, Option.some.injEq] at h
      subst h
      exact ⟨rfl, fun r c _ => rfl, fun r => by simp, fun r => Or.inl rfl⟩
    | cons u t =>
      have hu : 1 ≤ u := hpos u (by simp)
      simp only [mutDescend] at h
      by_cases hun : u ≤ n
      · simp only [if_pos hun] at h
        have hz : ¬ u = 0 := by omega
        simp only [if_neg hz] at h
        cases hset : setCell m (u - 1) col with
        | none => simp only [hset, Option.bind_eq_bind, Option.none_bind] at h; cases h
        | some mW =>
          simp only [hset, Option.bind_eq_bind, Option.some_bind] at h
          obtain ⟨hlen, hcells⟩ := setCell_spec m (u - 1) col mW hset
          obtain ⟨hlen2, hframe, hcol, hmono⟩ :=
            ih t mW m2 h (fun w hw => hpos w (by simp [hw]))
          refine ⟨by omega, ?_, ?_, ?_⟩
          · intro r c hc
            rw [hframe r c hc, hcells r c]
            simp [hc]
          · intro r
            rw [hcol r, hcells r col]
            constructor
            · rintro (h1 | h1)
              · by_cases hr : r = u - 1
                · subst hr
                  refine Or.inr ⟨u, by simp, ?_⟩
                  have : u - 1 + 1 = u := by omega
                  rw [this]
                  exact MarkedBelow.leaf u hun
                · simp only [hr, false_and, if_false] at h1
                  exact Or.inl h1
              · obtain ⟨w, hw, hm⟩ := h1
                exact Or.inr ⟨w, by simp [hw], hm⟩
            · rintro (h1 | ⟨w, hw, hm⟩)
              · left
                by_cases hr : r = u - 1 <;> simp [hr, h1]
              · rcases List.mem_cons.mp hw with hweq | hwm
                · subst hweq
                  have : r + 1 = w := markedBelow_leaf_inv ch n w (r + 1) hun hm
                  left
                  have hr : r = w - 1 := by omega
                  simp [hr]
                · exact Or.inr ⟨w, hwm, hm⟩
          · intro r
            rcases hmono r with h1 | h1
            · rw [h1, hcells r col]
              by_cases hr : r = u - 1
              · subst hr
                right
                simp
              · left; simp [hr]
            · exact Or.inr h1
      · simp only [if_neg hun] at h
        cases hget : PyD.get? ch u with
        | none => simp only [hget, Option.bind_eq_bind, Option.none_bind] at h; cases h
        | some p =>
          obtain ⟨a, b⟩ := p
          simp only [hget, Option.bind_eq_bind, Option.some_bind] at h
          obtain ⟨ha1, hb1⟩ := hch u a b hget
          obtain ⟨hlen2, hframe, hcol, hmono⟩ := ih (b :: a :: t) m m2 h
            (by
              intro w hw
              rcases List.mem_cons.mp hw with hweq | hw2
              · omega
              · rcases List.mem_cons.mp hw2 with hweq | hw3
                · omega
                · exact hpos w (by simp [hw3]))
          refine ⟨hlen2, hframe, ?_, hmono⟩
          intro r
          rw [hcol r]
          constructor
          · rintro (h1 | ⟨w, hw, hm⟩)
            · exact Or.inl h1
            · rcases List.mem_cons.mp hw with hweq | hw2
              · exact Or.inr ⟨u, by simp,
                  MarkedBelow.viaRight u a b (r + 1) (by omega) hget (hweq ▸ hm)⟩
              · rcases List.mem_cons.mp hw2 with hweq | hw3
                · exact Or.inr ⟨u, by simp,
                    MarkedBelow.viaLeft u a b (r + 1) (by omega) hget (hweq ▸ hm)⟩
                · exact Or.inr ⟨w, by simp [hw3], hm⟩
          · rintro (h1 | ⟨w, hw, hm⟩)
            · exact Or.inl h1
            · rcases List.mem_cons.mp hw with hweq | hw3
              · subst hweq
                rcases markedBelow_internal_inv ch n w a b (r + 1)
                  (by omega) hget hm with hma | hmb
                · exact Or.inr ⟨a, by simp, hma⟩
                · exact Or.inr ⟨b, by simp, hmb⟩
              · exact Or.inr ⟨w, by simp [hw3], hm⟩

/-- `_apply_rare_mutations` over a branch list: the counter advances by
the number of branches, columns outside the fresh block are untouched, and
the `k`-th fresh column records exactly the leaves below the `k`-th
branch (on top of whatever was already `'1'`). -/
theorem applyRare_spec (n : Nat) (ch : PyD.Dict (Nat × Nat))
    (hch : ∀ p a b, PyD.get? ch p = some (a, b) → 1 ≤ a ∧ 1 ≤ b) :
    ∀ branches numSeg m numSeg2 m2,
    applyRare n ch branches numSeg m = some (numSeg2, m2) →
    (∀ v ∈ branches, 1 ≤ v) →
    numSeg2 = numSeg + branches.length ∧ m2.length = m.length ∧
    (∀ r c, (c < numSeg ∨ numSeg + branches.length ≤ c) →
      cellAt m2 r c = cellAt m r c) ∧
    (∀ k v, branches.get? k = some v → ∀ r,
      ((cellAt m2 r (numSeg + k) = some '1' ↔
        (cellAt m r (numSeg + k) = some '1' ∨ MarkedBelow ch n v (r + 1))) ∧
      (cellAt m2 r (numSeg + k) = cellAt m r (numSeg + k) ∨
        cellAt m2 r (numSeg + k) = some '1'))) := by
  intro branches
  induction branches with
  | nil =>
    intro numSeg m numSeg2 m2 h _
    simp only [applyRare, Option.some.injEq, Prod.mk.injEq] at h
    obtain ⟨h1, h2⟩ := h
    subst h1; subst h2
    exact ⟨by simp, rfl, fun r c _ => rfl, fun k v hk => by cases hk⟩
  | cons v rest ih =>
    intro numSeg m numSeg2 m2 h hpos
    simp only [applyRare] at h
    cases hdes : mutDescend n ch numSeg (2 * ch.length + 2) [v] m with
    | none => simp only [hdes, Option.bind_eq_bind, Option.none_bind] at h; cases h
    | some mW =>
      simp only [hdes, Option.bind_eq_bind, Option.some_bind] at h
      obtain ⟨hlenW, hframeW, hcolW, hmonoW⟩ :=
        mutDescend_spec n ch numSeg hch (2 * ch.length + 2) [v] m mW hdes
          (fun u hu => by
            rcases List.mem_singleton.mp hu with rfl
            exact hpos u (by simp))
      obtain ⟨hn2, hlen2, hframe2, hcols2⟩ :=
        ih (numSeg + 1) mW numSeg2 m2 h (fun w hw => hpos w (by simp [hw]))
      refine ⟨by simp [hn2]; omega, by omega, ?_, ?_⟩
      · intro r c hc
        have hc2 : c < numSeg + 1 ∨ (numSeg + 1) + rest.length ≤ c := by
          rcases hc with h1 | h1
          · left; omega
          · right; simp only [List.length_cons] at h1; omega
        have hc3 : c ≠ numSeg := by
          rcases hc with h1 | h1
          · omega
          · simp only [List.length_cons] at h1; omega
        rw [hframe2 r c hc2]
        exact hframeW r c hc3
      · intro k w hk r
        cases k with
        | zero =>
          simp only [List.get?] at hk
          cases hk
          have hcol0 : cellAt m2 r (numSeg + 0) = cellAt mW r (numSeg + 0) :=
            hframe2 r (numSeg + 0) (by omega)
          rw [hcol0]
          simp only [Nat.add_zero]
          constructor
          · rw [hcolW r]
            constructor
            · rintro (h1 | ⟨u, hu, hm⟩)
              · exact Or.inl h1
              · rcases List.mem_singleton.mp hu with rfl
                exact Or.inr hm
            · rintro (h1 | h1)
              · exact Or.inl h1
              · exact Or.inr ⟨v, by simp, h1⟩
          · exact hmonoW r
        | succ j =>
          simp only [List.get?] at hk
          have heq : numSeg + (j + 1) = (numSeg + 1) + j := by omega
          rw [heq]
          obtain ⟨hiff, hmono⟩ := hcols2 j w hk r
          have hWm : cellAt mW r ((numSeg + 1) + j) = cellAt m r ((numSeg + 1) + j) :=
            hframeW r _ (by omega)
          rw [hWm] at hiff hmono
          exact ⟨hiff, hmono⟩

theorem get?_replicate_of_lt {α : Type} (a : α) (k i : Nat) (h : i < k) :
    (List.replicate k a).get? i = some a := by
  induction k generalizing i with
  | zero => omega
  | succ k ih =>
    cases i with
    | zero => simp [List.replicate]
    | succ j =>
      simp only [List.replicate, List.get?]
      exact ih j (by omega)

/-- The geometric growth step: capacity strictly exceeds the needed
columns, previously allocated columns keep their contents, fresh columns
hold `'0'`. -/
theorem hgGrow_spec (n bc numSeg maxSeg : Nat) (m : HMatrix)
    (maxSeg2 : Nat) (m2 : HMatrix)
    (h : hgGrow n bc numSeg maxSeg m = (maxSeg2, m2))
    (hrows : ∀ row ∈ m, row.length = maxSeg) :
    m2.length = m.length ∧ (∀ row ∈ m2, row.length = maxSeg2) ∧
    numSeg + bc < maxSeg2 ∧ maxSeg ≤ maxSeg2 ∧
    (∀ r c, c < maxSeg → cellAt m2 r c = cellAt m r c) ∧
    (∀ r c, maxSeg ≤ c → c < maxSeg2 → r < m.length →
      cellAt m2 r c = some '0') := by
  unfold hgGrow at h
  by_cases hg : maxSeg ≤ numSeg + bc
  · simp only [if_pos hg] at h
    simp only [Prod.mk.injEq] at h
    obtain ⟨h1, h2⟩ := h
    subst h1; subst h2
    have hle : maxSeg ≤ max (2 * maxSeg) (numSeg + bc + 1) := by omega
    refine ⟨by simp, ?_, by omega, hle, ?_, ?_⟩
    · intro row hrow
      simp only [List.mem_map] at hrow
      obtain ⟨row0, hr0, he⟩ := hrow
      subst he
      simp only [List.length_append, List.length_take, List.length_replicate,
        hrows row0 hr0]
      omega
    · intro r c hc
      simp only [cellAt, List.get?_map]
      cases hr : m.get? r with
      | none => rfl
      | some row0 =>
        have hmem : row0 ∈ m := by
          have := List.get?_mem hr
          exact this
        simp only [Option.map_some', Option.some_bind]
        rw [List.get?_append]
        · rw [List.get?_take]
          exact hc
        · rw [List.length_take, hrows row0 hmem]
          omega
    · intro r c hc1 hc2 hrl
      simp only [cellAt, List.get?_map]
      cases hr : m.get? r with
      | none => exact absurd (List.get?_eq_none.mp hr) (by omega)
      | some row0 =>
        have hmem : row0 ∈ m := List.get?_mem hr
        simp only [Option.map_some', Option.some_bind]
        rw [List.get?_append_right]
        · rw [List.length_take, hrows row0 hmem, Nat.min_self]
          exact get?_replicate_of_lt '0' _ _ (by omega)
        · rw [List.length_take, hrows row0 hmem]
          omega
  · simp only [if_neg hg] at h
    simp only [Prod.mk.injEq] at h
    obtain ⟨h1, h2⟩ := h
    subst h1; subst h2
    exact ⟨rfl, hrows, by omega, le_refl _, fun r c _ => rfl,
      fun r c hc1 hc2 _ => by omega⟩

/-- C5: for every mutation drawn on a branch above node `v`, exactly the
rows of sample leaves (identifiers `1..n`) in the subtree below `v` are
`'1'` in the freshly allocated segregating-site column and every other row
is `'0'` there; the `k`-th drawn mutation occupies its own column
`numSeg + k`.  Hypotheses: node identifiers are positive, matrix rows
have the stated capacity, and the not-yet-used columns are all `'0'`. -/
theorem claim5_mutation_columns (n : Nat) (ch : PyD.Dict (Nat × Nat))
    (branches : List Nat) (numSeg maxSeg : Nat) (m : HMatrix)
    (numSeg2 maxSeg2 : Nat) (m2 : HMatrix)
    (h : applyMutations n ch branches numSeg maxSeg m =
      some (numSeg2, maxSeg2, m2))
    (hch : ∀ p a b, PyD.get? ch p = some (a, b) → 1 ≤ a ∧ 1 ≤ b)
    (hpos : ∀ v ∈ branches, 1 ≤ v)
    (hrows : ∀ row ∈ m, row.length = maxSeg)
    (hfresh : ∀ r, r < m.length → ∀ c, numSeg ≤ c → c < maxSeg →
      cellAt m r c = some '0') :
    numSeg2 = numSeg + branches.length ∧
    (∀ k v, branches.get? k = some v → ∀ r, r < m.length →
      ((cellAt m2 r (numSeg + k) = some '1' ↔ MarkedBelow ch n v (r + 1)) ∧
      (¬ MarkedBelow ch n v (r + 1) →
        cellAt m2 r (numSeg + k) = some '0'))) := by
  unfold applyMutations at h
  cases hg : hgGrow n branches.length numSeg maxSeg m with
  | mk maxSegG mG =>
    simp only [hg] at h
    cases hra : applyRare n ch branches numSeg mG with
    | none => simp only [hra, Option.bind_eq_bind, Option.none_bind] at h; cases h
    | some p =>
      obtain ⟨numSegR, mR⟩ := p
      simp only [hra, Option.bind_eq_bind, Option.some_bind,
        Option.some.injEq, Prod.mk.injEq] at h
      obtain ⟨h1, h2, h3⟩ := h
      subst h1; subst h2; subst h3
      obtain ⟨hglen, hgrows, hgcap, hgle, hgkeep, hgzero⟩ :=
        hgGrow_spec n branches.length numSeg maxSeg m maxSegG mG hg hrows
      obtain ⟨hn2, hrlen, hrframe, hrcols⟩ :=
        applyRare_spec n ch hch branches numSeg mG numSegR mR hra hpos
      refine ⟨hn2, ?_⟩
      intro k v hk r hr
      have hklen : k < branches.length := by
        by_contra hc
        push_neg at hc
        rw [List.get?_eq_none.mpr hc] at hk
        cases hk
      -- the fresh column in the grown matrix is all '0'
      have hG0 : cellAt mG r (numSeg + k) = some '0' := by
        by_cases hcap : numSeg + k < maxSeg
        · rw [hgkeep r (numSeg + k) hcap]
          exact hfresh r hr (numSeg + k) (by omega) hcap
        · exact hgzero r (numSeg + k) (by omega) (by omega) hr
      obtain ⟨hiff, hmono⟩ := hrcols k v hk r
      constructor
      · rw [hiff, hG0]
        constructor
        · rintro (h1 | h1)
          · cases h1
          · exact h1
        · exact fun h1 => Or.inr h1
      · intro hnm
        rcases hmono with h1 | h1
        · rw [h1, hG0]
        · rw [hiff, hG0] at h1
          rcases h1 with h2 | h2
          · cases h2
          · exact absurd h2 hnm

/-- C5 witness: branches `[3, 1]` on the tree `{3: (1, 2)}` with two
samples; the first mutation marks both rows in column 0 (both leaves are
below node 3), the second marks only row 0 in column 1. -/
theorem claim5_witness :
    applyMutations 2 [(3, (1, 2))] [3, 1] 0 1 [['0'], ['0']] =
      some (2, 3, [['1', '1', '0'], ['1', '0', '0']]) ∧
    (2 = 0 + ([3, 1] : List Nat).length ∧
    (∀ k v, ([3, 1] : List Nat).get? k = some v → ∀ r,
      r < ([['0'], ['0']] : HMatrix).length →
      ((cellAt [['1', '1', '0'], ['1', '0', '0']] r (0 + k) = some '1' ↔
        MarkedBelow [(3, (1, 2))] 2 v (r + 1)) ∧
      (¬ MarkedBelow [(3, (1, 2))] 2 v (r + 1) →
        cellAt [['1', '1', '0'], ['1', '0', '0']] r (0 + k) = some '0')))) := by
  constructor
  · decide
  · refine claim5_mutation_columns 2 [(3, (1, 2))] [3, 1] 0 1 [['0'], ['0']]
      2 3 [['1', '1', '0'], ['1', '0', '0']] (by decide) ?_ (by decide) ?_ ?_
    · intro p a b hp
      by_cases h3 : (3 : Nat) = p
      · simp only [PyD.get?, if_pos h3, Option.some.injEq, Prod.mk.injEq] at hp
        omega
      · simp only [PyD.get?, if_neg h3] at hp
        cases hp
    · intro row hrow
      rcases List.mem_cons.mp hrow with h1 | h1
      · simp [h1]
      · rcases List.mem_cons.mp h1 with h2 | h2
        · simp [h2]
        · cases h2
    · intro r hr c hc1 hc2
      have hr2 : r < 2 := by simpa using hr
      interval_cases c
      interval_cases r <;> decide

/-! ## C6 — zero mutation rate gives an all-zero, zero-site matrix -/

/-- A projection preserved by every step of an option-valued fold is
preserved by the whole fold. -/
theorem foldOpt_proj {σ α τ : Type} (proj : σ → τ) (f : σ → α → Option σ)
    (hf : ∀ s x s2, f s x = some s2 → proj s2 = proj s) :
    ∀ l s s2, foldOpt f s l = some s2 → proj s2 = proj s := by
  intro l
  induction l with
  | nil =>
    intro s s2 h
    simp only [foldOpt, Option.some.injEq] at h
    rw [h]
  | cons x rest ih =>
    intro s s2 h
    simp only [foldOpt] at h
    cases hx : f s x with
    | none => rw [hx] at h; cases h
    | some s1 =>
      rw [hx] at h
      simp only [Option.some_bind] at h
      rw [ih s1 s2 h, hf s x s1 hx]

/-- A projection preserved by every step of a pure fold. -/
theorem foldl_proj {σ α τ : Type} (proj : σ → τ) (g : σ → α → σ)
    (hg : ∀ s x, proj (g s x) = proj s) :
    ∀ (l : List α) (s : σ), proj (List.foldl g s l) = proj s := by
  intro l
  induction l with
  | nil => intro s; rfl
  | cons x rest ih =>
    intro s
    rw [List.foldl_cons, ih (g s x), hg s x]

/-- `hgOutRec` leaves the matrix state alone. -/
theorem hgOutRec_proj (s : HGState) (x : DRec) (s2 : HGState)
    (hs : hgOutRec s x = some s2) :
    (s2.numSeg, s2.maxSeg, s2.hap) = (s.numSeg, s.maxSeg, s.hap) := by
  unfold hgOutRec at hs
  cases hc : PyD.del s.children x.parent with
  | none => simp only [hc, Option.bind_eq_bind, Option.none_bind] at hs; cases hs
  | some ch =>
    simp only [hc, Option.bind_eq_bind, Option.some_bind] at hs
    cases ht : PyD.del s.time x.parent with
    | none => simp only [ht, Option.none_bind] at hs; cases hs
    | some tm =>
      simp only [ht, Option.some_bind] at hs
      cases hb1 : PyD.get? s.branchLength x.c1 with
      | none => simp only [hb1, Option.none_bind] at hs; cases hs
      | some b1 =>
        simp only [hb1, Option.some_bind] at hs
        cases hbl1 : PyD.del s.branchLength x.c1 with
        | none => simp only [hbl1, Option.none_bind] at hs; cases hs
        | some bl1 =>
          simp only [hbl1, Option.some_bind] at hs
          cases hb2 : PyD.get? bl1 x.c2 with
          | none => simp only [hb2, Option.none_bind] at hs; cases hs
          | some b2 =>
            simp only [hb2, Option.some_bind] at hs
            cases hbl2 : PyD.del bl1 x.c2 with
            | none => simp only [hbl2, Option.none_bind] at hs; cases hs
            | some bl2 =>
              simp only [hbl2, Option.some_bind, Option.some.injEq] at hs
              rw [← hs]

/-- `hgBLRec` leaves the matrix state alone. -/
theorem hgBLRec_proj (s : HGState) (x : DRec) (s2 : HGState)
    (hs : hgBLRec s x = some s2) :
    (s2.numSeg, s2.maxSeg, s2.hap) = (s.numSeg, s.maxSeg, s.hap) := by
  unfold hgBLRec at hs
  cases ht1 : PyD.get? s.time x.c1 with
  | none => simp only [ht1, Option.bind_eq_bind, Option.none_bind] at hs; cases hs
  | some t1 =>
    simp only [ht1, Option.bind_eq_bind, Option.some_bind] at hs
    cases ht2 : PyD.get? s.time x.c2 with
    | none => simp only [ht2, Option.none_bind] at hs; cases hs
    | some t2 =>
      simp only [ht2, Option.some_bind, Option.some.injEq] at hs
      rw [← hs]

/-- The matrix-related state of one interval step at rate zero: a Poisson
draw with mean `0 = total_branch_length * 0 * length / num_loci` is zero,
so no mutation is applied and `numSeg`/`maxSeg`/`hap` are untouched. -/
theorem hgStep_zero_rate (n numLoci : Nat) (oracle : Nat → Nat)
    (st : HGState) (ctr : Nat) (d : Diff) (st2 : HGState) (ctr2 : Nat)
    (h : hgStep n numLoci 0 oracle st ctr d = some (st2, ctr2)) :
    st2.numSeg = st.numSeg ∧ st2.maxSeg = st.maxSeg ∧ st2.hap = st.hap := by
  obtain ⟨len, rout, rin⟩ := d
  unfold hgStep at h
  cases h1 : foldOpt hgOutRec st rout with
  | none => simp only [h1, Option.bind_eq_bind, Option.none_bind] at h; cases h
  | some st1 =>
    simp only [h1, Option.bind_eq_bind, Option.some_bind] at h
    have hp1 : (st1.numSeg, st1.maxSeg, st1.hap) =
        (st.numSeg, st.maxSeg, st.hap) :=
      foldOpt_proj (fun s => (s.numSeg, s.maxSeg, s.hap)) hgOutRec
        hgOutRec_proj rout st st1 h1
    have hp2 : ((rin.foldl hgInRec st1).numSeg, (rin.foldl hgInRec st1).maxSeg,
        (rin.foldl hgInRec st1).hap) = (st1.numSeg, st1.maxSeg, st1.hap) :=
      foldl_proj (fun s => (s.numSeg, s.maxSeg, s.hap)) hgInRec
        (fun s x => by simp [hgInRec]) rin st1
    cases h3 : foldOpt hgBLRec (rin.foldl hgInRec st1) rin with
    | none => simp only [h3, Option.none_bind] at h; cases h
    | some st3 =>
      simp only [h3, Option.some_bind] at h
      have hp3 : (st3.numSeg, st3.maxSeg, st3.hap) =
          ((rin.foldl hgInRec st1).numSeg, (rin.foldl hgInRec st1).maxSeg,
            (rin.foldl hgInRec st1).hap) :=
        foldOpt_proj (fun s => (s.numSeg, s.maxSeg, s.hap)) hgBLRec
          hgBLRec_proj rin (rin.foldl hgInRec st1) st3 h3
      simp only [mul_zero, zero_mul, zero_div, oraclePoisson,
        eq_self_iff_true, if_true, gt_iff_lt, lt_self_iff_false, if_false,
        Option.some.injEq, Prod.mk.injEq] at h
      obtain ⟨he1, he2⟩ := h
      subst he1
      simp only [Prod.mk.injEq] at hp1 hp2 hp3
      exact ⟨by rw [hp3.1, hp2.1, hp1.1], by rw [hp3.2.1, hp2.2.1, hp1.2.1],
        by rw [hp3.2.2, hp2.2.2, hp1.2.2]⟩

/-- At rate zero the whole diff loop leaves the matrix state alone. -/
theorem hgGo_zero_rate (n numLoci : Nat) (oracle : Nat → Nat) :
    ∀ (ds : List Diff) (st : HGState) (ctr : Nat) (g : HGState),
    hgGo n numLoci 0 oracle st ctr ds = some g →
    g.numSeg = st.numSeg ∧ g.maxSeg = st.maxSeg ∧ g.hap = st.hap := by
  intro ds
  induction ds with
  | nil =>
    intro st ctr g h
    simp only [hgGo, Option.some.injEq] at h
    rw [← h]
    exact ⟨rfl, rfl, rfl⟩
  | cons d rest ih =>
    intro st ctr g h
    simp only [hgGo] at h
    cases hstep : hgStep n numLoci 0 oracle st ctr d with
    | none => simp only [hstep, Option.bind_eq_bind, Option.none_bind] at h; cases h
    | some p =>
      obtain ⟨st2, ctr2⟩ := p
      simp only [hstep, Option.bind_eq_bind, Option.some_bind] at h
      obtain ⟨e1, e2, e3⟩ := hgStep_zero_rate n numLoci oracle st ctr d st2 ctr2 hstep
      obtain ⟨f1, f2, f3⟩ := ih st2 ctr2 g h
      exact ⟨by rw [f1, e1], by rw [f2, e2], by rw [f3, e3]⟩

/-- C6: constructing a `HaplotypeGenerator` with zero scaled mutation rate
yields zero segregating sites, every `haplotypes()` /
`haplotype_strings()` row empty, and the whole haplotype matrix still
`'0'`-filled. -/
theorem claim6_zero_rate (ts : TreeSeq) (oracle : Nat → Nat) (g : HGState)
    (h : hgRun ts 0 oracle = some g) :
    g.numSeg = 0 ∧
    (∀ row ∈ hgHaplotypes g, row = []) ∧
    (∀ s ∈ hgHaplotypeStrings g, s = "") ∧
    (∀ row ∈ g.hap, ∀ c ∈ row, c = '0') := by
  unfold hgRun at h
  cases hds : diffsRun ts with
  | none => simp only [hds, Option.bind_eq_bind, Option.none_bind] at h; cases h
  | some ds =>
    simp only [hds, Option.bind_eq_bind, Option.some_bind] at h
    obtain ⟨e1, e2, e3⟩ := hgGo_zero_rate ts.sampleSize ts.numLoci oracle ds
      (hgInit ts.sampleSize ts.numLoci) 0 g h
    simp only [hgInit] at e1 e3
    refine ⟨e1, ?_, ?_, ?_⟩
    · intro row hrow
      simp only [hgHaplotypes, List.mem_map] at hrow
      obtain ⟨r0, _, he⟩ := hrow
      rw [← he, e1]
      exact List.take_zero r0
    · intro s hs
      simp only [hgHaplotypeStrings, List.mem_map] at hs
      obtain ⟨r0, hr0, he⟩ := hs
      simp only [hgHaplotypes, List.mem_map] at hr0
      obtain ⟨r1, _, he1⟩ := hr0
      rw [← he, ← he1, e1]
      rfl
    · intro row hrow c hc
      rw [e3] at hrow
      have := List.eq_of_mem_replicate hrow
      rw [this] at hc
      exact List.eq_of_mem_replicate hc

/-- The final generator state of `hgRun exTs4 0` (any oracle; here the
constant stream 7). -/
def exG4 : HGState :=
  ⟨[(4, (1, 2))], [(1, 0), (2, 0), (4, 2)], [(1, 2), (2, 2)], 4, 0, 10,
    [List.replicate 10 '0', List.replicate 10 '0']⟩

/-- C6 witness at `exTs4` with rate 0. -/
theorem claim6_witness :
    hgRun exTs4 0 (fun _ => 7) = some exG4 ∧
    (exG4.numSeg = 0 ∧
    (∀ row ∈ hgHaplotypes exG4, row = []) ∧
    (∀ s ∈ hgHaplotypeStrings exG4, s = "") ∧
    (∀ row ∈ exG4.hap, ∀ c ∈ row, c = '0')) :=
  ⟨by decide, claim6_zero_rate exTs4 (fun _ => 7) exG4 (by decide)⟩

/-! ## C3 — helper lemmas -/

theorem nodupB_iff (l : List Nat) : nodupB l = true ↔ l.Nodup := by
  induction l with
  | nil => simp [nodupB]
  | cons x t ih =>
    simp only [nodupB, Bool.and_eq_true, List.all_eq_true, List.nodup_cons,
      ← ih, Bool.not_eq_true', decide_eq_false_iff_not]
    constructor
    · rintro ⟨h1, h2⟩
      exact ⟨fun hm => h1 x hm rfl, h2⟩
    · rintro ⟨h1, h2⟩
      exact ⟨fun y hy he => h1 (he ▸ hy), h2⟩

theorem sortedLeftsB_chain (recs : List SRec) (h : sortedLeftsB recs = true) :
    List.Chain' (· ≤ ·) (recs.map SRec.left) := by
  induction recs with
  | nil => simp
  | cons x t ih =>
    cases t with
    | nil => simp
    | cons y t2 =>
      simp only [sortedLeftsB, Bool.and_eq_true, decide_eq_true_eq] at h
      obtain ⟨h1, h2⟩ := h
      simp only [List.map_cons, List.chain'_cons]
      exact ⟨h1, by simpa using ih h2⟩

/-- Lookup through a permutation with duplicate-free keys: membership of
the pair characterises the lookup. -/
theorem PyD.get?_eq_some_iff_mem {β : Type} (d : PyD.Dict β)
    (hnd : (d.map Prod.fst).Nodup) (k : Nat) (v : β) :
    PyD.get? d k = some v ↔ (k, v) ∈ d := by
  induction d with
  | nil => simp [PyD.get?]
  | cons hd t ih =>
    obtain ⟨k2, v2⟩ := hd
    simp only [List.map_cons, List.nodup_cons] at hnd
    by_cases hk : k2 = k
    · subst hk
      have hg : PyD.get? ((k2, v2) :: t) k2 = some v2 := by
        simp [PyD.get?]
      rw [hg]
      constructor
      · intro h
        injection h with h
        rw [← h]
        exact List.mem_cons_self _ _
      · intro hm
        rcases List.mem_cons.mp hm with he | hm2
        · injection he with h1 h2
          rw [h2]
        · exact absurd (List.mem_map.mpr ⟨(k2, v), hm2, rfl⟩) hnd.1
    · have hg : PyD.get? ((k2, v2) :: t) k = PyD.get? t k := by
        simp [PyD.get?, hk]
      rw [hg, ih hnd.2]
      simp only [List.mem_cons, Prod.mk.injEq]
      constructor
      · intro h; exact Or.inr h
      · rintro (⟨he, _⟩ | hm)
        · exact absurd he.symm hk
        · exact hm

/-- With duplicate-free keys, deleting key `k` removes exactly the pair. -/
theorem PyD.erase_eq_list_erase {β : Type} [DecidableEq β] (d : PyD.Dict β)
    (hnd : (d.map Prod.fst).Nodup) (k : Nat) (v : β) (hm : (k, v) ∈ d) :
    PyD.erase d k = d.erase (k, v) := by
  induction d with
  | nil => cases hm
  | cons hd t ih =>
    obtain ⟨k2, v2⟩ := hd
    simp only [List.map_cons, List.nodup_cons] at hnd
    by_cases hk : k2 = k
    · subst hk
      have hv : v2 = v := by
        rcases List.mem_cons.mp hm with he | hm2
        · cases he; rfl
        · exfalso
          exact hnd.1 (List.mem_map.mpr ⟨(k2, v), hm2, rfl⟩)
      subst hv
      simp [PyD.erase, List.erase_cons_head]
    · have hm2 : (k, v) ∈ t := by
        rcases List.mem_cons.mp hm with he | hm2
        · cases he; exact absurd rfl hk
        · exact hm2
      have hne : (k2, v2) ≠ (k, v) := by
        intro he; cases he; exact hk rfl
      simp only [PyD.erase, if_neg hk]
      rw [ih hnd.2 hm2, List.erase_cons_tail]
      simp only [beq_iff_eq]
      exact hne

theorem PyD.del_of_mem {β : Type} [DecidableEq β] (d : PyD.Dict β)
    (hnd : (d.map Prod.fst).Nodup) (k : Nat) (v : β) (hm : (k, v) ∈ d) :
    PyD.del d k = some (d.erase (k, v)) := by
  unfold PyD.del
  rw [if_pos]
  · rw [PyD.erase_eq_list_erase d hnd k v hm]
  · simp only [PyD.contains]
    rw [(PyD.get?_eq_some_iff_mem d hnd k v).mpr hm]
    rfl

/-- A sublist of the flattening. -/
theorem sublist_bind {α β : Type} (f : α → List β) :
    ∀ (l1 l2 : List α), l1.Sublist l2 → (l1.bind f).Sublist (l2.bind f) := by
  intro l1 l2 h
  induction h with
  | slnil => simp
  | cons a h2 ih =>
    simp only [List.cons_bind]
    exact ih.trans (List.sublist_append_right _ _)
  | cons₂ a h2 ih =>
    simp only [List.cons_bind]
    exact List.Sublist.append_left ih _

/-- `KidsOK` restricts to erasures. -/
theorem KidsOK_erase (n : Nat) (live : List SRec) (x : SRec)
    (h : KidsOK n live) : KidsOK n (live.erase x) := by
  obtain ⟨h1, h2, h3⟩ := h
  refine ⟨?_, ?_, ?_⟩
  · exact h1.sublist (sublist_bind _ _ _ (List.erase_sublist x live))
  · exact h2.sublist ((List.erase_sublist x live).map SRec.parent)
  · intro y hy
    exact h3 y ((List.erase_sublist x live).mem hy)

/-- `KidsOK` restricts to sublists. -/
theorem KidsOK_sublist (n : Nat) (l1 l2 : List SRec)
    (hs : l1.Sublist l2) (h : KidsOK n l2) : KidsOK n l1 := by
  obtain ⟨h1, h2, h3⟩ := h
  exact ⟨h1.sublist (sublist_bind _ _ _ hs), h2.sublist (hs.map SRec.parent),
    fun y hy => h3 y (hs.mem hy)⟩

/-- Erasing a mapped element is mapping the erased list, for maps
injective on the list. -/
theorem map_erase_of_inj {α β : Type} [DecidableEq α] [DecidableEq β]
    (f : α → β) : ∀ (l : List α) (x : α), x ∈ l →
    (∀ a ∈ l, f a = f x → a = x) →
    (l.map f).erase (f x) = (l.erase x).map f := by
  intro l
  induction l with
  | nil => intro x hx; cases hx
  | cons y t ih =>
    intro x hx hinj
    by_cases hy : y = x
    · subst hy
      simp [List.erase_cons_head]
    · have hne : f y ≠ f x := fun he => hy (hinj y (by simp) he)
      have hx2 : x ∈ t := by
        rcases List.mem_cons.mp hx with he | hm
        · exact absurd he.symm hy
        · exact hm
      simp only [List.map_cons]
      rw [List.erase_cons_tail, List.erase_cons_tail]
      · rw [ih x hx2 (fun a ha he => hinj a (by simp [ha]) he)]
        rfl
      · simp only [beq_iff_eq]; exact hy
      · simp only [beq_iff_eq]; exact hne

/-- A permutation of a mapped list is the map of a permuted list, for maps
injective on the list. -/
theorem perm_map_inv {α β : Type} [DecidableEq α] [DecidableEq β]
    (f : α → β) : ∀ (ev : List β) (l : List α), ev.Perm (l.map f) →
    (∀ a ∈ l, ∀ b ∈ l, f a = f b → a = b) →
    ∃ l2 : List α, l2.Perm l ∧ ev = l2.map f := by
  intro ev
  induction ev with
  | nil =>
    intro l h _
    have : l.map f = [] := (List.Perm.nil_eq h).symm
    have hl : l = [] := by
      cases l with
      | nil => rfl
      | cons a t => cases this
    subst hl
    exact ⟨[], List.Perm.refl _, rfl⟩
  | cons e t ih =>
    intro l h hinj
    have he : e ∈ l.map f := h.mem_iff.mp (by simp)
    obtain ⟨x, hx, hfx⟩ := List.mem_map.mp he
    have ht : t.Perm ((l.map f).erase e) := by
      have h2 := h.erase e
      rw [List.erase_cons_head] at h2
      exact h2
    rw [← hfx] at ht
    rw [map_erase_of_inj f l x hx (fun a ha hfa => hinj a ha x hx hfa)] at ht
    obtain ⟨l2, hp, hev⟩ := ih (l.erase x) ht
      (fun a ha b hb hfab =>
        hinj a ((List.erase_sublist x l).mem ha) b
          ((List.erase_sublist x l).mem hb) hfab)
    refine ⟨x :: l2, ?_, ?_⟩
    · exact List.Perm.trans (List.Perm.cons x hp)
        (List.Perm.symm (List.perm_cons_erase hx))
    · simp [hev, hfx]

theorem piShape_keys (live : List SRec) :
    (piShape live).map Prod.fst = live.bind (fun x => [x.c1, x.c2]) := by
  induction live with
  | nil => rfl
  | cons x t ih =>
    simp only [piShape, List.cons_bind, List.map_append] at ih ⊢
    rw [ih]
    rfl

theorem tauShape_keys_nodup (n : Nat) (live : List SRec)
    (hp : (live.map SRec.parent).Nodup) (hgt : ∀ x ∈ live, n < x.parent) :
    ((tauShape n live).map Prod.fst).Nodup := by
  unfold tauShape
  rw [List.map_append, List.map_map, List.map_map]
  rw [List.nodup_append]
  refine ⟨?_, ?_, ?_⟩
  · refine List.Nodup.map ?_ (List.nodup_range n)
    intro a b h
    simpa using h
  · have : (Prod.fst ∘ fun x => (SRec.parent x, x.time)) = SRec.parent := rfl
    rw [this]
    exact hp
  · intro a ha hb
    simp only [List.mem_map, List.mem_range, Function.comp] at ha hb
    obtain ⟨j, hj, he⟩ := ha
    obtain ⟨x, hx, he2⟩ := hb
    have := hgt x hx
    omega

theorem mem_piShape (live : List SRec) (x : SRec) (hx : x ∈ live) :
    (x.c1, x.parent) ∈ piShape live ∧ (x.c2, x.parent) ∈ piShape live := by
  constructor <;> exact List.mem_bind.mpr ⟨x, hx, by simp⟩

theorem mem_tauShape (n : Nat) (live : List SRec) (x : SRec) (hx : x ∈ live) :
    (x.parent, x.time) ∈ tauShape n live := by
  unfold tauShape
  exact List.mem_append_right _ (List.mem_map.mpr ⟨x, hx, rfl⟩)

theorem piShape_perm (l1 l2 : List SRec) (h : l1.Perm l2) :
    (piShape l1).Perm (piShape l2) := h.flatMap_right _

theorem tauShape_perm (n : Nat) (l1 l2 : List SRec) (h : l1.Perm l2) :
    (tauShape n l1).Perm (tauShape n l2) :=
  List.Perm.append_left _ (h.map _)

/-- The children-key distinctness of a live layer, transported to `pi`. -/
theorem pi_keys_nodup_of_perm (live : List SRec) (pi : PyD.Dict Nat)
    (hperm : pi.Perm (piShape live))
    (hk : (live.bind (fun x => [x.c1, x.c2])).Nodup) :
    (pi.map Prod.fst).Nodup := by
  have := (hperm.map Prod.fst).nodup_iff
  rw [piShape_keys] at this
  exact this.mpr hk

/-- Deleting the key of the head of a permuted decomposition succeeds and
leaves a permutation of the remainder. -/
theorem PyD.del_perm {β : Type} [DecidableEq β] :
    ∀ (d : PyD.Dict β) (t : List (Nat × β)) (k : Nat) (v : β),
    (d.map Prod.fst).Nodup → d.Perm ((k, v) :: t) →
    ∃ d2, PyD.del d k = some d2 ∧ d2.Perm t := by
  intro d
  induction d with
  | nil =>
    intro t k v _ h
    have := h.length_eq
    simp at this
  | cons hd d' ih =>
    intro t k v hnd h
    obtain ⟨k2, v2⟩ := hd
    simp only [List.map_cons, List.nodup_cons] at hnd
    by_cases hk : k2 = k
    · subst hk
      have hv : v2 = v := by
        have hm : (k2, v) ∈ (k2, v2) :: d' :=
          h.mem_iff.mpr (List.mem_cons_self _ _)
        rcases List.mem_cons.mp hm with he | hm2
        · cases he; rfl
        · exact absurd (List.mem_map.mpr ⟨(k2, v), hm2, rfl⟩) hnd.1
      subst hv
      refine ⟨d', ?_, h.cons_inv⟩
      simp [PyD.del, PyD.contains, PyD.get?, PyD.erase]
    · have hm' : (k, v) ∈ d' := by
        rcases List.mem_cons.mp (h.mem_iff.mpr (List.mem_cons_self _ _)) with he | hm2
        · cases he; exact absurd rfl hk
        · exact hm2
      have hm2' : (k2, v2) ∈ t := by
        rcases List.mem_cons.mp (h.mem_iff.mp (List.mem_cons_self _ _)) with he | hh
        · cases he; exact absurd rfl hk
        · exact hh
      have h3 := List.perm_cons_erase hm2'
      have h5 := (h.trans (List.Perm.cons _ h3)).trans (List.Perm.swap _ _ _)
      have h6 := h5.cons_inv
      obtain ⟨d2, hdel, hp2⟩ := ih _ k v hnd.2 h6
      have hc : PyD.contains d' k = true := by
        by_contra hc
        simp [PyD.del, hc] at hdel
      have he : PyD.erase d' k = d2 := by
        simpa [PyD.del, hc] using hdel
      refine ⟨(k2, v2) :: d2, ?_, ?_⟩
      · simp only [PyD.contains] at hc
        simp [PyD.del, PyD.contains, PyD.get?, PyD.erase, hk, hc, he]
      · exact (List.Perm.cons _ hp2).trans h3.symm

/-- Evicting the records `evRecs` from dicts holding (a permutation of)
the live layer succeeds and leaves the remaining layer. -/
theorem applyEvict_perm (n : Nat) :
    ∀ (evRecs live live2 : List SRec) (pi : PyD.Dict Nat)
      (tau : PyD.Dict Rat),
    live.Perm (evRecs ++ live2) → KidsOK n live →
    pi.Perm (piShape live) → tau.Perm (tauShape n live) →
    ∃ pi2 tau2, applyEvict pi tau (evRecs.map toEntry) = some (pi2, tau2) ∧
      pi2.Perm (piShape live2) ∧ tau2.Perm (tauShape n live2) := by
  intro evRecs
  induction evRecs with
  | nil =>
    intro live live2 pi tau hlp hk hpp htp
    simp only [List.nil_append] at hlp
    exact ⟨pi, tau, rfl, hpp.trans (piShape_perm _ _ hlp),
      htp.trans (tauShape_perm n _ _ hlp)⟩
  | cons x rest ih =>
    intro live live2 pi tau hlp hk hpp htp
    have hx : x ∈ live := hlp.mem_iff.mpr (by simp)
    have hkx : ((x :: live.erase x).bind (fun y => [y.c1, y.c2])).Nodup :=
      ((List.perm_cons_erase hx).flatMap_right _).nodup_iff.mp hk.1
    have hkx2 : (x.c1 :: x.c2 ::
        ((live.erase x).bind (fun y => [y.c1, y.c2]))).Nodup := by
      simpa [List.cons_bind] using hkx
    have hiso : (piShape live).Perm
        ((x.c1, x.parent) :: (x.c2, x.parent) :: piShape (live.erase x)) := by
      have h1 := piShape_perm live (x :: live.erase x) (List.perm_cons_erase hx)
      simpa [piShape, List.cons_bind] using h1
    have hkeys : (pi.map Prod.fst).Nodup := pi_keys_nodup_of_perm live pi hpp hk.1
    obtain ⟨pi1, hdel1, hp1⟩ := PyD.del_perm pi
      ((x.c2, x.parent) :: piShape (live.erase x)) x.c1 x.parent hkeys
      (hpp.trans hiso)
    have hkeys1 : (pi1.map Prod.fst).Nodup := by
      refine (hp1.map Prod.fst).nodup_iff.mpr ?_
      rw [List.map_cons, piShape_keys]
      exact (List.nodup_cons.mp hkx2).2
    obtain ⟨pi2', hdel2, hp2'⟩ := PyD.del_perm pi1 (piShape (live.erase x))
      x.c2 x.parent hkeys1 hp1
    have htkeys : (tau.map Prod.fst).Nodup :=
      (htp.map Prod.fst).nodup_iff.mpr (tauShape_keys_nodup n live hk.2.1 hk.2.2)
    have htiso : (tauShape n live).Perm
        ((x.parent, x.time) :: tauShape n (live.erase x)) := by
      refine (tauShape_perm n live (x :: live.erase x)
        (List.perm_cons_erase hx)).trans ?_
      show ((List.range n).map (fun j => (j + 1, (0 : Rat))) ++
          ((x.parent, x.time) :: (live.erase x).map (fun y : SRec => (y.parent, y.time)))).Perm
        ((x.parent, x.time) :: ((List.range n).map (fun j => (j + 1, (0 : Rat))) ++
          (live.erase x).map (fun y : SRec => (y.parent, y.time))))
      exact List.perm_middle
    obtain ⟨tau1, hdelt, ht1⟩ := PyD.del_perm tau (tauShape n (live.erase x))
      x.parent x.time htkeys (htp.trans htiso)
    have hrest : (live.erase x).Perm (rest ++ live2) := by
      have h1 := hlp.erase x
      rwa [List.cons_append, List.erase_cons_head] at h1
    obtain ⟨pi2, tau2, happ, hp2, ht2⟩ := ih (live.erase x) live2 pi2' tau1
      hrest (KidsOK_erase n live x hk) hp2' ht1
    refine ⟨pi2, tau2, ?_, hp2, ht2⟩
    simp only [List.map_cons, applyEvict, toEntry, Option.bind_eq_bind,
      hdel1, Option.some_bind, hdel2, hdelt]
    exact happ

/-- `heappush` is insertion: the result is a permutation of consing. -/
theorem hpush_perm (h : List HEntry) (e : HEntry) : (hpush h e).Perm (e :: h) := by
  induction h with
  | nil => exact List.Perm.refl _
  | cons x t ih =>
    by_cases hl : hLT e x = true
    · simp only [hpush, if_pos hl]
      exact List.Perm.refl _
    · simp only [hpush, if_neg hl]
      exact (ih.cons x).trans (List.Perm.swap e x t)

theorem map_c1_sublist (live : List SRec) :
    (live.map SRec.c1).Sublist (live.bind (fun y => [y.c1, y.c2])) := by
  induction live with
  | nil => simp
  | cons y t ih =>
    simp only [List.map_cons, List.cons_bind, List.cons_append]
    exact (ih.cons _).cons₂ _

/-- Distinct first children make `toEntry` injective on the live layer. -/
theorem toEntry_injOn (live : List SRec)
    (hnd : (live.bind (fun y => [y.c1, y.c2])).Nodup) :
    ∀ a ∈ live, ∀ b ∈ live, toEntry a = toEntry b → a = b := by
  have hmap : (live.map SRec.c1).Nodup := hnd.sublist (map_c1_sublist live)
  intro a ha b hb he
  have hc : a.c1 = b.c1 := congrArg HEntry.c1 he
  exact List.inj_on_of_nodup_map hmap ha hb hc

theorem PyD.contains_eq_false_iff {β : Type} (d : PyD.Dict β) (k : Nat) :
    PyD.contains d k = false ↔ k ∉ d.map Prod.fst := by
  rw [PyD.contains]
  constructor
  · intro h hm
    have h2 := (PyD.mem_keys_iff_get d k).mp hm
    rw [h] at h2
    cases h2
  · intro hm
    by_contra h
    rw [Bool.not_eq_false] at h
    exact hm ((PyD.mem_keys_iff_get d k).mpr h)

theorem piShape_append (l1 l2 : List SRec) :
    piShape (l1 ++ l2) = piShape l1 ++ piShape l2 := by
  simp [piShape]

theorem tauShape_snoc (n : Nat) (l : List SRec) (x : SRec) :
    tauShape n (l ++ [x]) = tauShape n l ++ [(x.parent, x.time)] := by
  simp [tauShape]

theorem piShape_length (l : List SRec) : (piShape l).length = 2 * l.length := by
  induction l with
  | nil => rfl
  | cons x t ih =>
    have h : piShape (x :: t) =
        (x.c1, x.parent) :: (x.c2, x.parent) :: piShape t := rfl
    rw [h, List.length_cons, List.length_cons, ih, List.length_cons]
    omega

theorem tauShape_length (n : Nat) (l : List SRec) :
    (tauShape n l).length = n + l.length := by
  simp [tauShape]

/-- Filtering the mapped heap entries by right endpoint is mapping the
filtered records. -/
theorem filter_map_toEntry (b : Nat) (l : List SRec) :
    (l.map toEntry).filter (fun e => decide (e.r ≤ b)) =
      (l.filter (fun y => decide (y.right ≤ b))).map toEntry := by
  induction l with
  | nil => rfl
  | cons x t ih =>
    simp only [List.map_cons, List.filter_cons]
    by_cases hx : x.right ≤ b
    · simp [toEntry, hx, ih]
    · simp [toEntry, hx, ih]

theorem filter_not_le (b : Nat) (l : List SRec) :
    l.filter (fun y => !decide (y.right ≤ b)) =
      l.filter (fun y => decide (b < y.right)) :=
  List.filter_congr (fun a _ => by
    rw [← decide_not]
    exact decide_eq_decide.mpr Nat.not_le)

/-- Filtering past a later boundary subsumes filtering past an earlier
one. -/
theorem filter_live_tighten (P : List SRec) (c b : Nat) (hcb : c ≤ b) :
    (P.filter (fun y => decide (c < y.right))).filter
        (fun y => decide (b < y.right)) =
      P.filter (fun y => decide (b < y.right)) := by
  rw [List.filter_filter]
  exact List.filter_congr (fun a _ => by
    by_cases hb : b < a.right
    · have hc : c < a.right := lt_of_le_of_lt hcb hb
      simp [hb, hc]
    · simp [hb])

/-- When every processed left is behind `b` and every pending left is
ahead, the live layer at `b` is the filtered processed prefix. -/
theorem live_eq_liveAt (P Q : List SRec) (b : Nat)
    (hP : ∀ y ∈ P, y.left ≤ b) (hQ : ∀ y ∈ Q, ¬ y.left ≤ b) :
    liveAt (P ++ Q) b = P.filter (fun y => decide (b < y.right)) := by
  unfold liveAt
  rw [List.filter_append]
  have hq0 : Q.filter (fun x => decide (x.left ≤ b) && decide (b < x.right)) = [] :=
    List.filter_eq_nil_iff.mpr (fun a ha => by simp [hQ a ha])
  rw [hq0, List.append_nil]
  exact List.filter_congr (fun a ha => by simp [hP a ha])

theorem boundaryOK_spec (n : Nat) (recs : List SRec) (b : Nat)
    (h : boundaryOK n recs b = true) :
    (liveAt recs b).length = n - 1 ∧ KidsOK n (liveAt recs b) := by
  unfold boundaryOK at h
  simp only [Bool.and_eq_true, decide_eq_true_eq, List.all_eq_true] at h
  obtain ⟨⟨⟨hl, hnd1⟩, hnd2⟩, hall⟩ := h
  exact ⟨hl, (nodupB_iff _).mp hnd1, (nodupB_iff _).mp hnd2,
    fun y hy => by simpa using hall y hy⟩

/-- The freshly initialised state satisfies the invariant for the empty
prefix. -/
theorem spInv_init (n : Nat) : SpInv n [] (spInit n) := by
  refine ⟨rfl, by simp [spInit, piShape], ?_, by simp [spInit], by simp [spInit],
    by simp, ⟨by simp, by simp, by simp⟩, Or.inr ⟨rfl, rfl⟩⟩
  simp [spInit, tauShape]

/-- Under the invariant, when no pending record's left is behind the
boundary, the dict sizes are those of a coalesced forest. -/
theorem spInv_counts (n : Nat) (recs P Q : List SRec) (st : SpState)
    (hsp : recs = P ++ Q)
    (hQ : ∀ y ∈ Q, ¬ y.left ≤ st.curL)
    (hbound : ∀ b ∈ recs.map SRec.left, boundaryOK n recs b = true)
    (hPne : P ≠ [])
    (hinv : SpInv n P st) :
    st.pi.length = 2 * n - 2 ∧ st.tau.length = 2 * n - 1 := by
  obtain ⟨h1, h2, h3, h4, h5, h6, h7, h8⟩ := hinv
  have hcur : st.curL ∈ recs.map SRec.left := by
    rcases h8 with h8 | ⟨hP, _⟩
    · rw [hsp, List.map_append]
      exact List.mem_append_left _ h8
    · exact absurd hP hPne
  obtain ⟨hlen, _⟩ := boundaryOK_spec n recs st.curL (hbound st.curL hcur)
  have hla : liveAt recs st.curL =
      P.filter (fun y => decide (st.curL < y.right)) := by
    rw [hsp]
    exact live_eq_liveAt P Q st.curL h6 hQ
  rw [hla] at hlen
  constructor
  · rw [h2.length_eq, piShape_length, hlen]
    omega
  · rw [h3.length_eq, tauShape_length, hlen]
    omega

theorem bind_snoc_kids (l : List SRec) (x : SRec) :
    (l ++ [x]).bind (fun y => [y.c1, y.c2]) =
      l.bind (fun y => [y.c1, y.c2]) ++ [x.c1, x.c2] := by
  simp

theorem map_parent_snoc (l : List SRec) (x : SRec) :
    (l ++ [x]).map SRec.parent = l.map SRec.parent ++ [x.parent] := by
  simp

/-- One step of the record loop preserves the invariant, cannot fail, and
any snapshot it yields has the coalesced-forest dict sizes. -/
theorem spStep_inv (n : Nat) (recs P Q : List SRec) (x : SRec) (st : SpState)
    (hsp : recs = P ++ x :: Q)
    (hchain : List.Chain' (· ≤ ·) (recs.map SRec.left))
    (hlr : ∀ y ∈ recs, y.left < y.right)
    (hbound : ∀ b ∈ recs.map SRec.left, boundaryOK n recs b = true)
    (hfirst : P = [] → x.left = 0)
    (hinv : SpInv n P st) :
    ∃ ys st2, spStep st x = .ok (ys, st2) ∧ SpInv n (P ++ [x]) st2 ∧
      ∀ y ∈ ys, y.piSnap.length = 2 * n - 2 ∧ y.tauSnap.length = 2 * n - 1 := by
  obtain ⟨h1, h2, h3, h4, h5, h6, h7, h8⟩ := hinv
  set live := P.filter (fun y => decide (st.curL < y.right)) with hlivedef
  set live2 := live.filter (fun y => decide (x.left < y.right)) with hlive2def
  have hxrecs : x ∈ recs := by rw [hsp]; simp
  have hxlr : x.left < x.right := hlr x hxrecs
  have pw := List.chain'_iff_pairwise.mp hchain
  rw [hsp, List.map_append] at pw
  have hcross := (List.pairwise_append.mp pw).2.2
  have hPle : ∀ y ∈ P, y.left ≤ x.left := fun y hy =>
    hcross y.left (List.mem_map.mpr ⟨y, hy, rfl⟩) x.left (by simp)
  have hQge : ∀ y ∈ Q, x.left ≤ y.left := by
    have hpw2 := (List.pairwise_append.mp pw).2.1
    rw [List.map_cons] at hpw2
    intro y hy
    exact (List.pairwise_cons.mp hpw2).1 y.left (List.mem_map.mpr ⟨y, hy, rfl⟩)
  have hcle : st.curL ≤ x.left := by
    rcases h8 with h8 | ⟨_, h0⟩
    · obtain ⟨y, hy, hyl⟩ := List.mem_map.mp h8
      rw [← hyl]
      exact hPle y hy
    · omega
  have hheap2s : (hpush st.heap (toEntry x)).Pairwise rLE := hpush_sorted _ _ h5
  have hheap2p : (hpush st.heap (toEntry x)).Perm (toEntry x :: live.map toEntry) :=
    (hpush_perm _ _).trans (List.Perm.cons _ h4)
  have hex : ∃ e ∈ hpush st.heap (toEntry x), x.left < e.r :=
    ⟨toEntry x, (mem_hpush _ _ _).mpr (Or.inl rfl), hxlr⟩
  obtain ⟨ev, rest, hsw, happ, hev, hrest⟩ :=
    sweep_spec x.left (hpush st.heap (toEntry x)) hheap2s hex
  have hswu : sweep x.left (hpush st.heap ⟨x.right, x.c1, x.c2, x.parent⟩) =
      some (ev, rest) := hsw
  have hperm2 : (ev ++ rest).Perm ((live ++ [x]).map toEntry) := by
    rw [happ, List.map_append]
    refine hheap2p.trans ?_
    exact (List.perm_append_singleton _ _).symm
  have hevA : ev.Perm ((live.filter (fun y => decide (y.right ≤ x.left))).map toEntry) := by
    have hf := hperm2.filter (fun e => decide (e.r ≤ x.left))
    have he1 : ev.filter (fun e => decide (e.r ≤ x.left)) = ev :=
      List.filter_eq_self.mpr (fun a ha => by simpa using hev a ha)
    have he2 : rest.filter (fun e => decide (e.r ≤ x.left)) = [] :=
      List.filter_eq_nil_iff.mpr (fun a ha => by
        simp only [decide_eq_true_eq, Nat.not_le]
        exact hrest a ha)
    rw [List.filter_append, he1, he2, List.append_nil] at hf
    rw [filter_map_toEntry, List.filter_append] at hf
    have he3 : [x].filter (fun y => decide (y.right ≤ x.left)) = [] := by
      simp [decide_eq_false (Nat.not_le.mpr hxlr)]
    rw [he3, List.append_nil] at hf
    exact hf
  have hinjf : ∀ a ∈ live.filter (fun y => decide (y.right ≤ x.left)),
      ∀ b ∈ live.filter (fun y => decide (y.right ≤ x.left)),
      toEntry a = toEntry b → a = b :=
    fun a ha b hb he => toEntry_injOn live h7.1 a (List.mem_of_mem_filter ha)
      b (List.mem_of_mem_filter hb) he
  obtain ⟨evR, hevR, hevE⟩ := perm_map_inv toEntry ev _ hevA hinjf
  have hsplit : live.Perm (evR ++ live2) := by
    have hfa := List.filter_append_perm (fun y => decide (y.right ≤ x.left)) live
    rw [filter_not_le] at hfa
    exact hfa.symm.trans (hevR.symm.append_right _)
  obtain ⟨pi2, tau2, happly, hpp2, htp2⟩ := applyEvict_perm n evR live live2
    st.pi st.tau hsplit h7 h2 h3
  have happly2 : applyEvict st.pi st.tau ev = some (pi2, tau2) := by
    rw [hevE]
    exact happly
  have hPfilter : (P ++ [x]).filter (fun y => decide (x.left < y.right)) =
      live2 ++ [x] := by
    rw [hlive2def, hlivedef]
    rw [List.filter_append, filter_live_tighten P st.curL x.left hcle]
    congr 1
    simp [hxlr]
  have hble := hbound x.left (by rw [hsp, List.map_append]; simp)
  obtain ⟨hlen2, hK2⟩ := boundaryOK_spec n recs x.left hble
  have hsubl : (live2 ++ [x]).Sublist (liveAt recs x.left) := by
    rw [hsp]
    unfold liveAt
    rw [List.filter_append]
    refine List.Sublist.append ?_ ?_
    · have he : P.filter (fun y => decide (y.left ≤ x.left) && decide (x.left < y.right))
          = P.filter (fun y => decide (x.left < y.right)) :=
        List.filter_congr (fun a ha => by simp [hPle a ha])
      rw [he, hlive2def, hlivedef, filter_live_tighten P st.curL x.left hcle]
    · rw [List.filter_cons]
      rw [if_pos (by simp [hxlr])]
      exact (List.nil_sublist _).cons₂ x
  have hKnew : KidsOK n (live2 ++ [x]) := KidsOK_sublist n _ _ hsubl hK2
  have hkids : ((live2.bind (fun y => [y.c1, y.c2])) ++ [x.c1, x.c2]).Nodup := by
    rw [← bind_snoc_kids]
    exact hKnew.1
  rw [List.nodup_append] at hkids
  obtain ⟨hnd2, hndx, hdisj⟩ := hkids
  have hc1c2 : x.c1 ≠ x.c2 := by
    simp only [List.nodup_cons, List.mem_singleton, List.not_mem_nil,
      not_false_iff, List.nodup_nil, and_true] at hndx
    exact hndx
  have hc1live : x.c1 ∉ live2.bind (fun y => [y.c1, y.c2]) :=
    fun hm => hdisj hm (by simp)
  have hc2live : x.c2 ∉ live2.bind (fun y => [y.c1, y.c2]) :=
    fun hm => hdisj hm (by simp)
  have hcont1 : PyD.contains pi2 x.c1 = false := by
    rw [PyD.contains_eq_false_iff]
    intro hm
    have h9 := (hpp2.map Prod.fst).mem_iff.mp hm
    rw [piShape_keys] at h9
    exact hc1live h9
  have hcont2 : PyD.contains (pi2 ++ [(x.c1, x.parent)]) x.c2 = false := by
    rw [PyD.contains_eq_false_iff, List.map_append]
    intro hm
    rcases List.mem_append.mp hm with hm | hm
    · have h9 := (hpp2.map Prod.fst).mem_iff.mp hm
      rw [piShape_keys] at h9
      exact hc2live h9
    · simp only [List.map_cons, List.map_nil, List.mem_singleton] at hm
      exact hc1c2 hm.symm
  have hpifinal : (PyD.set (PyD.set pi2 x.c1 x.parent) x.c2 x.parent).Perm
      (piShape (live2 ++ [x])) := by
    rw [PyD.set_eq_append pi2 x.c1 x.parent hcont1]
    rw [PyD.set_eq_append _ x.c2 x.parent hcont2]
    rw [piShape_append, List.append_assoc]
    exact hpp2.append (List.Perm.refl _)
  have hpars : (live2.map SRec.parent ++ [x.parent]).Nodup := by
    rw [← map_parent_snoc]
    exact hKnew.2.1
  rw [List.nodup_append] at hpars
  obtain ⟨hpnd, _, hpdisj⟩ := hpars
  have hpn : n < x.parent := hKnew.2.2 x (by simp)
  have hcontt : PyD.contains tau2 x.parent = false := by
    rw [PyD.contains_eq_false_iff]
    intro hm
    have h9 := (htp2.map Prod.fst).mem_iff.mp hm
    unfold tauShape at h9
    rw [List.map_append, List.map_map, List.map_map] at h9
    rcases List.mem_append.mp h9 with hm2 | hm2
    · simp only [List.mem_map, List.mem_range, Function.comp] at hm2
      obtain ⟨j, hj, hje⟩ := hm2
      omega
    · simp only [List.mem_map, Function.comp] at hm2
      obtain ⟨y, hy, hye⟩ := hm2
      exact hpdisj (List.mem_map.mpr ⟨y, hy, hye⟩) (by simp)
  have htaufinal : (PyD.set tau2 x.parent x.time).Perm
      (tauShape n (live2 ++ [x])) := by
    rw [PyD.set_eq_append tau2 x.parent x.time hcontt, tauShape_snoc]
    exact htp2.append_right _
  have hrsub : rest.Sublist (hpush st.heap (toEntry x)) := by
    rw [← happ]
    exact List.sublist_append_right ev rest
  have hrsort : rest.Pairwise rLE := hheap2s.sublist hrsub
  have hrestp : rest.Perm (live2.map toEntry ++ [toEntry x]) := by
    have h9 := List.filter_append_perm (fun y => decide (y.right ≤ x.left)) live
    rw [filter_not_le] at h9
    have h12 : ((live.filter (fun y => decide (y.right ≤ x.left))).map toEntry ++ rest).Perm
        ((live.filter (fun y => decide (y.right ≤ x.left))).map toEntry ++
          (live2.map toEntry ++ [toEntry x])) := by
      refine ((hevA.symm.append_right rest).trans hperm2).trans ?_
      refine ((h9.append_right [x]).map toEntry).symm.trans ?_
      rw [List.map_append, List.map_append, List.append_assoc]
      exact List.Perm.refl _
    exact (List.perm_append_left_iff _).mp h12
  by_cases hy : st.lastL = x.left
  · refine ⟨[], ⟨PyD.set (PyD.set pi2 x.c1 x.parent) x.c2 x.parent,
        PyD.set tau2 x.parent x.time, x.left, x.left, rest⟩, ?_, ?_, by simp⟩
    · simp only [spStep, hy, ne_eq, eq_self_iff_true, not_true_eq_false,
        if_false, ite_false, ite_self, hswu, happly2]
    · refine ⟨rfl, ?_, ?_, ?_, hrsort, ?_, ?_, ?_⟩
      · rw [hPfilter]
        exact hpifinal
      · rw [hPfilter]
        exact htaufinal
      · rw [hPfilter, List.map_append]
        exact hrestp
      · intro y hy2
        rcases List.mem_append.mp hy2 with hm | hm
        · exact hPle y hm
        · simp only [List.mem_singleton] at hm
          subst hm
          exact Nat.le_refl _
      · rw [hPfilter]
        exact hKnew
      · refine Or.inl ?_
        rw [List.map_append]
        exact List.mem_append_right _ (by simp)
  · have hclt : st.curL < x.left := lt_of_le_of_ne hcle (fun he => hy (h1.trans he))
    refine ⟨[⟨x.left - st.lastL, 0, 1, st.pi, st.tau⟩],
      ⟨PyD.set (PyD.set pi2 x.c1 x.parent) x.c2 x.parent,
        PyD.set tau2 x.parent x.time, x.left, x.left, rest⟩, ?_, ?_, ?_⟩
    · simp only [spStep, if_pos hy, hswu, happly2]
    · refine ⟨rfl, ?_, ?_, ?_, hrsort, ?_, ?_, ?_⟩
      · rw [hPfilter]
        exact hpifinal
      · rw [hPfilter]
        exact htaufinal
      · rw [hPfilter, List.map_append]
        exact hrestp
      · intro y hy2
        rcases List.mem_append.mp hy2 with hm | hm
        · exact hPle y hm
        · simp only [List.mem_singleton] at hm
          subst hm
          exact Nat.le_refl _
      · rw [hPfilter]
        exact hKnew
      · refine Or.inl ?_
        rw [List.map_append]
        exact List.mem_append_right _ (by simp)
    · intro y hy2
      simp only [List.mem_singleton] at hy2
      subst hy2
      have hPne : P ≠ [] := by
        intro hP
        have h0 := hfirst hP
        omega
      exact spInv_counts n recs P (x :: Q) st hsp
        (fun y2 hy3 => by
          rcases List.mem_cons.mp hy3 with he | hm
          · rw [he]
            exact Nat.not_le.mpr hclt
          · exact Nat.not_le.mpr (lt_of_lt_of_le hclt (hQge y2 hm)))
        hbound hPne ⟨h1, h2, h3, h4, h5, h6, h7, h8⟩

/-- The record loop preserves the invariant and every yielded snapshot has
the coalesced-forest dict sizes. -/
theorem spGo_inv (n : Nat) (recs : List SRec)
    (hchain : List.Chain' (· ≤ ·) (recs.map SRec.left))
    (hlr : ∀ y ∈ recs, y.left < y.right)
    (hbound : ∀ b ∈ recs.map SRec.left, boundaryOK n recs b = true)
    (hfirst : ∀ x Q2, recs = x :: Q2 → x.left = 0) :
    ∀ (Q P : List SRec) (st : SpState), recs = P ++ Q → SpInv n P st →
    ∃ ys fin, spGo st Q = .ok (ys, fin) ∧ SpInv n recs fin ∧
      ∀ y ∈ ys, y.piSnap.length = 2 * n - 2 ∧ y.tauSnap.length = 2 * n - 1 := by
  intro Q
  induction Q with
  | nil =>
    intro P st hsp hinv
    rw [List.append_nil] at hsp
    subst hsp
    exact ⟨[], st, rfl, hinv, by simp⟩
  | cons x Q ih =>
    intro P st hsp hinv
    obtain ⟨ys, st2, hstep, hinv2, hcty⟩ := spStep_inv n recs P Q x st hsp
      hchain hlr hbound
      (fun hP => hfirst x Q (by rw [hsp, hP]; rfl)) hinv
    obtain ⟨ys2, fin, hgo, hinvf, hcty2⟩ := ih (P ++ [x]) st2
      (by rw [hsp, List.append_assoc]; rfl) hinv2
    refine ⟨ys ++ ys2, fin, ?_, hinvf, ?_⟩
    · simp only [spGo, hstep, hgo]
    · intro y hy
      rcases List.mem_append.mp hy with h | h
      · exact hcty y h
      · exact hcty2 y h

/-- **C3**: for every valid fully-coalesced input with sample size `n`,
every snapshot yielded by `TreeSequence.sparse_trees` (including the final
one) holds exactly `2*n - 2` parent entries and `2*n - 1` time entries;
and `NewickGenerator.next` checks exactly these sizes on every interval,
so any state it returns satisfies them, a violation being fatal
(`assert` → `.error .assertFail`). -/
theorem claim3_coalesced_counts :
    (∀ ts : TreeSeq, validCoal ts = true →
      ∃ ys fin, spRun ts = .ok (ys, fin) ∧
        ∀ y ∈ ys, y.piSnap.length = 2 * ts.sampleSize - 2 ∧
          y.tauSnap.length = 2 * ts.sampleSize - 1) ∧
    (∀ (n prec : Nat) (st : NwState) (d : Diff) (out : Nat × String)
        (st2 : NwState), nwNext n prec st d = .ok (out, st2) →
      st2.time.length = 2 * n - 1 ∧ st2.parent.length = 2 * n - 2 ∧
        st2.branchLength.length = 2 * n - 2) := by
  constructor
  · intro ts hv
    unfold validCoal at hv
    simp only [Bool.and_eq_true, List.all_eq_true, decide_eq_true_eq] at hv
    obtain ⟨⟨⟨hhead, hsort⟩, hlr⟩, hbound⟩ := hv
    have hchain := sortedLeftsB_chain ts.recs hsort
    have hchain2 : List.Chain' (· ≤ ·) (ts.recs.map SRec.left) := hchain
    have hfirst : ∀ x Q2, ts.recs = x :: Q2 → x.left = 0 := by
      intro x Q2 he
      rw [he] at hhead
      simpa using hhead
    have hne : ts.recs ≠ [] := by
      intro he
      rw [he] at hhead
      simp at hhead
    obtain ⟨ys, fin, hgo, hinvf, hcty⟩ := spGo_inv ts.sampleSize ts.recs
      hchain2 hlr hbound hfirst ts.recs [] (spInit ts.sampleSize) rfl
      (spInv_init _)
    refine ⟨ys ++ [⟨ts.numLoci - fin.curL, 0, 1, fin.pi, fin.tau⟩], fin, ?_, ?_⟩
    · unfold spRun
      rw [hgo]
    · intro y hy
      rcases List.mem_append.mp hy with h | h
      · exact hcty y h
      · simp only [List.mem_singleton] at h
        subst h
        exact spInv_counts ts.sampleSize ts.recs ts.recs [] fin
          (List.append_nil ts.recs).symm (by simp) hbound hne hinvf
  · intro n prec st d out st2 h
    obtain ⟨len, rout, rin⟩ := d
    unfold nwNext at h
    simp only [bind, Except.bind] at h
    cases h1 : orErr NwErr.keyErr (foldOpt applyOutRec st rout) with
    | error e =>
      simp only [h1] at h
      cases h
    | ok st1 =>
      simp only [h1] at h
      cases h3 : orErr NwErr.keyErr
          (foldOpt (applyBL prec) (List.foldl applyInRec st1 rin) rin) with
      | error e =>
        simp only [h3] at h
        cases h
      | ok st3 =>
        simp only [h3] at h
        cases h4 : orErr NwErr.rootLoop
            (findRoot st3.parent (st3.parent.length + 1) 1) with
        | error e =>
          simp only [h4] at h
          cases h
        | ok root =>
          simp only [h4] at h
          split at h
          · rename_i hcond
            cases h5 : orErr NwErr.nodesOverflow
                (nwCollect n st3.subtree st3.children (6 * n + 2) [root] []) with
            | error e =>
              simp only [h5] at h
              cases h
            | ok nodes =>
              simp only [h5] at h
              cases h6 : orErr NwErr.keyErr (nwBuildAll root st3.children
                  st3.branchLength st3.subtree nodes.reverse) with
              | error e =>
                simp only [h6] at h
                cases h
              | ok sub2 =>
                simp only [h6] at h
                cases h7 : orErr NwErr.keyErr (PyD.get? sub2 root) with
                | error e =>
                  simp only [h7] at h
                  cases h
                | ok outs =>
                  simp only [h7] at h
                  injection h with h8
                  rw [Prod.mk.injEq] at h8
                  obtain ⟨hout, hst2⟩ := h8
                  rw [← hst2]
                  exact hcond
          · cases h

set_option maxRecDepth 10000 in
/-- Witness for **C3**: the three-sample two-interval sequence `exTs3` is
valid and its snapshots have 4 parent and 5 time entries; one concrete
successful `NewickGenerator.next` call returns the checked sizes. -/
theorem claim3_witness :
    (∃ ys fin, spRun exTs3 = .ok (ys, fin) ∧
      ∀ y ∈ ys, y.piSnap.length = 2 * exTs3.sampleSize - 2 ∧
        y.tauSnap.length = 2 * exTs3.sampleSize - 1) ∧
    ((⟨[(3, (1, 2))], [(1, "1.000"), (2, "1.000")],
        [(1, 0), (2, 0), (3, 1)], [(1, 3), (2, 3)],
        [(1, "1:1.000"), (2, "2:1.000"),
         (3, "(1:1.000,2:1.000);")]⟩ : NwState).time.length = 2 * 2 - 1 ∧
      ([(1, 3), (2, 3)] : PyD.Dict Nat).length = 2 * 2 - 2 ∧
      ([(1, "1.000"), (2, "1.000")] : PyD.Dict String).length = 2 * 2 - 2) :=
  ⟨claim3_coalesced_counts.1 exTs3 (by decide),
   claim3_coalesced_counts.2 2 3 (nwInit 2) (5, [], [⟨1, 2, 3, 1⟩])
     (5, "(1:1.000,2:1.000);")
     ⟨[(3, (1, 2))], [(1, "1.000"), (2, "1.000")],
      [(1, 0), (2, 0), (3, 1)], [(1, 3), (2, 3)],
      [(1, "1:1.000"), (2, "2:1.000"), (3, "(1:1.000,2:1.000);")]⟩
     (by decide)⟩

/-! ## C2: cache coherence of the Newick builder -/

/-- The one-layer unfolding of `naiveStr`. -/
theorem naive_unfold (ch : PyD.Dict (Nat × Nat)) (bl : PyD.Dict String)
    (par : PyD.Dict Nat) (g w : Nat) :
    naiveStr ch bl par (g + 1) w =
      (match PyD.get? ch w with
      | some (a, b) => do
        let s1 ← naiveStr ch bl par g a
        let s2 ← naiveStr ch bl par g b
        if PyD.contains par w then do
          let l ← PyD.get? bl w
          some ("(" ++ s1 ++ "," ++ s2 ++ ")" ++ ":" ++ l)
        else
          some ("(" ++ s1 ++ "," ++ s2 ++ ")" ++ ";")
      | none => do
        let l ← PyD.get? bl w
        some (toString w ++ ":" ++ l)) := rfl

theorem naiveStr_mono (ch : PyD.Dict (Nat × Nat)) (bl : PyD.Dict String)
    (par : PyD.Dict Nat) :
    ∀ fuel v s, naiveStr ch bl par fuel v = some s →
      naiveStr ch bl par (fuel + 1) v = some s := by
  intro fuel
  induction fuel with
  | zero =>
    intro v s h
    cases h
  | succ f ih =>
    intro v s h
    rw [naive_unfold] at h
    rw [naive_unfold]
    cases hcv : PyD.get? ch v with
    | none =>
      rw [hcv] at h
      exact h
    | some p =>
      obtain ⟨a, b⟩ := p
      rw [hcv] at h
      simp only [Option.bind_eq_bind] at h ⊢
      cases h1 : naiveStr ch bl par f a with
      | none => rw [h1] at h; cases h
      | some s1 =>
        rw [h1] at h
        rw [ih a s1 h1]
        simp only [Option.some_bind] at h ⊢
        cases h2 : naiveStr ch bl par f b with
        | none => rw [h2] at h; cases h
        | some s2 =>
          rw [h2] at h
          rw [ih b s2 h2]
          simp only [Option.some_bind] at h ⊢
          exact h

theorem naiveStr_mono_le (ch : PyD.Dict (Nat × Nat)) (bl : PyD.Dict String)
    (par : PyD.Dict Nat) (f1 f2 : Nat) (hle : f1 ≤ f2) (v : Nat) (s : String)
    (h : naiveStr ch bl par f1 v = some s) :
    naiveStr ch bl par f2 v = some s := by
  induction f2 with
  | zero =>
    have : f1 = 0 := Nat.le_zero.mp hle
    subst this
    exact h
  | succ f ih =>
    rcases Nat.lt_or_ge f1 (f + 1) with hlt | hge
    · exact naiveStr_mono ch bl par f v s (ih (Nat.lt_succ_iff.mp hlt))
    · have : f1 = f + 1 := Nat.le_antisymm hle hge
      subst this
      exact h

/-- Two defined values of `naiveStr` at different fuels agree. -/
theorem naiveStr_unique (ch : PyD.Dict (Nat × Nat)) (bl : PyD.Dict String)
    (par : PyD.Dict Nat) (f1 f2 : Nat) (v : Nat) (s1 s2 : String)
    (h1 : naiveStr ch bl par f1 v = some s1)
    (h2 : naiveStr ch bl par f2 v = some s2) : s1 = s2 := by
  have ha := naiveStr_mono_le ch bl par f1 (max f1 f2) (le_max_left _ _) v s1 h1
  have hb := naiveStr_mono_le ch bl par f2 (max f1 f2) (le_max_right _ _) v s2 h2
  rw [ha] at hb
  exact Option.some.inj hb

theorem reach_mono (ch1 ch2 : PyD.Dict (Nat × Nat))
    (hsub : ∀ w x, PyD.get? ch2 w = some x → PyD.get? ch1 w = some x) :
    ∀ v u, Reach ch2 v u → Reach ch1 v u := by
  intro v u h
  induction h with
  | refl w => exact Reach.refl w
  | left he _ ih => exact Reach.left (hsub _ _ he) ih
  | right he _ ih => exact Reach.right (hsub _ _ he) ih

/-- `naiveStr` only reads data at `children`-reachable nodes. -/
theorem naive_congr (ch1 ch2 : PyD.Dict (Nat × Nat))
    (bl1 bl2 : PyD.Dict String) (par1 par2 : PyD.Dict Nat) :
    ∀ fuel v,
    (∀ u, Reach ch1 v u → PyD.get? ch2 u = PyD.get? ch1 u ∧
      PyD.get? bl2 u = PyD.get? bl1 u ∧
      PyD.contains par2 u = PyD.contains par1 u) →
    naiveStr ch2 bl2 par2 fuel v = naiveStr ch1 bl1 par1 fuel v := by
  intro fuel
  induction fuel with
  | zero => intro v _; rfl
  | succ f ih =>
    intro v hag
    obtain ⟨hch, hbl, hpar⟩ := hag v (Reach.refl v)
    rw [naiveStr, naiveStr, hch]
    cases hcv : PyD.get? ch1 v with
    | none =>
      simp only [hbl]
    | some p =>
      obtain ⟨a, b⟩ := p
      have iha := ih a (fun u hu => hag u (Reach.left hcv hu))
      have ihb := ih b (fun u hu => hag u (Reach.right hcv hu))
      simp only [iha, ihb, hpar, hbl]

theorem findRoot_mono (par : PyD.Dict Nat) :
    ∀ fuel v r, findRoot par fuel v = some r →
      findRoot par (fuel + 1) v = some r := by
  intro fuel
  induction fuel with
  | zero => intro v r h; cases h
  | succ f ih =>
    intro v r h
    cases hp : PyD.get? par v with
    | none =>
      rw [findRoot, hp] at h
      rw [findRoot, hp]
      exact h
    | some p =>
      rw [findRoot, hp] at h
      rw [findRoot, hp]
      exact ih p r h

theorem findRoot_mono_le (par : PyD.Dict Nat) (f1 f2 : Nat) (hle : f1 ≤ f2)
    (v r : Nat) (h : findRoot par f1 v = some r) : findRoot par f2 v = some r := by
  induction f2 with
  | zero =>
    have : f1 = 0 := Nat.le_zero.mp hle
    subst this
    exact h
  | succ f ih =>
    rcases Nat.lt_or_ge f1 (f + 1) with hlt | hge
    · exact findRoot_mono par f v r (ih (Nat.lt_succ_iff.mp hlt))
    · have : f1 = f + 1 := Nat.le_antisymm hle hge
      subst this
      exact h

theorem findRoot_parless (par : PyD.Dict Nat) :
    ∀ fuel v r, findRoot par fuel v = some r → PyD.get? par r = none := by
  intro fuel
  induction fuel with
  | zero => intro v r h; cases h
  | succ f ih =>
    intro v r h
    rw [findRoot] at h
    cases hp : PyD.get? par v with
    | none =>
      rw [hp] at h
      cases h
      exact hp
    | some p =>
      rw [hp] at h
      exact ih p r h

theorem upchain_snoc (par : PyD.Dict Nat) :
    ∀ w v u, UpChainBare par w v → PyD.get? par v = some u →
      UpChainBare par w u := by
  intro w v u h
  induction h with
  | here k =>
    intro he
    exact UpChainBare.up he (UpChainBare.here u)
  | up h1 _ ih =>
    intro he
    exact UpChainBare.up h1 (ih he)

/-- A terminating climb never returns to its start: the parent map has no
cycle through any node it can see. -/
theorem no_return (par : PyD.Dict Nat) :
    ∀ fuel v u, (findRoot par fuel v).isSome = true →
      PyD.get? par v = some u → UpChainBare par u v → False := by
  intro fuel
  induction fuel with
  | zero =>
    intro v u h
    rw [findRoot] at h
    cases h
  | succ f ih =>
    intro v u h hpv hch
    rw [findRoot, hpv] at h
    by_cases huv : u = v
    · subst huv
      exact ih u u h hpv (UpChainBare.here u)
    · cases hch with
      | here => exact huv rfl
      | up h1 h2 =>
        exact ih u _ h h1 (upchain_snoc par _ _ _ h2 hpv)

theorem findRoot_erase_isSome (par : PyD.Dict Nat) (k : Nat)
    (hnd : (par.map Prod.fst).Nodup) :
    ∀ fuel v, (findRoot par fuel v).isSome = true →
      (findRoot (PyD.erase par k) fuel v).isSome = true := by
  intro fuel
  induction fuel with
  | zero =>
    intro v h
    rw [findRoot] at h
    cases h
  | succ f ih =>
    intro v h
    rw [findRoot] at h
    rw [findRoot]
    by_cases hvk : v = k
    · subst hvk
      rw [PyD.get?_erase_self par v hnd]
      simp
    · rw [PyD.get?_erase_ne par k v (fun he => hvk he.symm)]
      cases hp : PyD.get? par v with
      | none => simp
      | some p =>
        rw [hp] at h
        exact ih p h

theorem PyD.keys_erase_sublist {β : Type} (d : PyD.Dict β) (k : Nat) :
    ((PyD.erase d k).map Prod.fst).Sublist (d.map Prod.fst) := by
  induction d with
  | nil => simp [PyD.erase]
  | cons hd t ih =>
    obtain ⟨k2, v2⟩ := hd
    by_cases hk : k2 = k
    · simp only [PyD.erase, if_pos hk, List.map_cons]
      exact (List.Sublist.refl _).cons _
    · simp only [PyD.erase, if_neg hk, List.map_cons]
      exact ih.cons₂ _

theorem PyD.contains_erase_ne {β : Type} (d : PyD.Dict β) (k u : Nat)
    (h : u ≠ k) : PyD.contains (PyD.erase d k) u = PyD.contains d u := by
  simp only [PyD.contains]
  rw [PyD.get?_erase_ne d k u (fun he => h he.symm)]

theorem PyD.contains_erase_mono {β : Type} (d : PyD.Dict β) (k u : Nat)
    (h : PyD.contains (PyD.erase d k) u = true) : PyD.contains d u = true := by
  induction d with
  | nil => simpa [PyD.erase] using h
  | cons hd t ih =>
    obtain ⟨k2, v2⟩ := hd
    by_cases hk : k2 = k
    · simp only [PyD.erase, if_pos hk] at h
      simp only [PyD.contains, PyD.get?]
      by_cases hu : k2 = u
      · simp [hu]
      · simp only [if_neg hu]
        exact h
    · simp only [PyD.erase, if_neg hk] at h
      simp only [PyD.contains, PyD.get?] at h ⊢
      by_cases hu : k2 = u
      · simp [hu]
      · simp only [if_neg hu] at h ⊢
        exact ih h

theorem propagate_unfold (par : PyD.Dict Nat) (f : Nat) (sub : PyD.Dict String)
    (k : Nat) :
    propagate par (f + 1) sub k =
      (if PyD.contains sub k then
        (match PyD.get? par k with
         | some p => propagate par f (PyD.erase sub k) p
         | none => PyD.erase sub k)
      else sub) := rfl

theorem cachedChain_unfold (par : PyD.Dict Nat) (f : Nat)
    (sub : PyD.Dict String) (k : Nat) :
    cachedChain par (f + 1) sub k =
      (if PyD.contains sub k then
        k :: (match PyD.get? par k with
              | some p => cachedChain par f (PyD.erase sub k) p
              | none => [])
      else []) := rfl

/-- What `_propogate_subtree_loss` leaves behind: exactly the cache minus
the maximal cached parent-chain. -/
theorem propagate_eq (par : PyD.Dict Nat) :
    ∀ (fuel : Nat) (sub : PyD.Dict String) (k : Nat),
    (sub.map Prod.fst).Nodup → sub.length < fuel →
    ∀ v, PyD.get? (propagate par fuel sub k) v =
      if v ∈ cachedChain par fuel sub k then none else PyD.get? sub v := by
  intro fuel
  induction fuel with
  | zero =>
    intro sub k _ hlen
    omega
  | succ f ih =>
    intro sub k hnd hlen v
    rw [propagate_unfold, cachedChain_unfold]
    by_cases hc : PyD.contains sub k
    · rw [if_pos hc, if_pos hc]
      have hlen2 : (PyD.erase sub k).length < f := by
        have := PyD.length_erase_of_contains sub k hc
        omega
      have hnd2 : ((PyD.erase sub k).map Prod.fst).Nodup :=
        hnd.sublist (PyD.keys_erase_sublist sub k)
      cases hp : PyD.get? par k with
      | some p =>
        rw [ih (PyD.erase sub k) p hnd2 hlen2 v]
        by_cases hmem : v ∈ cachedChain par f (PyD.erase sub k) p
        · rw [if_pos hmem, if_pos (List.mem_cons_of_mem _ hmem)]
        · rw [if_neg hmem]
          by_cases hvk : v = k
          · subst hvk
            rw [if_pos (List.mem_cons_self _ _), PyD.get?_erase_self sub v hnd]
          · rw [PyD.get?_erase_ne sub k v (fun he => hvk he.symm),
              if_neg (by
                intro hm
                rcases List.mem_cons.mp hm with he | hm2
                · exact hvk he
                · exact hmem hm2)]
      | none =>
        by_cases hvk : v = k
        · subst hvk
          rw [if_pos (by simp), PyD.get?_erase_self sub v hnd]
        · rw [PyD.get?_erase_ne sub k v (fun he => hvk he.symm),
            if_neg (by
              intro hm
              rcases List.mem_cons.mp hm with he | hm2
              · exact hvk he
              · cases hm2)]
    · rw [if_neg hc, if_neg hc]
      simp

theorem chain_mem_cached (par : PyD.Dict Nat) :
    ∀ (fuel : Nat) (sub : PyD.Dict String) (k u : Nat),
    u ∈ cachedChain par fuel sub k → PyD.contains sub u = true := by
  intro fuel
  induction fuel with
  | zero =>
    intro sub k u h
    cases h
  | succ f ih =>
    intro sub k u h
    rw [cachedChain_unfold] at h
    by_cases hc : PyD.contains sub k
    · rw [if_pos hc] at h
      rcases List.mem_cons.mp h with he | hm
      · subst he
        exact hc
      · cases hp : PyD.get? par k with
        | some p =>
          rw [hp] at hm
          exact PyD.contains_erase_mono sub k u (ih _ p u hm)
        | none =>
          rw [hp] at hm
          cases hm
    · rw [if_neg hc] at h
      cases h

/-- The deleted chain swallows the cached parent of any of its members. -/
theorem chain_up (par : PyD.Dict Nat) :
    ∀ (fuel : Nat) (sub : PyD.Dict String) (k a w : Nat),
    (sub.map Prod.fst).Nodup → sub.length < fuel →
    a ∈ cachedChain par fuel sub k → PyD.get? par a = some w →
    PyD.contains sub w = true → w ∈ cachedChain par fuel sub k := by
  intro fuel
  induction fuel with
  | zero =>
    intro sub k a w _ hlen
    omega
  | succ f ih =>
    intro sub k a w hnd hlen hmem hpa hw
    rw [cachedChain_unfold] at hmem ⊢
    by_cases hc : PyD.contains sub k
    · rw [if_pos hc] at hmem ⊢
      have hlen2 : (PyD.erase sub k).length < f := by
        have := PyD.length_erase_of_contains sub k hc
        omega
      have hnd2 : ((PyD.erase sub k).map Prod.fst).Nodup :=
        hnd.sublist (PyD.keys_erase_sublist sub k)
      rcases List.mem_cons.mp hmem with he | hm
      · subst he
        rw [hpa] at hmem ⊢
        by_cases hwk : w = a
        · subst hwk
          exact List.mem_cons_self _ _
        · refine List.mem_cons_of_mem _ ?_
          have hw2 : PyD.contains (PyD.erase sub a) w = true := by
            rw [PyD.contains_erase_ne sub a w hwk]
            exact hw
          show w ∈ cachedChain par f (PyD.erase sub a) w
          cases f with
          | zero => omega
          | succ f2 =>
            rw [cachedChain_unfold, if_pos hw2]
            exact List.mem_cons_self _ _
      · cases hp : PyD.get? par k with
        | some p =>
          rw [hp] at hm
          by_cases hwk : w = k
          · subst hwk
            exact List.mem_cons_self _ _
          · refine List.mem_cons_of_mem _ ?_
            show w ∈ cachedChain par f (PyD.erase sub k) p
            refine ih (PyD.erase sub k) p a w hnd2 hlen2 hm hpa ?_
            rw [PyD.contains_erase_ne sub k w hwk]
            exact hw
        | none =>
          rw [hp] at hm
          cases hm
    · rw [if_neg hc] at hmem
      cases hmem

theorem upcached_bare (par : PyD.Dict Nat) (sub : PyD.Dict String) :
    ∀ a b, UpChainCached par sub a b → UpChainBare par a b := by
  intro a b h
  induction h with
  | here _ => exact UpChainBare.here _
  | up _ h2 _ ih => exact UpChainBare.up h2 ih

theorem upchaincached_erase (par : PyD.Dict Nat) (sub : PyD.Dict String)
    (k : Nat) :
    ∀ p v, UpChainCached par sub p v →
    (∀ u, UpChainBare par p u → u ≠ k) →
    UpChainCached par (PyD.erase sub k) p v := by
  intro p v h
  induction h with
  | here hc =>
    intro hav
    refine UpChainCached.here ?_
    rw [PyD.contains_erase_ne sub k _ (hav _ (UpChainBare.here _))]
    exact hc
  | up hc h2 _ ih =>
    intro hav
    refine UpChainCached.up ?_ h2 (ih (fun u hu => hav u (UpChainBare.up h2 hu)))
    rw [PyD.contains_erase_ne sub k _ (hav _ (UpChainBare.here _))]
    exact hc

/-- Every fully-cached parent chain from the climb start is inside the
deleted chain (terminating climbs only). -/
theorem chain_covers (par : PyD.Dict Nat) :
    ∀ (ffuel fuel : Nat) (sub : PyD.Dict String) (k v : Nat),
    (sub.map Prod.fst).Nodup → sub.length < fuel →
    (findRoot par ffuel k).isSome = true →
    UpChainCached par sub k v →
    v ∈ cachedChain par fuel sub k := by
  intro ffuel
  induction ffuel with
  | zero =>
    intro fuel sub k v _ _ hfr
    rw [findRoot] at hfr
    cases hfr
  | succ ff ih =>
    intro fuel sub k v hnd hlen hfr hch
    cases fuel with
    | zero => omega
    | succ f =>
    cases hch with
    | here hc =>
      rw [cachedChain_unfold, if_pos hc]
      exact List.mem_cons_self _ _
    | up hc hp hch2 =>
      rw [cachedChain_unfold, if_pos hc, hp]
      rename_i p
      have hfr2 : (findRoot par ff p).isSome = true := by
        rw [findRoot, hp] at hfr
        exact hfr
      have havoid : ∀ u, UpChainBare par p u → u ≠ k := by
        intro u hu he
        subst he
        exact no_return par (ff + 1) u p hfr hp hu
      have hch3 := upchaincached_erase par sub k p v hch2 havoid
      have hlen2 : (PyD.erase sub k).length < f := by
        have := PyD.length_erase_of_contains sub k hc
        omega
      have hnd2 : ((PyD.erase sub k).map Prod.fst).Nodup :=
        hnd.sublist (PyD.keys_erase_sublist sub k)
      exact List.mem_cons_of_mem _ (ih f (PyD.erase sub k) p v hnd2 hlen2 hfr2 hch3)

theorem propagate_subset (par : PyD.Dict Nat) (fuel : Nat)
    (sub : PyD.Dict String) (k : Nat) (hnd : (sub.map Prod.fst).Nodup)
    (hlen : sub.length < fuel) (v : Nat) (s : String)
    (h : PyD.get? (propagate par fuel sub k) v = some s) :
    PyD.get? sub v = some s := by
  rw [propagate_eq par fuel sub k hnd hlen v] at h
  by_cases hm : v ∈ cachedChain par fuel sub k
  · rw [if_pos hm] at h
    cases h
  · rw [if_neg hm] at h
    exact h

/-- A cached node at the top of a fully-cached chain from the climb start
does not survive the climb. -/
theorem propagate_kills (par : PyD.Dict Nat) (ffuel fuel : Nat)
    (sub : PyD.Dict String) (k v : Nat) (hnd : (sub.map Prod.fst).Nodup)
    (hlen : sub.length < fuel) (hfr : (findRoot par ffuel k).isSome = true)
    (hch : UpChainCached par sub k v) :
    PyD.get? (propagate par fuel sub k) v = none := by
  rw [propagate_eq par fuel sub k hnd hlen v,
    if_pos (chain_covers par ffuel fuel sub k v hnd hlen hfr hch)]

theorem propagate_keys_sublist (par : PyD.Dict Nat) :
    ∀ (fuel : Nat) (sub : PyD.Dict String) (k : Nat),
    ((propagate par fuel sub k).map Prod.fst).Sublist (sub.map Prod.fst) := by
  intro fuel
  induction fuel with
  | zero =>
    intro sub k
    exact List.Sublist.refl _
  | succ f ih =>
    intro sub k
    rw [propagate_unfold]
    by_cases hc : PyD.contains sub k
    · rw [if_pos hc]
      cases hp : PyD.get? par k with
      | some p => exact (ih (PyD.erase sub k) p).trans (PyD.keys_erase_sublist sub k)
      | none => exact PyD.keys_erase_sublist sub k
    · rw [if_neg hc]

theorem upchaincached_snoc (par : PyD.Dict Nat) (sub : PyD.Dict String) :
    ∀ u a v, UpChainCached par sub u a → PyD.get? par a = some v →
    PyD.contains sub v = true → UpChainCached par sub u v := by
  intro u a v h
  induction h with
  | here hc =>
    intro hp hv
    exact UpChainCached.up hc hp (UpChainCached.here hv)
  | up hc h2 _ ih =>
    intro hp hv
    exact UpChainCached.up hc h2 (ih hp hv)

/-- Under the child-closure and `children → parent` consistency, a cached
ancestor is connected to any of its cone nodes by a fully-cached parent
chain. -/
theorem reach_cached (ch : PyD.Dict (Nat × Nat)) (par : PyD.Dict Nat)
    (sub : PyD.Dict String)
    (hclo : ∀ v a b, PyD.contains sub v = true → PyD.get? ch v = some (a, b) →
      PyD.contains sub a = true ∧ PyD.contains sub b = true)
    (hdual : ∀ w a b, PyD.get? ch w = some (a, b) →
      PyD.get? par a = some w ∧ PyD.get? par b = some w) :
    ∀ v u, Reach ch v u → PyD.contains sub v = true →
    UpChainCached par sub u v := by
  intro v u h
  induction h with
  | refl w =>
    intro hc
    exact UpChainCached.here hc
  | @left v2 a b u2 he _ ih =>
    intro hc
    have ha := (hclo v2 a b hc he).1
    exact upchaincached_snoc par sub u2 a v2 (ih ha) (hdual v2 a b he).1 hc
  | @right v2 a b u2 he _ ih =>
    intro hc
    have hb := (hclo v2 a b hc he).2
    exact upchaincached_snoc par sub u2 b v2 (ih hb) (hdual v2 a b he).2 hc

theorem applyInRec_proj (st : NwState) (d : DRec) :
    nwProj (applyInRec st d) = nvInRec (nwProj st) d := rfl

theorem applyOutRec_proj (st : NwState) (d : DRec) :
    (applyOutRec st d).map nwProj = nvOutRec (nwProj st) d := by
  unfold applyOutRec nvOutRec nwProj
  simp only [Option.bind_eq_bind]
  cases h1 : PyD.del st.children d.parent with
  | none => rfl
  | some ch =>
    simp only [Option.some_bind]
    cases h2 : PyD.del st.time d.parent with
    | none => rfl
    | some tm =>
      simp only [Option.some_bind]
      cases h3 : PyD.del st.parent d.c1 with
      | none => rfl
      | some par1 =>
        simp only [Option.some_bind]
        cases h4 : PyD.del st.branchLength d.c1 with
        | none => rfl
        | some bl1 =>
          simp only [Option.some_bind]
          cases h5 : PyD.del par1 d.c2 with
          | none => rfl
          | some par2 =>
            simp only [Option.some_bind]
            cases h6 : PyD.del bl1 d.c2 with
            | none => rfl
            | some bl2 => rfl

theorem applyBL_proj (prec : Nat) (st : NwState) (d : DRec) :
    (applyBL prec st d).map nwProj = nvBL prec (nwProj st) d := by
  unfold applyBL nvBL nwProj
  simp only [Option.bind_eq_bind]
  cases h1 : PyD.get? st.time d.c1 with
  | none => rfl
  | some t1 =>
    simp only [Option.some_bind]
    cases h2 : PyD.get? st.time d.c2 with
    | none => rfl
    | some t2 => rfl

theorem foldOpt_out_proj (l : List DRec) :
    ∀ st : NwState,
    (foldOpt applyOutRec st l).map nwProj = foldOpt nvOutRec (nwProj st) l := by
  induction l with
  | nil => intro st; rfl
  | cons d rest ih =>
    intro st
    simp only [foldOpt, Option.bind_eq_bind]
    cases h1 : applyOutRec st d with
    | none =>
      have := applyOutRec_proj st d
      rw [h1] at this
      rw [← this]
      rfl
    | some st2 =>
      have := applyOutRec_proj st d
      rw [h1] at this
      rw [← this]
      simp only [Option.map_some', Option.some_bind]
      exact ih st2

theorem foldl_in_proj (l : List DRec) :
    ∀ st : NwState,
    nwProj (List.foldl applyInRec st l) = List.foldl nvInRec (nwProj st) l := by
  induction l with
  | nil => intro st; rfl
  | cons d rest ih =>
    intro st
    simp only [List.foldl_cons]
    rw [ih (applyInRec st d), applyInRec_proj]

theorem foldOpt_bl_proj (prec : Nat) (l : List DRec) :
    ∀ st : NwState,
    (foldOpt (applyBL prec) st l).map nwProj =
      foldOpt (nvBL prec) (nwProj st) l := by
  induction l with
  | nil => intro st; rfl
  | cons d rest ih =>
    intro st
    simp only [foldOpt, Option.bind_eq_bind]
    cases h1 : applyBL prec st d with
    | none =>
      have := applyBL_proj prec st d
      rw [h1] at this
      rw [← this]
      rfl
    | some st2 =>
      have := applyBL_proj prec st d
      rw [h1] at this
      rw [← this]
      simp only [Option.map_some', Option.some_bind]
      exact ih st2

theorem upcached_head (par : PyD.Dict Nat) (sub : PyD.Dict String) (a b : Nat)
    (h : UpChainCached par sub a b) : PyD.contains sub a = true := by
  cases h with
  | here hc => exact hc
  | up hc _ _ => exact hc

/-- The deleted chain absorbs cached chains out of any of its members. -/
theorem chain_absorb (par : PyD.Dict Nat) (fuel : Nat) (sub : PyD.Dict String)
    (k : Nat) (hnd : (sub.map Prod.fst).Nodup) (hlen : sub.length < fuel) :
    ∀ m v, UpChainCached par sub m v → m ∈ cachedChain par fuel sub k →
    v ∈ cachedChain par fuel sub k := by
  intro m v h
  induction h with
  | here _ => exact fun hm => hm
  | up _ h2 h3 ih =>
    intro hm
    exact ih (chain_up par fuel sub k _ _ hnd hlen hm h2 (upcached_head _ _ _ _ h3))

theorem upchain_erase_par (par : PyD.Dict Nat) (sub : PyD.Dict String) (k : Nat) :
    ∀ m v, UpChainCached par sub m v →
    (∀ u, UpChainBare par m u → u ≠ k) →
    UpChainCached (PyD.erase par k) sub m v := by
  intro m v h
  induction h with
  | here hc =>
    intro _
    exact UpChainCached.here hc
  | up hc h2 _ ih =>
    intro hav
    refine UpChainCached.up hc ?_ (ih (fun u hu => hav u (UpChainBare.up h2 hu)))
    rw [PyD.get?_erase_ne par k _ ?_]
    · exact h2
    · intro he
      exact hav _ (UpChainBare.here _) he.symm

theorem propagate_contains_mono (par : PyD.Dict Nat) (fuel : Nat)
    (sub : PyD.Dict String) (k v : Nat)
    (h : PyD.contains (propagate par fuel sub k) v = true) :
    PyD.contains sub v = true := by
  simp only [PyD.contains] at h ⊢
  have hkeys := propagate_keys_sublist par fuel sub k
  rw [← PyD.mem_keys_iff_get] at h ⊢
  exact hkeys.mem h

theorem PyD.del_eq_erase {β : Type} (d : PyD.Dict β) (k : Nat)
    (d2 : PyD.Dict β) (h : PyD.del d k = some d2) :
    d2 = PyD.erase d k ∧ PyD.contains d k = true := by
  unfold PyD.del at h
  by_cases hc : PyD.contains d k
  · rw [if_pos hc] at h
    exact ⟨(Option.some.inj h).symm, hc⟩
  · rw [if_neg hc] at h
    cases h

theorem wfMid_spec (st : NvState) (h : wfMidB st = true) :
    ((st.children.map Prod.fst).Nodup ∧ (st.branchLength.map Prod.fst).Nodup ∧
      (st.time.map Prod.fst).Nodup ∧ (st.parent.map Prod.fst).Nodup) ∧
    (∀ p a b, PyD.get? st.children p = some (a, b) →
      PyD.get? st.parent a = some p ∧ PyD.get? st.parent b = some p ∧ a ≠ b) ∧
    (∀ c p, PyD.get? st.parent c = some p →
      ∃ a b, PyD.get? st.children p = some (a, b) ∧ (c = a ∨ c = b)) := by
  unfold wfMidB at h
  simp only [Bool.and_eq_true, nodupB_iff, List.all_eq_true] at h
  obtain ⟨⟨⟨⟨⟨hnc, hnb⟩, hnt⟩, hnp⟩, hcp⟩, hpc⟩ := h
  refine ⟨⟨hnc, hnb, hnt, hnp⟩, ?_, ?_⟩
  · intro p a b hg
    have hm := (PyD.get?_eq_some_iff_mem st.children hnc p (a, b)).mp hg
    have h2 := hcp (p, (a, b)) hm
    simp only [Bool.and_eq_true, decide_eq_true_eq, Bool.not_eq_true',
      decide_eq_false_iff_not] at h2
    exact ⟨h2.1.1, h2.1.2, h2.2⟩
  · intro c p hg
    have hm := (PyD.get?_eq_some_iff_mem st.parent hnp c p).mp hg
    have h2 := hpc (c, p) hm
    cases hcg : PyD.get? st.children p with
    | none =>
      rw [hcg] at h2
      cases h2
    | some pr =>
      obtain ⟨a, b⟩ := pr
      rw [hcg] at h2
      simp only [Bool.or_eq_true, decide_eq_true_eq] at h2
      exact ⟨a, b, rfl, h2⟩

theorem outRec_spec (st : NvState) (d : DRec) (h : outRecB st d = true) :
    PyD.get? st.children d.parent = some (d.c1, d.c2) ∧
    (findRoot st.parent (st.parent.length + 1) d.c1).isSome = true ∧
    (findRoot st.parent (st.parent.length + 1) d.c2).isSome = true := by
  unfold outRecB at h
  simp only [Bool.and_eq_true, decide_eq_true_eq] at h
  exact ⟨h.1.1, h.1.2, h.2⟩

theorem inRec_spec (st : NvState) (d : DRec) (h : inRecB st d = true) :
    PyD.contains st.time d.parent = false ∧
    PyD.contains st.parent d.parent = false ∧
    PyD.contains st.children d.parent = false ∧
    PyD.contains st.parent d.c1 = false ∧
    PyD.contains st.parent d.c2 = false ∧
    d.c1 ≠ d.c2 ∧
    PyD.contains st.time d.c1 = true ∧ PyD.contains st.time d.c2 = true := by
  unfold inRecB at h
  simp only [Bool.and_eq_true, Bool.not_eq_true', decide_eq_false_iff_not] at h
  exact ⟨h.1.1.1.1.1.1.1, h.1.1.1.1.1.1.2, h.1.1.1.1.1.2, h.1.1.1.1.2,
    h.1.1.1.2, h.1.1.2, h.1.2, h.2⟩

theorem PyD.contains_iff_get {β : Type} (d : PyD.Dict β) (k : Nat) :
    PyD.contains d k = true ↔ ∃ v, PyD.get? d k = some v := by
  simp only [PyD.contains, Option.isSome_iff_exists]

/-- After a climb, a cached chain either got swallowed entirely or is
still fully cached. -/
theorem upchain_after_climb (par : PyD.Dict Nat) (sub : PyD.Dict String)
    (k0 fuel : Nat) (hnd : (sub.map Prod.fst).Nodup)
    (hlen : sub.length < fuel) :
    ∀ m v, UpChainCached par sub m v →
    v ∈ cachedChain par fuel sub k0 ∨
      UpChainCached par (propagate par fuel sub k0) m v := by
  intro m v h
  induction h with
  | here hc =>
    rename_i w
    by_cases hm : w ∈ cachedChain par fuel sub k0
    · exact Or.inl hm
    · refine Or.inr (UpChainCached.here ?_)
      rw [PyD.contains_iff_get]
      obtain ⟨s, hs⟩ := (PyD.contains_iff_get sub w).mp hc
      refine ⟨s, ?_⟩
      rw [propagate_eq par fuel sub k0 hnd hlen w, if_neg hm]
      exact hs
  | up hc h2 hch ih =>
    rcases ih with hl | hr
    · exact Or.inl hl
    · rename_i k p v2
      by_cases hm : k ∈ cachedChain par fuel sub k0
      · exact Or.inl (chain_absorb par fuel sub k0 hnd hlen k v2
          (UpChainCached.up hc h2 hch) hm)
      · refine Or.inr (UpChainCached.up ?_ h2 hr)
        rw [PyD.contains_iff_get]
        obtain ⟨s, hs⟩ := (PyD.contains_iff_get sub k).mp hc
        refine ⟨s, ?_⟩
        rw [propagate_eq par fuel sub k0 hnd hlen k, if_neg hm]
        exact hs

theorem upbare_inv (par : PyD.Dict Nat) (a b : Nat) (h : UpChainBare par a b) :
    a = b ∨ ∃ p, PyD.get? par a = some p ∧ UpChainBare par p b := by
  cases h with
  | here _ => exact Or.inl rfl
  | up h1 h2 => exact Or.inr ⟨_, h1, h2⟩

/-- Retiring one record keeps the cache coherent: the eager cache
invalidation deletes every cached node whose subtree string could have
mentioned the removed edges. -/
theorem outRec_coherent (st : NwState) (d : DRec) (st2 : NwState)
    (happ : applyOutRec st d = some st2)
    (hmid : wfMidB (nwProj st) = true)
    (hout : outRecB (nwProj st) d = true)
    (hco : Coherent st) (hsnd : (st.subtree.map Prod.fst).Nodup) :
    Coherent st2 ∧ (st2.subtree.map Prod.fst).Nodup := by
  obtain ⟨⟨hnc0, hnb0, hnt0, hnp0⟩, hcp0, hpc0⟩ := wfMid_spec (nwProj st) hmid
  have hnc : (st.children.map Prod.fst).Nodup := hnc0
  have hnt : (st.time.map Prod.fst).Nodup := hnt0
  have hnp : (st.parent.map Prod.fst).Nodup := hnp0
  have hcp : ∀ p a b, PyD.get? st.children p = some (a, b) →
      PyD.get? st.parent a = some p ∧ PyD.get? st.parent b = some p ∧ a ≠ b := hcp0
  obtain ⟨hq0, hfr1x, hfr2x⟩ := outRec_spec (nwProj st) d hout
  have hq : PyD.get? st.children d.parent = some (d.c1, d.c2) := hq0
  have hfr1 : (findRoot st.parent (st.parent.length + 1) d.c1).isSome = true := hfr1x
  have hfr2 : (findRoot st.parent (st.parent.length + 1) d.c2).isSome = true := hfr2x
  obtain ⟨hclo, hcft, hcorr⟩ := hco
  simp only [applyOutRec, Option.bind_eq_bind] at happ
  cases h1 : PyD.del st.children d.parent with
  | none => rw [h1] at happ; cases happ
  | some ch2 =>
  rw [h1] at happ
  simp only [Option.some_bind] at happ
  cases h2 : PyD.del st.time d.parent with
  | none => rw [h2] at happ; cases happ
  | some tm2 =>
  rw [h2] at happ
  simp only [Option.some_bind] at happ
  cases h3 : PyD.del st.parent d.c1 with
  | none => rw [h3] at happ; cases happ
  | some par1 =>
  rw [h3] at happ
  simp only [Option.some_bind] at happ
  cases h4 : PyD.del st.branchLength d.c1 with
  | none => rw [h4] at happ; cases happ
  | some bl1 =>
  rw [h4] at happ
  simp only [Option.some_bind] at happ
  cases h5 : PyD.del par1 d.c2 with
  | none => rw [h5] at happ; cases happ
  | some par2 =>
  rw [h5] at happ
  simp only [Option.some_bind] at happ
  cases h6 : PyD.del bl1 d.c2 with
  | none => rw [h6] at happ; cases happ
  | some bl2 =>
  rw [h6] at happ
  simp only [Option.some_bind] at happ
  injection happ with happ2
  have hpar1e : par1 = PyD.erase st.parent d.c1 := (PyD.del_eq_erase _ _ _ h3).1
  have hch : st2.children = PyD.erase st.children d.parent := by
    rw [← happ2]
    exact (PyD.del_eq_erase _ _ _ h1).1
  have htm : st2.time = PyD.erase st.time d.parent := by
    rw [← happ2]
    exact (PyD.del_eq_erase _ _ _ h2).1
  have hparst : st2.parent = PyD.erase (PyD.erase st.parent d.c1) d.c2 := by
    rw [← happ2]
    show par2 = _
    rw [(PyD.del_eq_erase _ _ _ h5).1, hpar1e]
  have hblst : st2.branchLength = PyD.erase (PyD.erase st.branchLength d.c1) d.c2 := by
    rw [← happ2]
    show bl2 = _
    rw [(PyD.del_eq_erase _ _ _ h6).1, (PyD.del_eq_erase _ _ _ h4).1]
  have hsubeq : st2.subtree = propagate (PyD.erase st.parent d.c1)
      ((propagate st.parent (st.subtree.length + 1) st.subtree d.c1).length + 1)
      (propagate st.parent (st.subtree.length + 1) st.subtree d.c1) d.c2 := by
    rw [← happ2]
    show propagate par1 _ _ d.c2 = _
    rw [hpar1e]
  set S1 := propagate st.parent (st.subtree.length + 1) st.subtree d.c1 with hS1def
  set S2 := propagate (PyD.erase st.parent d.c1) (S1.length + 1) S1 d.c2 with hS2def
  have hfuel1 : st.subtree.length < st.subtree.length + 1 := Nat.lt_succ_self _
  have hfuel2 : S1.length < S1.length + 1 := Nat.lt_succ_self _
  have hS1nd : (S1.map Prod.fst).Nodup :=
    hsnd.sublist (propagate_keys_sublist _ _ _ _)
  have hS2nd : (S2.map Prod.fst).Nodup :=
    hS1nd.sublist (propagate_keys_sublist _ _ _ _)
  have hsub1 : ∀ v s, PyD.get? S2 v = some s → PyD.get? S1 v = some s :=
    fun v s h => propagate_subset _ _ _ _ hS1nd hfuel2 v s h
  have hsub0 : ∀ v s, PyD.get? S1 v = some s → PyD.get? st.subtree v = some s :=
    fun v s h => propagate_subset _ _ _ _ hsnd hfuel1 v s h
  have hcont1 : ∀ v, PyD.contains S2 v = true → PyD.contains S1 v = true :=
    fun v h => propagate_contains_mono _ _ _ _ _ h
  have hcont0 : ∀ v, PyD.contains S1 v = true →
      PyD.contains st.subtree v = true :=
    fun v h => propagate_contains_mono _ _ _ _ _ h
  have hS2noneS1 : ∀ v, PyD.get? S1 v = none → PyD.get? S2 v = none := by
    intro v h
    cases hg : PyD.get? S2 v with
    | none => rfl
    | some s => rw [hsub1 v s hg] at h; cases h
  have hdual : ∀ w a b, PyD.get? st.children w = some (a, b) →
      PyD.get? st.parent a = some w ∧ PyD.get? st.parent b = some w :=
    fun w a b h => ⟨(hcp w a b h).1, (hcp w a b h).2.1⟩
  have hpc1 : PyD.get? st.parent d.c1 = some d.parent := (hcp _ _ _ hq).1
  have hpc2 : PyD.get? st.parent d.c2 = some d.parent := (hcp _ _ _ hq).2.1
  have hc1c2 : d.c1 ≠ d.c2 := (hcp _ _ _ hq).2.2
  have hkill1 : ∀ v, UpChainCached st.parent st.subtree d.c1 v →
      PyD.get? S1 v = none :=
    fun v hchv => propagate_kills st.parent (st.parent.length + 1)
      (st.subtree.length + 1) st.subtree d.c1 v hsnd hfuel1 hfr1 hchv
  have havoid : ∀ u, UpChainBare st.parent d.c2 u → u ≠ d.c1 := by
    intro u hu he
    subst he
    rcases upbare_inv st.parent d.c2 d.c1 hu with he2 | ⟨p, h7, h8⟩
    · exact hc1c2 he2.symm
    · rw [hpc2] at h7
      injection h7 with h7e
      subst h7e
      exact no_return st.parent (st.parent.length + 1) d.c1 d.parent hfr1 hpc1 h8
  have hfr2e : (findRoot (PyD.erase st.parent d.c1)
      (st.parent.length + 1) d.c2).isSome = true :=
    findRoot_erase_isSome st.parent d.c1 hnp (st.parent.length + 1) d.c2 hfr2
  have hkill2 : ∀ v, UpChainCached st.parent st.subtree d.c2 v →
      PyD.get? S2 v = none := by
    intro v hchv
    rcases upchain_after_climb st.parent st.subtree d.c1
      (st.subtree.length + 1) hsnd hfuel1 d.c2 v hchv with hl | hr
    · refine hS2noneS1 v ?_
      rw [propagate_eq st.parent (st.subtree.length + 1) st.subtree d.c1
        hsnd hfuel1 v, if_pos hl]
    · have hr2 := upchain_erase_par st.parent S1 d.c1 d.c2 v hr havoid
      exact propagate_kills (PyD.erase st.parent d.c1) (st.parent.length + 1)
        (S1.length + 1) S1 d.c2 v hS1nd hfuel2 hfr2e hr2
  have hreachkill : ∀ v u, PyD.contains st.subtree v = true →
      Reach st.children v u → u = d.parent ∨ u = d.c1 ∨ u = d.c2 →
      PyD.get? S2 v = none := by
    intro v u hcv hr hu
    have hchain := reach_cached st.children st.parent st.subtree hclo hdual
      v u hr hcv
    rcases hu with he | he | he
    · subst he
      have hqcc : PyD.contains st.subtree d.parent = true :=
        upcached_head _ _ _ _ hchain
      have hc1c : PyD.contains st.subtree d.c1 = true :=
        (hclo d.parent d.c1 d.c2 hqcc hq).1
      exact hS2noneS1 v (hkill1 v (UpChainCached.up hc1c hpc1 hchain))
    · subst he
      exact hS2noneS1 v (hkill1 v hchain)
    · subst he
      exact hkill2 v hchain
  refine ⟨⟨?_, ?_, ?_⟩, by rw [hsubeq]; exact hS2nd⟩
  · -- closure
    intro v a b hcv hgv
    rw [hsubeq] at hcv
    rw [hch] at hgv
    have hvq : v ≠ d.parent := by
      intro he
      subst he
      rw [PyD.get?_erase_self st.children d.parent hnc] at hgv
      cases hgv
    rw [PyD.get?_erase_ne st.children d.parent v (fun he => hvq he.symm)] at hgv
    have hcsv : PyD.contains st.subtree v = true := hcont0 _ (hcont1 _ hcv)
    obtain ⟨hca, hcb⟩ := hclo v a b hcsv hgv
    have hpa : PyD.get? st.parent a = some v := (hdual v a b hgv).1
    have hpb : PyD.get? st.parent b = some v := (hdual v a b hgv).2
    have hsurv : ∀ c : Nat, PyD.get? st.parent c = some v →
        PyD.contains st.subtree c = true → PyD.contains st2.subtree c = true := by
      intro c hpcv hcc
      rw [hsubeq]
      by_contra hna
      rw [Bool.not_eq_true] at hna
      have hgc : PyD.get? S2 c = none := by
        cases hg : PyD.get? S2 c with
        | none => rfl
        | some s => rw [PyD.contains, hg] at hna; cases hna
      by_cases hga1 : PyD.get? S1 c = none
      · have hmem1 : c ∈ cachedChain st.parent (st.subtree.length + 1)
            st.subtree d.c1 := by
          have he := propagate_eq st.parent (st.subtree.length + 1)
            st.subtree d.c1 hsnd hfuel1 c
          rw [hga1] at he
          by_cases hm : c ∈ cachedChain st.parent (st.subtree.length + 1)
              st.subtree d.c1
          · exact hm
          · rw [if_neg hm] at he
            rw [PyD.contains, ← he] at hcc
            cases hcc
        have hv1 := chain_up st.parent (st.subtree.length + 1) st.subtree d.c1
          c v hsnd hfuel1 hmem1 hpcv hcsv
        have hnone : PyD.get? S1 v = none := by
          rw [propagate_eq st.parent (st.subtree.length + 1) st.subtree d.c1
            hsnd hfuel1 v, if_pos hv1]
        have := hcont1 _ hcv
        rw [PyD.contains, hnone] at this
        cases this
      · obtain ⟨sa, hsa⟩ := Option.ne_none_iff_exists'.mp hga1
        have hmem2 : c ∈ cachedChain (PyD.erase st.parent d.c1)
            (S1.length + 1) S1 d.c2 := by
          have he := propagate_eq (PyD.erase st.parent d.c1) (S1.length + 1)
            S1 d.c2 hS1nd hfuel2 c
          rw [hgc, hsa] at he
          by_cases hm : c ∈ cachedChain (PyD.erase st.parent d.c1)
              (S1.length + 1) S1 d.c2
          · exact hm
          · rw [if_neg hm] at he
            cases he
        have hcc1 : c ≠ d.c1 := by
          intro he
          subst he
          rw [hpc1] at hpcv
          injection hpcv with hpe
          exact hvq hpe.symm
        have hpcv1 : PyD.get? (PyD.erase st.parent d.c1) c = some v := by
          rw [PyD.get?_erase_ne st.parent d.c1 c (fun he => hcc1 he.symm)]
          exact hpcv
        have hcvS1 : PyD.contains S1 v = true := hcont1 _ hcv
        have hv2 := chain_up (PyD.erase st.parent d.c1) (S1.length + 1) S1
          d.c2 c v hS1nd hfuel2 hmem2 hpcv1 hcvS1
        have hnone : PyD.get? S2 v = none := by
          rw [propagate_eq (PyD.erase st.parent d.c1) (S1.length + 1) S1 d.c2
            hS1nd hfuel2 v, if_pos hv2]
        rw [PyD.contains, hnone] at hcv
        cases hcv
    exact ⟨hsurv a hpa hca, hsurv b hpb hcb⟩
  · -- cache ⊆ time
    intro v hcv
    rw [hsubeq] at hcv
    have hvq : v ≠ d.parent := by
      intro he
      subst he
      have hqcc := hcont0 _ (hcont1 _ hcv)
      have hc1c : PyD.contains st.subtree d.c1 = true :=
        (hclo d.parent d.c1 d.c2 hqcc hq).1
      have := hS2noneS1 d.parent (hkill1 d.parent
        (UpChainCached.up hc1c hpc1 (UpChainCached.here hqcc)))
      rw [PyD.contains, this] at hcv
      cases hcv
    rw [htm, PyD.contains_erase_ne st.time d.parent v hvq]
    exact hcft v (hcont0 _ (hcont1 _ hcv))
  · -- naive correctness of survivors
    intro v s hgs
    rw [hsubeq] at hgs
    have hold : PyD.get? st.subtree v = some s := hsub0 _ _ (hsub1 _ _ hgs)
    obtain ⟨F, hnv⟩ := hcorr v s hold
    refine ⟨F, ?_⟩
    rw [hch, hblst, hparst]
    rw [naive_congr st.children (PyD.erase st.children d.parent)
      st.branchLength (PyD.erase (PyD.erase st.branchLength d.c1) d.c2)
      st.parent (PyD.erase (PyD.erase st.parent d.c1) d.c2) F v ?_]
    · exact hnv
    · intro u hru
      have hcv : PyD.contains st.subtree v = true := by
        rw [PyD.contains, hold]
        rfl
      have hune : ¬(u = d.parent ∨ u = d.c1 ∨ u = d.c2) := by
        intro hu
        have := hreachkill v u hcv hru hu
        rw [this] at hgs
        cases hgs
      push_neg at hune
      obtain ⟨hu1, hu2, hu3⟩ := hune
      refine ⟨?_, ?_, ?_⟩
      · exact PyD.get?_erase_ne st.children d.parent u (fun he => hu1 he.symm)
      · rw [PyD.get?_erase_ne (PyD.erase st.branchLength d.c1) d.c2 u
          (fun he => hu3 he.symm),
          PyD.get?_erase_ne st.branchLength d.c1 u (fun he => hu2 he.symm)]
      · rw [PyD.contains_erase_ne (PyD.erase st.parent d.c1) d.c2 u hu3,
          PyD.contains_erase_ne st.parent d.c1 u hu2]

theorem PyD.get?_none_of_contains_false {β : Type} (d : PyD.Dict β) (k : Nat)
    (h : PyD.contains d k = false) : PyD.get? d k = none := by
  cases hg : PyD.get? d k with
  | none => rfl
  | some v => rw [PyD.contains, hg] at h; cases h

theorem cachedChain_nil_of_uncached (par : PyD.Dict Nat) :
    ∀ (f : Nat) (sub : PyD.Dict String) (k : Nat),
    PyD.contains sub k = false → cachedChain par f sub k = [] := by
  intro f
  cases f with
  | zero => intro sub k _; rfl
  | succ m =>
    intro sub k h
    rw [cachedChain_unfold, if_neg (by simp [h])]

/-- The last edge of a non-trivial reachability path. -/
theorem reach_last (ch : PyD.Dict (Nat × Nat)) :
    ∀ v u, Reach ch v u →
    v = u ∨ ∃ w a b, PyD.get? ch w = some (a, b) ∧ (u = a ∨ u = b) := by
  intro v u h
  induction h with
  | refl w => exact Or.inl rfl
  | @left v2 a b u2 he _ ih =>
    rcases ih with he2 | hr
    · exact Or.inr ⟨v2, a, b, he, Or.inl he2.symm⟩
    · exact Or.inr hr
  | @right v2 a b u2 he _ ih =>
    rcases ih with he2 | hr
    · exact Or.inr ⟨v2, a, b, he, Or.inr he2.symm⟩
    · exact Or.inr hr

/-- Applying one incoming record keeps the cache coherent and leaves both
children uncached. -/
theorem inRec_coherent (st : NwState) (d : DRec)
    (hmid : wfMidB (nwProj st) = true)
    (hin : inRecB (nwProj st) d = true)
    (hco : Coherent st) (hsnd : (st.subtree.map Prod.fst).Nodup) :
    Coherent (applyInRec st d) ∧
    ((applyInRec st d).subtree.map Prod.fst).Nodup ∧
    PyD.contains (applyInRec st d).subtree d.c1 = false ∧
    PyD.contains (applyInRec st d).subtree d.c2 = false := by
  obtain ⟨⟨hnc0, hnb0, hnt0, hnp0⟩, hcp0, hpc0⟩ := wfMid_spec (nwProj st) hmid
  have hcp : ∀ p a b, PyD.get? st.children p = some (a, b) →
      PyD.get? st.parent a = some p ∧ PyD.get? st.parent b = some p ∧ a ≠ b := hcp0
  obtain ⟨htP0, hpP0, hchP0, hpc10, hpc20, hc1c2, htc10, htc20⟩ :=
    inRec_spec (nwProj st) d hin
  have htP : PyD.contains st.time d.parent = false := htP0
  have hpP : PyD.contains st.parent d.parent = false := hpP0
  have hchP : PyD.contains st.children d.parent = false := hchP0
  have hpc1 : PyD.contains st.parent d.c1 = false := hpc10
  have hpc2 : PyD.contains st.parent d.c2 = false := hpc20
  have htc1 : PyD.contains st.time d.c1 = true := htc10
  have htc2 : PyD.contains st.time d.c2 = true := htc20
  obtain ⟨hclo, hcft, hcorr⟩ := hco
  -- field equations
  have hch : (applyInRec st d).children =
      PyD.set st.children d.parent (d.c1, d.c2) := rfl
  have hbl : (applyInRec st d).branchLength = st.branchLength := rfl
  have htm : (applyInRec st d).time = PyD.set st.time d.parent d.time := rfl
  have hpar : (applyInRec st d).parent =
      PyD.set (PyD.set st.parent d.c1 d.parent) d.c2 d.parent := rfl
  -- the p node is absent from the cache and from the forest
  have hpsub : PyD.contains st.subtree d.parent = false := by
    by_contra hx
    rw [Bool.not_eq_false] at hx
    rw [hcft d.parent hx] at htP
    cases htP
  have hpc1ne : d.parent ≠ d.c1 := by
    intro he
    rw [he, htc1] at htP
    cases htP
  have hpc2ne : d.parent ≠ d.c2 := by
    intro he
    rw [he, htc2] at htP
    cases htP
  set par1 := PyD.set st.parent d.c1 d.parent with hpar1def
  set S1 := propagate par1 (st.subtree.length + 1) st.subtree d.c1 with hS1def
  set par2 := PyD.set par1 d.c2 d.parent with hpar2def
  set S2 := propagate par2 (S1.length + 1) S1 d.c2 with hS2def
  have hsub : (applyInRec st d).subtree = S2 := rfl
  have hfuel1 : st.subtree.length < st.subtree.length + 1 := Nat.lt_succ_self _
  have hfuel2 : S1.length < S1.length + 1 := Nat.lt_succ_self _
  have hS1nd : (S1.map Prod.fst).Nodup :=
    hsnd.sublist (propagate_keys_sublist _ _ _ _)
  have hS2nd : (S2.map Prod.fst).Nodup :=
    hS1nd.sublist (propagate_keys_sublist _ _ _ _)
  -- the first climb deletes at most c1
  have hchain1 : ∀ v, v ∈ cachedChain par1 (st.subtree.length + 1)
      st.subtree d.c1 → v = d.c1 := by
    intro v hv
    rw [cachedChain_unfold] at hv
    by_cases hc : PyD.contains st.subtree d.c1
    · rw [if_pos hc] at hv
      rcases List.mem_cons.mp hv with he | hm
      · exact he
      · simp only [show PyD.get? par1 d.c1 = some d.parent from
          PyD.get?_set_self _ _ _] at hm
        have hpe : PyD.contains (PyD.erase st.subtree d.c1) d.parent = false := by
          by_contra hx
          rw [Bool.not_eq_false] at hx
          rw [PyD.contains_erase_mono _ _ _ hx] at hpsub
          cases hpsub
        rw [cachedChain_nil_of_uncached par1 _ _ _ hpe] at hm
        cases hm
    · rw [if_neg hc] at hv
      cases hv
  have hS1eq : ∀ v, v ≠ d.c1 → PyD.get? S1 v = PyD.get? st.subtree v := by
    intro v hv
    rw [hS1def, propagate_eq par1 _ st.subtree d.c1 hsnd hfuel1 v,
      if_neg (fun hm => hv (hchain1 v hm))]
  have hS1c1 : PyD.get? S1 d.c1 = none := by
    by_cases hc : PyD.contains st.subtree d.c1
    · rw [hS1def, propagate_eq par1 _ st.subtree d.c1 hsnd hfuel1 d.c1,
        if_pos (by rw [cachedChain_unfold, if_pos hc]; exact List.mem_cons_self _ _)]
    · rw [hS1def, propagate_eq par1 _ st.subtree d.c1 hsnd hfuel1 d.c1]
      by_cases hm : d.c1 ∈ cachedChain par1 (st.subtree.length + 1) st.subtree d.c1
      · rw [if_pos hm]
      · rw [if_neg hm]
        exact PyD.get?_none_of_contains_false _ _ (Bool.eq_false_iff.mpr hc)
  -- the second climb deletes at most c2
  have hS1p : PyD.get? S1 d.parent = none := by
    rw [hS1eq d.parent hpc1ne]
    exact PyD.get?_none_of_contains_false _ _ hpsub
  have hchain2 : ∀ v, v ∈ cachedChain par2 (S1.length + 1) S1 d.c2 → v = d.c2 := by
    intro v hv
    rw [cachedChain_unfold] at hv
    by_cases hc : PyD.contains S1 d.c2
    · rw [if_pos hc] at hv
      rcases List.mem_cons.mp hv with he | hm
      · exact he
      · simp only [show PyD.get? par2 d.c2 = some d.parent from
          PyD.get?_set_self _ _ _] at hm
        have hpe : PyD.contains (PyD.erase S1 d.c2) d.parent = false := by
          by_contra hx
          rw [Bool.not_eq_false] at hx
          have := PyD.contains_erase_mono _ _ _ hx
          rw [PyD.contains, hS1p] at this
          cases this
        rw [cachedChain_nil_of_uncached par2 _ _ _ hpe] at hm
        cases hm
    · rw [if_neg hc] at hv
      cases hv
  have hS2eq : ∀ v, v ≠ d.c2 → PyD.get? S2 v = PyD.get? S1 v := by
    intro v hv
    rw [hS2def, propagate_eq par2 _ S1 d.c2 hS1nd hfuel2 v,
      if_neg (fun hm => hv (hchain2 v hm))]
  have hS2c2 : PyD.get? S2 d.c2 = none := by
    by_cases hc : PyD.contains S1 d.c2
    · rw [hS2def, propagate_eq par2 _ S1 d.c2 hS1nd hfuel2 d.c2,
        if_pos (by rw [cachedChain_unfold, if_pos hc]; exact List.mem_cons_self _ _)]
    · rw [hS2def, propagate_eq par2 _ S1 d.c2 hS1nd hfuel2 d.c2]
      by_cases hm : d.c2 ∈ cachedChain par2 (S1.length + 1) S1 d.c2
      · rw [if_pos hm]
      · rw [if_neg hm]
        exact PyD.get?_none_of_contains_false _ _ (Bool.eq_false_iff.mpr hc)
  have hS2c1 : PyD.get? S2 d.c1 = none := by
    rw [hS2eq d.c1 (fun he => hc1c2 he), hS1c1]
  -- survivors keep their old entry and are none of p, c1, c2
  have hsurv : ∀ v s, PyD.get? S2 v = some s →
      PyD.get? st.subtree v = some s ∧ v ≠ d.c1 ∧ v ≠ d.c2 ∧ v ≠ d.parent := by
    intro v s hgs
    have hv2 : v ≠ d.c2 := by
      intro he
      rw [he, hS2c2] at hgs
      cases hgs
    have hv1 : v ≠ d.c1 := by
      intro he
      rw [he, hS2c1] at hgs
      cases hgs
    rw [hS2eq v hv2, hS1eq v hv1] at hgs
    refine ⟨hgs, hv1, hv2, ?_⟩
    intro he
    rw [he, PyD.get?_none_of_contains_false _ _ hpsub] at hgs
    cases hgs
  refine ⟨⟨?_, ?_, ?_⟩, by rw [hsub]; exact hS2nd, ?_, ?_⟩
  · -- closure
    intro v a b hcv hgv
    rw [hsub] at hcv
    rw [hch] at hgv
    obtain ⟨s, hs⟩ := (PyD.contains_iff_get S2 v).mp hcv
    obtain ⟨hold, hv1, hv2, hvp⟩ := hsurv v s hs
    rw [PyD.get?_set_ne st.children d.parent v _ (Ne.symm hvp)] at hgv
    obtain ⟨hca, hcb⟩ := hclo v a b (by rw [PyD.contains, hold]; rfl) hgv
    have hane : a ≠ d.c1 ∧ a ≠ d.c2 ∧ a ≠ d.parent := by
      refine ⟨?_, ?_, ?_⟩
      · intro he
        rw [he] at hgv
        have hcontra := (hcp v d.c1 b hgv).1
        rw [PyD.get?_none_of_contains_false _ _ hpc1] at hcontra
        cases hcontra
      · intro he
        rw [he] at hgv
        have hcontra := (hcp v d.c2 b hgv).1
        rw [PyD.get?_none_of_contains_false _ _ hpc2] at hcontra
        cases hcontra
      · intro he
        rw [he] at hgv
        have := hcft d.parent (hclo v d.parent b (by rw [PyD.contains, hold]; rfl) hgv).1
        rw [this] at htP
        cases htP
    have hbne : b ≠ d.c1 ∧ b ≠ d.c2 ∧ b ≠ d.parent := by
      refine ⟨?_, ?_, ?_⟩
      · intro he
        rw [he] at hgv
        have hcontra := (hcp v a d.c1 hgv).2.1
        rw [PyD.get?_none_of_contains_false _ _ hpc1] at hcontra
        cases hcontra
      · intro he
        rw [he] at hgv
        have hcontra := (hcp v a d.c2 hgv).2.1
        rw [PyD.get?_none_of_contains_false _ _ hpc2] at hcontra
        cases hcontra
      · intro he
        rw [he] at hgv
        have := hcft d.parent (hclo v a d.parent (by rw [PyD.contains, hold]; rfl) hgv).2
        rw [this] at htP
        cases htP
    constructor
    · rw [hsub, PyD.contains, hS2eq a hane.2.1, hS1eq a hane.1]
      exact hca
    · rw [hsub, PyD.contains, hS2eq b hbne.2.1, hS1eq b hbne.1]
      exact hcb
  · -- cache ⊆ time
    intro v hcv
    rw [hsub] at hcv
    obtain ⟨s, hs⟩ := (PyD.contains_iff_get S2 v).mp hcv
    obtain ⟨hold, _, _, _⟩ := hsurv v s hs
    rw [htm, PyD.contains_set]
    rw [hcft v (by rw [PyD.contains, hold]; rfl)]
    simp
  · -- naive correctness
    intro v s hgs
    rw [hsub] at hgs
    obtain ⟨hold, hv1, hv2, hvp⟩ := hsurv v s hgs
    obtain ⟨F, hnv⟩ := hcorr v s hold
    refine ⟨F, ?_⟩
    rw [hch, hbl, hpar]
    rw [naive_congr st.children (PyD.set st.children d.parent (d.c1, d.c2))
      st.branchLength st.branchLength st.parent
      (PyD.set (PyD.set st.parent d.c1 d.parent) d.c2 d.parent) F v ?_]
    · exact hnv
    · intro u hru
      have hnu : u ≠ d.parent ∧ u ≠ d.c1 ∧ u ≠ d.c2 := by
        rcases reach_last st.children v u hru with he | ⟨w, a2, b2, hw, hu2⟩
        · subst he
          exact ⟨hvp, hv1, hv2⟩
        · refine ⟨?_, ?_, ?_⟩
          · intro he
            subst he
            rcases hu2 with he2 | he2 <;> rw [← he2] at hw
            · have hcontra := (hcp w d.parent b2 hw).1
              rw [PyD.get?_none_of_contains_false _ _ hpP] at hcontra
              cases hcontra
            · have hcontra := (hcp w a2 d.parent hw).2.1
              rw [PyD.get?_none_of_contains_false _ _ hpP] at hcontra
              cases hcontra
          · intro he
            subst he
            rcases hu2 with he2 | he2 <;> rw [← he2] at hw
            · have hcontra := (hcp w d.c1 b2 hw).1
              rw [PyD.get?_none_of_contains_false _ _ hpc1] at hcontra
              cases hcontra
            · have hcontra := (hcp w a2 d.c1 hw).2.1
              rw [PyD.get?_none_of_contains_false _ _ hpc1] at hcontra
              cases hcontra
          · intro he
            subst he
            rcases hu2 with he2 | he2 <;> rw [← he2] at hw
            · have hcontra := (hcp w d.c2 b2 hw).1
              rw [PyD.get?_none_of_contains_false _ _ hpc2] at hcontra
              cases hcontra
            · have hcontra := (hcp w a2 d.c2 hw).2.1
              rw [PyD.get?_none_of_contains_false _ _ hpc2] at hcontra
              cases hcontra
      refine ⟨?_, rfl, ?_⟩
      · exact PyD.get?_set_ne st.children d.parent u _ (Ne.symm hnu.1)
      · rw [PyD.contains_set, PyD.contains_set]
        rw [decide_eq_false (show ¬(d.c2 = u) from fun he => hnu.2.2 he.symm)]
        rw [decide_eq_false (show ¬(d.c1 = u) from fun he => hnu.2.1 he.symm)]
        simp
  · -- c1 uncached afterwards
    rw [hsub, PyD.contains, hS2c1]
    rfl
  · rw [hsub, PyD.contains, hS2c2]
    rfl

/-- Child-closure propagates down reachability: every node reachable from a
cached node is itself cached. -/
theorem reach_closed (ch : PyD.Dict (Nat × Nat)) (sub : PyD.Dict String)
    (hclo : ∀ v a b, PyD.contains sub v = true → PyD.get? ch v = some (a, b) →
      PyD.contains sub a = true ∧ PyD.contains sub b = true) :
    ∀ v u, Reach ch v u → PyD.contains sub v = true →
    PyD.contains sub u = true := by
  intro v u h
  induction h with
  | refl w => exact fun hc => hc
  | @left v2 a b u2 he _ ih =>
    intro hc
    exact ih ((hclo v2 a b hc he).1)
  | @right v2 a b u2 he _ ih =>
    intro hc
    exact ih ((hclo v2 a b hc he).2)

/-- The branch-length recomputation touches neither the cache nor the tree
shape, and rewrites only the two children's branch lengths, which no cached
subtree string mentions (both children are uncached and closure keeps the
cached cones away from them). -/
theorem blRec_coherent (prec : Nat) (st : NwState) (d : DRec) (st2 : NwState)
    (happ : applyBL prec st d = some st2)
    (hco : Coherent st)
    (hc1 : PyD.contains st.subtree d.c1 = false)
    (hc2 : PyD.contains st.subtree d.c2 = false) :
    Coherent st2 ∧ st2.subtree = st.subtree ∧ st2.children = st.children ∧
      st2.parent = st.parent ∧ st2.time = st.time := by
  obtain ⟨hclo, hcft, hcorr⟩ := hco
  simp only [applyBL, Option.bind_eq_bind] at happ
  cases h1 : PyD.get? st.time d.c1 with
  | none => rw [h1] at happ; cases happ
  | some t1 =>
  rw [h1] at happ
  simp only [Option.some_bind] at happ
  cases h2 : PyD.get? st.time d.c2 with
  | none => rw [h2] at happ; cases happ
  | some t2 =>
  rw [h2] at happ
  simp only [Option.some_bind, Option.some.injEq] at happ
  subst happ
  refine ⟨⟨hclo, hcft, ?_⟩, rfl, rfl, rfl, rfl⟩
  intro v s hvs
  obtain ⟨F, hF⟩ := hcorr v s hvs
  have hvc : PyD.contains st.subtree v = true :=
    (PyD.contains_iff_get _ _).mpr ⟨s, hvs⟩
  refine ⟨F, ?_⟩
  refine (naive_congr st.children st.children st.branchLength
    (PyD.set (PyD.set st.branchLength d.c1 (fmtFixed (d.time - t1) prec))
      d.c2 (fmtFixed (d.time - t2) prec)) st.parent st.parent F v ?_).trans hF
  intro u hu
  have huc : PyD.contains st.subtree u = true := reach_closed _ _ hclo v u hu hvc
  have hu1 : d.c1 ≠ u := by
    intro he
    rw [he] at hc1
    rw [hc1] at huc
    cases huc
  have hu2 : d.c2 ≠ u := by
    intro he
    rw [he] at hc2
    rw [hc2] at huc
    cases huc
  exact ⟨rfl, by rw [PyD.get?_set_ne _ d.c2 u _ hu2, PyD.get?_set_ne _ d.c1 u _ hu1],
    rfl⟩

theorem outFold_coherent (l : List DRec) :
    ∀ st st2 : NwState,
    foldOpt applyOutRec st l = some st2 →
    nvChkOut (nwProj st) l = true →
    Coherent st → (st.subtree.map Prod.fst).Nodup →
    Coherent st2 ∧ (st2.subtree.map Prod.fst).Nodup := by
  induction l with
  | nil =>
    intro st st2 happ _ hco hnd
    cases happ
    exact ⟨hco, hnd⟩
  | cons d rest ih =>
    intro st st2 happ hchk hco hnd
    simp only [foldOpt, Option.bind_eq_bind] at happ
    simp only [nvChkOut, Bool.and_eq_true] at hchk
    obtain ⟨⟨hmid, hout⟩, hmatch⟩ := hchk
    cases h1 : applyOutRec st d with
    | none => rw [h1] at happ; cases happ
    | some stm =>
    rw [h1] at happ
    simp only [Option.some_bind] at happ
    obtain ⟨hco2, hnd2⟩ := outRec_coherent st d stm h1 hmid hout hco hnd
    have hproj := applyOutRec_proj st d
    rw [h1] at hproj
    simp only [Option.map_some'] at hproj
    rw [← hproj] at hmatch
    exact ih stm st2 happ hmatch hco2 hnd2

theorem applyInRec_subtree_mono (st : NwState) (d : DRec) (u : Nat)
    (h : PyD.contains (applyInRec st d).subtree u = true) :
    PyD.contains st.subtree u = true := by
  have hsub : (applyInRec st d).subtree =
      propagate (PyD.set (PyD.set st.parent d.c1 d.parent) d.c2 d.parent)
        ((propagate (PyD.set st.parent d.c1 d.parent) (st.subtree.length + 1)
          st.subtree d.c1).length + 1)
        (propagate (PyD.set st.parent d.c1 d.parent) (st.subtree.length + 1)
          st.subtree d.c1) d.c2 := rfl
  rw [hsub] at h
  exact propagate_contains_mono _ _ _ _ _ (propagate_contains_mono _ _ _ _ _ h)

theorem foldl_in_subtree_mono (l : List DRec) :
    ∀ (st : NwState) (u : Nat),
    PyD.contains (List.foldl applyInRec st l).subtree u = true →
    PyD.contains st.subtree u = true := by
  induction l with
  | nil => intro st u h; exact h
  | cons d rest ih =>
    intro st u h
    exact applyInRec_subtree_mono st d u (ih (applyInRec st d) u h)

theorem inFold_coherent (l : List DRec) :
    ∀ st : NwState,
    nvChkIn (nwProj st) l = true →
    Coherent st → (st.subtree.map Prod.fst).Nodup →
    Coherent (List.foldl applyInRec st l) ∧
    ((List.foldl applyInRec st l).subtree.map Prod.fst).Nodup ∧
    ∀ d ∈ l, PyD.contains (List.foldl applyInRec st l).subtree d.c1 = false ∧
      PyD.contains (List.foldl applyInRec st l).subtree d.c2 = false := by
  induction l with
  | nil =>
    intro st _ hco hnd
    exact ⟨hco, hnd, fun d hd => absurd hd (List.not_mem_nil d)⟩
  | cons d rest ih =>
    intro st hchk hco hnd
    simp only [nvChkIn, Bool.and_eq_true] at hchk
    obtain ⟨⟨hmid, hin⟩, hrest⟩ := hchk
    obtain ⟨hco2, hnd2, hu1, hu2⟩ := inRec_coherent st d hmid hin hco hnd
    have hrest2 : nvChkIn (nwProj (applyInRec st d)) rest = true := by
      rw [applyInRec_proj]; exact hrest
    obtain ⟨hco3, hnd3, hmem⟩ := ih (applyInRec st d) hrest2 hco2 hnd2
    simp only [List.foldl_cons]
    refine ⟨hco3, hnd3, ?_⟩
    have hpersist : ∀ u, PyD.contains (applyInRec st d).subtree u = false →
        PyD.contains (List.foldl applyInRec (applyInRec st d) rest).subtree u
          = false := by
      intro u hf
      by_contra hx
      rw [Bool.not_eq_false] at hx
      rw [foldl_in_subtree_mono rest _ u hx] at hf
      cases hf
    intro e he
    rcases List.mem_cons.mp he with he1 | he2
    · subst he1
      exact ⟨hpersist e.c1 hu1, hpersist e.c2 hu2⟩
    · exact hmem e he2

theorem blFold_coherent (prec : Nat) (l : List DRec) :
    ∀ st st2 : NwState,
    foldOpt (applyBL prec) st l = some st2 →
    (∀ d ∈ l, PyD.contains st.subtree d.c1 = false ∧
      PyD.contains st.subtree d.c2 = false) →
    Coherent st →
    Coherent st2 ∧ st2.subtree = st.subtree ∧ st2.children = st.children ∧
      st2.parent = st.parent ∧ st2.time = st.time := by
  induction l with
  | nil =>
    intro st st2 happ _ hco
    cases happ
    exact ⟨hco, rfl, rfl, rfl, rfl⟩
  | cons d rest ih =>
    intro st st2 happ hmem hco
    simp only [foldOpt, Option.bind_eq_bind] at happ
    cases h1 : applyBL prec st d with
    | none => rw [h1] at happ; cases happ
    | some stm =>
    rw [h1] at happ
    simp only [Option.some_bind] at happ
    obtain ⟨hd1, hd2⟩ := hmem d (List.mem_cons_self d rest)
    obtain ⟨hcom, hsub, hch, hpar, htm⟩ :=
      blRec_coherent prec st d stm h1 hco hd1 hd2
    have hmem2 : ∀ e ∈ rest, PyD.contains stm.subtree e.c1 = false ∧
        PyD.contains stm.subtree e.c2 = false := by
      intro e he
      rw [hsub]
      exact hmem e (List.mem_cons_of_mem d he)
    obtain ⟨hco2, hsub2, hch2, hpar2, htm2⟩ := ih stm st2 happ hmem2 hcom
    exact ⟨hco2, hsub2.trans hsub, hch2.trans hch, hpar2.trans hpar,
      htm2.trans htm⟩

/-- Unpacking of the full interval-boundary well-formedness check. -/
theorem wfB_spec (st : NvState) (h : wfB st = true) :
    wfMidB st = true ∧
    (∀ c p, PyD.get? st.parent c = some p →
      PyD.contains st.branchLength c = true ∧ PyD.contains st.time c = true) ∧
    (∀ p a b, PyD.get? st.children p = some (a, b) →
      PyD.contains st.time p = true ∧ PyD.contains st.time a = true ∧
        PyD.contains st.time b = true) ∧
    PyD.contains st.time 1 = true := by
  unfold wfB at h
  simp only [Bool.and_eq_true, List.all_eq_true] at h
  obtain ⟨⟨⟨hmid, hpar⟩, hch⟩, h1⟩ := h
  obtain ⟨⟨hnc, _, _, hnp⟩, _, _⟩ := wfMid_spec st hmid
  refine ⟨hmid, ?_, ?_, h1⟩
  · intro c p hg
    have hm := (PyD.get?_eq_some_iff_mem st.parent hnp c p).mp hg
    have h2 := hpar (c, p) hm
    simp only [Bool.and_eq_true] at h2
    exact h2
  · intro p a b hg
    have hm := (PyD.get?_eq_some_iff_mem st.children hnc p (a, b)).mp hg
    have h2 := hch (p, (a, b)) hm
    simp only [Bool.and_eq_true] at h2
    exact ⟨h2.1.1, h2.1.2, h2.2⟩

/-- `naiveStr` is monotone in the fuel: once defined, larger fuel gives the
same string. -/
theorem naive_mono (ch : PyD.Dict (Nat × Nat)) (bl : PyD.Dict String)
    (par : PyD.Dict Nat) :
    ∀ F F2, F ≤ F2 → ∀ v s, naiveStr ch bl par F v = some s →
    naiveStr ch bl par F2 v = some s := by
  intro F
  induction F with
  | zero => intro F2 _ v s h; cases h
  | succ f ih =>
    intro F2 hle v s h
    obtain ⟨f2, rfl⟩ : ∃ f2, F2 = f2 + 1 := ⟨F2 - 1, by omega⟩
    rw [naive_unfold] at h ⊢
    cases hcv : PyD.get? ch v with
    | none => rw [hcv] at h; exact h
    | some p =>
      obtain ⟨a, b⟩ := p
      rw [hcv] at h
      simp only [Option.bind_eq_bind] at h ⊢
      cases ha : naiveStr ch bl par f a with
      | none => rw [ha] at h; cases h
      | some s1 =>
        rw [ha] at h
        simp only [Option.some_bind] at h
        cases hb : naiveStr ch bl par f b with
        | none => rw [hb] at h; cases h
        | some s2 =>
          rw [hb] at h
          simp only [Option.some_bind] at h
          rw [ih f2 (by omega) a s1 ha, ih f2 (by omega) b s2 hb]
          simp only [Option.some_bind]
          exact h

/-- The node `findRoot` settles on is either its start or some node's
recorded parent. -/
theorem findRoot_reached (par : PyD.Dict Nat) :
    ∀ fuel v r, findRoot par fuel v = some r →
    r = v ∨ ∃ k, PyD.get? par k = some r := by
  intro fuel
  induction fuel with
  | zero => intro v r h; cases h
  | succ f ih =>
    intro v r h
    rw [findRoot] at h
    cases hp : PyD.get? par v with
    | none =>
      rw [hp] at h
      cases h
      exact .inl rfl
    | some p =>
      rw [hp] at h
      rcases ih p r h with he | hw
      · subst he
        exact .inr ⟨v, hp⟩
      · exact .inr hw

/-- Splitting a snoc list around a distinguished element. -/
theorem append_singleton_split {α : Type} (acc : List α) (v : α) (l1 : List α)
    (v2 : α) (l2 : List α) (h : acc ++ [v] = l1 ++ v2 :: l2) :
    (l1 = acc ∧ v2 = v ∧ l2 = []) ∨
    ∃ l3, l2 = l3 ++ [v] ∧ acc = l1 ++ v2 :: l3 := by
  rcases List.eq_nil_or_concat l2 with h2 | ⟨l3, x, rfl⟩
  · subst h2
    obtain ⟨hA, hB⟩ := List.append_inj' h rfl
    have hv : v = v2 := by injection hB
    exact .inl ⟨hA.symm, hv.symm, rfl⟩
  · rw [List.concat_eq_append] at h ⊢
    rw [show l1 ++ v2 :: (l3 ++ [x]) = (l1 ++ v2 :: l3) ++ [x] by simp] at h
    obtain ⟨hA, hB⟩ := List.append_inj' h rfl
    have hv : v = x := by injection hB
    exact .inr ⟨l3, by rw [← hv], hA⟩

/-- The post-order collection phase of `_update_subtrees` succeeds under the
interval invariants and returns a duplicate-free list of uncached forest
nodes ordered parents-before-children, covering the root. -/
theorem nwCollect_spec (n : Nat) (sub : PyD.Dict String)
    (ch : PyD.Dict (Nat × Nat)) (time : PyD.Dict Rat) (par : PyD.Dict Nat)
    (root : Nat)
    (hn : 1 ≤ n)
    (hnt : (time.map Prod.fst).Nodup)
    (htlen : time.length = 2 * n - 1)
    (hchtime : ∀ p a b, PyD.get? ch p = some (a, b) →
      PyD.contains time p = true ∧ PyD.contains time a = true ∧
        PyD.contains time b = true)
    (hdual : ∀ p a b, PyD.get? ch p = some (a, b) →
      PyD.get? par a = some p ∧ PyD.get? par b = some p ∧ a ≠ b)
    (hrootless : PyD.get? par root = none) :
    ∀ fuel stack acc,
    stack.length + 3 * (2 * n - acc.length) < fuel →
    (stack ++ acc).Nodup →
    (∀ v ∈ stack ++ acc, PyD.contains time v = true) →
    (∀ u ∈ stack ++ acc, u = root ∨
      ∃ w a b, w ∈ acc ∧ PyD.get? ch w = some (a, b) ∧ (u = a ∨ u = b)) →
    (∀ l1 v l2, acc = l1 ++ v :: l2 → ∀ a b, PyD.get? ch v = some (a, b) →
      (PyD.contains sub a = true ∨ a ∈ l2 ∨ a ∈ stack) ∧
      (PyD.contains sub b = true ∨ b ∈ l2 ∨ b ∈ stack)) →
    (root ∈ stack ∨ root ∈ acc ∨ PyD.contains sub root = true) →
    ∃ out, nwCollect n sub ch fuel stack acc = some out ∧
      out.Nodup ∧
      (∀ v ∈ out, PyD.contains time v = true) ∧
      (∀ v ∈ out, v = root ∨ PyD.contains par v = true) ∧
      (∀ l1 v l2, out = l1 ++ v :: l2 → ∀ a b, PyD.get? ch v = some (a, b) →
        (PyD.contains sub a = true ∨ a ∈ l2) ∧
        (PyD.contains sub b = true ∨ b ∈ l2)) ∧
      (root ∈ out ∨ PyD.contains sub root = true) := by
  intro fuel
  induction fuel with
  | zero =>
    intro stack acc hfuel
    exact absurd hfuel (Nat.not_lt_zero _)
  | succ f ih =>
    intro stack acc hfuel hnd htime horig hseq hroot
    cases stack with
    | nil =>
      refine ⟨acc, rfl, ?_, ?_, ?_, ?_, ?_⟩
      · simpa using hnd
      · intro v hv
        exact htime v (by simpa using hv)
      · intro v hv
        rcases horig v (by simpa using hv) with hr | ⟨w, a, b, _, hg, hab⟩
        · exact .inl hr
        · refine .inr ?_
          rw [PyD.contains]
          rcases hab with h1 | h1
          · rw [h1, (hdual w a b hg).1]
            rfl
          · rw [h1, (hdual w a b hg).2.1]
            rfl
      · intro l1 v l2 he a b hg
        obtain ⟨h1, h2⟩ := hseq l1 v l2 he a b hg
        constructor
        · rcases h1 with h | h | h
          · exact .inl h
          · exact .inr h
          · cases h
        · rcases h2 with h | h | h
          · exact .inl h
          · exact .inr h
          · cases h
      · rcases hroot with h | h | h
        · cases h
        · exact .inl h
        · exact .inr h
    | cons v stack2 =>
      have hnd0 : (v :: (stack2 ++ acc)).Nodup := by
        simpa using hnd
      have hvnot : v ∉ stack2 ++ acc := (List.nodup_cons.mp hnd0).1
      have hunf : nwCollect n sub ch (f + 1) (v :: stack2) acc =
          (if PyD.contains sub v then nwCollect n sub ch f stack2 acc
           else if 2 * n ≤ acc.length then none
           else match PyD.get? ch v with
             | some (a, b) =>
               nwCollect n sub ch f (b :: a :: stack2) (acc ++ [v])
             | none => nwCollect n sub ch f stack2 (acc ++ [v])) := rfl
      rw [hunf]
      by_cases hc : PyD.contains sub v = true
      · rw [if_pos hc]
        refine ih stack2 acc ?_ ?_ ?_ ?_ ?_ ?_
        · simp only [List.length_cons] at hfuel
          omega
        · exact hnd0.of_cons
        · intro u hu
          exact htime u (by simp only [List.cons_append, List.mem_cons]; exact .inr hu)
        · intro u hu
          exact horig u (by simp only [List.cons_append, List.mem_cons]; exact .inr hu)
        · intro l1 w l2 he a b hg
          obtain ⟨h1, h2⟩ := hseq l1 w l2 he a b hg
          constructor
          · rcases h1 with h | h | h
            · exact .inl h
            · exact .inr (.inl h)
            · rcases List.mem_cons.mp h with hv | hv
              · subst hv
                exact .inl hc
              · exact .inr (.inr hv)
          · rcases h2 with h | h | h
            · exact .inl h
            · exact .inr (.inl h)
            · rcases List.mem_cons.mp h with hv | hv
              · subst hv
                exact .inl hc
              · exact .inr (.inr hv)
        · rcases hroot with h | h | h
          · rcases List.mem_cons.mp h with hv | hv
            · subst hv
              exact .inr (.inr hc)
            · exact .inl hv
          · exact .inr (.inl h)
          · exact .inr (.inr h)
      · rw [if_neg hc]
        have hcf : PyD.contains sub v = false := Bool.eq_false_iff.mpr hc
        have hsa : (stack2 ++ acc).Nodup := hnd0.of_cons
        have haccnd : acc.Nodup := (List.nodup_append.mp hsa).2.1
        have haccsub : acc ⊆ time.map Prod.fst := by
          intro u hu
          rw [PyD.mem_keys_iff_get]
          have := htime u (by simp only [List.cons_append, List.mem_cons, List.mem_append]; exact .inr (.inr hu))
          rw [PyD.contains] at this
          exact this
        have hacclt : acc.length < 2 * n := by
          have hsp := List.subperm_of_subset haccnd haccsub
          have hle := hsp.length_le
          rw [List.length_map, htlen] at hle
          omega
        rw [if_neg (by omega : ¬ 2 * n ≤ acc.length)]
        have hfuel2 : stack2.length + 1 + 3 * (2 * n - acc.length) < f + 1 := by
          simpa using hfuel
        have hndtail : (stack2 ++ (acc ++ [v])).Nodup := by
          refine (((List.perm_append_singleton v acc).append_left
            stack2).trans List.perm_middle).nodup_iff.mpr ?_
          simpa using hnd
        have htimeCons : ∀ u ∈ stack2 ++ (acc ++ [v]),
            PyD.contains time u = true := by
          intro u hu
          refine htime u ?_
          simp only [List.mem_append, List.mem_singleton] at hu
          simp only [List.cons_append, List.mem_cons, List.mem_append]
          rcases hu with h | h | h
          · exact .inr (.inl h)
          · exact .inr (.inr h)
          · exact .inl h
        cases hcv : PyD.get? ch v with
        | none =>
          refine ih stack2 (acc ++ [v]) ?_ hndtail htimeCons ?_ ?_ ?_
          · simp only [List.length_append, List.length_singleton]
            omega
          · intro u hu
            have humem : u ∈ (v :: stack2) ++ acc := by
              simp only [List.mem_append, List.mem_singleton] at hu
              simp only [List.cons_append, List.mem_cons, List.mem_append]
              tauto
            rcases horig u humem with hr | ⟨w, a, b, hw, hg, hab⟩
            · exact .inl hr
            · exact .inr ⟨w, a, b, List.mem_append_left _ hw, hg, hab⟩
          · intro l1 w l2 he a b hg
            rcases append_singleton_split acc v l1 w l2 he with
              ⟨_, hwv, _⟩ | ⟨l3, hl2, hacc⟩
            · subst hwv
              rw [hcv] at hg
              cases hg
            · obtain ⟨h1, h2⟩ := hseq l1 w l3 hacc a b hg
              subst hl2
              constructor
              · rcases h1 with h | h | h
                · exact .inl h
                · exact .inr (.inl (List.mem_append_left _ h))
                · rcases List.mem_cons.mp h with hv2 | hv2
                  · subst hv2
                    exact .inr (.inl (List.mem_append_right _ (List.mem_singleton.mpr rfl)))
                  · exact .inr (.inr hv2)
              · rcases h2 with h | h | h
                · exact .inl h
                · exact .inr (.inl (List.mem_append_left _ h))
                · rcases List.mem_cons.mp h with hv2 | hv2
                  · subst hv2
                    exact .inr (.inl (List.mem_append_right _ (List.mem_singleton.mpr rfl)))
                  · exact .inr (.inr hv2)
          · rcases hroot with h | h | h
            · rcases List.mem_cons.mp h with hv | hv
              · subst hv
                exact .inr (.inl (List.mem_append_right _ (List.mem_singleton.mpr rfl)))
              · exact .inl hv
            · exact .inr (.inl (List.mem_append_left _ h))
            · exact .inr (.inr h)
        | some pr =>
          obtain ⟨a, b⟩ := pr
          obtain ⟨hpa, hpb, habne⟩ := hdual v a b hcv
          obtain ⟨htv, hta, htb⟩ := hchtime v a b hcv
          have hfresh : ∀ u, PyD.get? par u = some v →
              u ∉ (v :: stack2) ++ acc := by
            intro u hpu hmem
            rcases horig u hmem with hr | ⟨w, a2, b2, hw, hg, hab⟩
            · rw [hr, hrootless] at hpu
              cases hpu
            · obtain ⟨hpa2, hpb2, _⟩ := hdual w a2 b2 hg
              have hwv : w = v := by
                rcases hab with h1 | h1
                · rw [h1] at hpu
                  rw [hpu] at hpa2
                  exact (Option.some.inj hpa2).symm
                · rw [h1] at hpu
                  rw [hpu] at hpb2
                  exact (Option.some.inj hpb2).symm
              rw [hwv] at hw
              exact hvnot (List.mem_append_right _ hw)
          have hA : a ∉ (v :: stack2) ++ acc := hfresh a hpa
          have hB : b ∉ (v :: stack2) ++ acc := hfresh b hpb
          refine ih (b :: a :: stack2) (acc ++ [v]) ?_ ?_ ?_ ?_ ?_ ?_
          · simp only [List.length_cons, List.length_append,
              List.length_singleton]
            omega
          · simp only [List.cons_append, List.nodup_cons]
            refine ⟨?_, ?_, hndtail⟩
            · intro hmem
              simp only [List.mem_cons, List.mem_append,
                List.mem_singleton, List.mem_nil_iff, or_false] at hmem
              rcases hmem with h | h | h | h
              · exact habne h.symm
              · exact hB (by simp only [List.cons_append, List.mem_cons, List.mem_append]; exact .inr (.inl h))
              · exact hB (by simp only [List.cons_append, List.mem_cons, List.mem_append]; exact .inr (.inr h))
              · exact hB (by simp only [List.cons_append, List.mem_cons]; exact .inl h)
            · intro hmem
              simp only [List.mem_append, List.mem_singleton,
                List.mem_cons, List.mem_nil_iff, or_false] at hmem
              rcases hmem with h | h | h
              · exact hA (by simp only [List.cons_append, List.mem_cons, List.mem_append]; exact .inr (.inl h))
              · exact hA (by simp only [List.cons_append, List.mem_cons, List.mem_append]; exact .inr (.inr h))
              · exact hA (by simp only [List.cons_append, List.mem_cons]; exact .inl h)
          · intro u hu
            simp only [List.cons_append, List.mem_cons] at hu
            rcases hu with h | h | h
            · rw [h]
              exact htb
            · rw [h]
              exact hta
            · exact htimeCons u h
          · intro u hu
            simp only [List.cons_append, List.mem_cons] at hu
            have hvin : v ∈ acc ++ [v] :=
              List.mem_append_right _ (List.mem_singleton.mpr rfl)
            rcases hu with h | h | h
            · exact .inr ⟨v, a, b, hvin, hcv, .inr h⟩
            · exact .inr ⟨v, a, b, hvin, hcv, .inl h⟩
            · have humem : u ∈ (v :: stack2) ++ acc := by
                simp only [List.mem_append, List.mem_singleton] at h
                simp only [List.cons_append, List.mem_cons, List.mem_append]
                tauto
              rcases horig u humem with hr | ⟨w, a2, b2, hw, hg, hab⟩
              · exact .inl hr
              · exact .inr ⟨w, a2, b2, List.mem_append_left _ hw, hg, hab⟩
          · intro l1 w l2 he a2 b2 hg
            rcases append_singleton_split acc v l1 w l2 he with
              ⟨_, hwv, hl2⟩ | ⟨l3, hl2, hacc⟩
            · subst hwv
              rw [hcv] at hg
              have ha2 : a2 = a := by injection (Option.some.inj hg) with h1 h2; exact h1.symm
              have hb2 : b2 = b := by injection (Option.some.inj hg) with h1 h2; exact h2.symm
              subst ha2
              subst hb2
              constructor
              · exact .inr (.inr (by simp))
              · exact .inr (.inr (by simp))
            · obtain ⟨h1, h2⟩ := hseq l1 w l3 hacc a2 b2 hg
              subst hl2
              constructor
              · rcases h1 with h | h | h
                · exact .inl h
                · exact .inr (.inl (List.mem_append_left _ h))
                · rcases List.mem_cons.mp h with hv2 | hv2
                  · subst hv2
                    exact .inr (.inl (List.mem_append_right _
                      (List.mem_singleton.mpr rfl)))
                  · exact .inr (.inr (by simp only [List.mem_cons]; exact .inr (.inr hv2)))
              · rcases h2 with h | h | h
                · exact .inl h
                · exact .inr (.inl (List.mem_append_left _ h))
                · rcases List.mem_cons.mp h with hv2 | hv2
                  · subst hv2
                    exact .inr (.inl (List.mem_append_right _
                      (List.mem_singleton.mpr rfl)))
                  · exact .inr (.inr (by simp only [List.mem_cons]; exact .inr (.inr hv2)))
          · rcases hroot with h | h | h
            · rcases List.mem_cons.mp h with hv | hv
              · subst hv
                exact .inr (.inl (List.mem_append_right _
                  (List.mem_singleton.mpr rfl)))
              · exact .inl (by simp only [List.mem_cons]; exact .inr (.inr hv))
            · exact .inr (.inl (List.mem_append_left _ h))
            · exact .inr (.inr h)

/-- The rebuild phase of `_update_subtrees`: building the collected nodes in
reverse (post-)order succeeds and extends the cache with correct naive
strings, preserving closure, forest membership and key uniqueness. -/
theorem nwBuildAll_spec (root : Nat) (ch : PyD.Dict (Nat × Nat))
    (bl : PyD.Dict String) (par : PyD.Dict Nat) (time : PyD.Dict Rat)
    (hrootless : PyD.get? par root = none)
    (hblpar : ∀ c p, PyD.get? par c = some p → PyD.contains bl c = true)
    (hblroot : PyD.get? ch root = none → PyD.contains bl root = true) :
    ∀ (todo : List Nat) (sub : PyD.Dict String),
    (∀ v s, PyD.get? sub v = some s →
      ∃ F, naiveStr ch bl par F v = some s) →
    (∀ v a b, PyD.contains sub v = true → PyD.get? ch v = some (a, b) →
      PyD.contains sub a = true ∧ PyD.contains sub b = true) →
    (∀ v, PyD.contains sub v = true → PyD.contains time v = true) →
    (sub.map Prod.fst).Nodup →
    (∀ t1 v t2, todo = t1 ++ v :: t2 → ∀ a b, PyD.get? ch v = some (a, b) →
      (PyD.contains sub a = true ∨ a ∈ t1) ∧
      (PyD.contains sub b = true ∨ b ∈ t1)) →
    (∀ v ∈ todo, PyD.contains time v = true ∧
      (v = root ∨ PyD.contains par v = true)) →
    ∃ sub2, nwBuildAll root ch bl sub todo = some sub2 ∧
      (∀ v s, PyD.get? sub2 v = some s →
        ∃ F, naiveStr ch bl par F v = some s) ∧
      (∀ v a b, PyD.contains sub2 v = true → PyD.get? ch v = some (a, b) →
        PyD.contains sub2 a = true ∧ PyD.contains sub2 b = true) ∧
      (∀ v, PyD.contains sub2 v = true → PyD.contains time v = true) ∧
      (sub2.map Prod.fst).Nodup ∧
      (∀ u, PyD.contains sub u = true → PyD.contains sub2 u = true) ∧
      (∀ v ∈ todo, PyD.contains sub2 v = true) := by
  intro todo
  induction todo with
  | nil =>
    intro sub hcorr hclo hft hnd _ _
    exact ⟨sub, rfl, hcorr, hclo, hft, hnd, fun u hu => hu,
      fun v hv => absurd hv (List.not_mem_nil v)⟩
  | cons v rest ih =>
    intro sub hcorr hclo hft hnd hAvail hTodo
    obtain ⟨hvt, hvr⟩ := hTodo v (List.mem_cons_self v rest)
    have hunf : nwBuildAll root ch bl sub (v :: rest) =
        (nwBuildOne root ch bl sub v).bind
          (fun s2 => nwBuildAll root ch bl s2 rest) := rfl
    have key : ∀ str : String,
        nwBuildOne root ch bl sub v = some (PyD.set sub v str) →
        (∃ F, naiveStr ch bl par F v = some str) →
        (∀ a2 b2, PyD.get? ch v = some (a2, b2) →
          PyD.contains sub a2 = true ∧ PyD.contains sub b2 = true) →
        ∃ sub2, nwBuildAll root ch bl sub (v :: rest) = some sub2 ∧
          (∀ w s, PyD.get? sub2 w = some s →
            ∃ F, naiveStr ch bl par F w = some s) ∧
          (∀ w a b, PyD.contains sub2 w = true →
            PyD.get? ch w = some (a, b) →
            PyD.contains sub2 a = true ∧ PyD.contains sub2 b = true) ∧
          (∀ w, PyD.contains sub2 w = true → PyD.contains time w = true) ∧
          (sub2.map Prod.fst).Nodup ∧
          (∀ u, PyD.contains sub u = true → PyD.contains sub2 u = true) ∧
          (∀ w ∈ v :: rest, PyD.contains sub2 w = true) := by
      intro str hone hF hkids
      obtain ⟨sub2, hrun, hcorr2, hclo2, hft2, hnd2, hmono2, hcover2⟩ :=
        ih (PyD.set sub v str)
          (by
            intro u su hg
            by_cases huv : v = u
            · subst huv
              rw [PyD.get?_set_self] at hg
              have : str = su := Option.some.inj hg
              rw [← this]
              exact hF
            · rw [PyD.get?_set_ne sub v u _ huv] at hg
              exact hcorr u su hg)
          (by
            intro u a2 b2 hcu hgu
            by_cases huv : v = u
            · subst huv
              obtain ⟨hka, hkb⟩ := hkids a2 b2 hgu
              constructor
              · rw [PyD.contains_set]
                rw [hka]
                simp
              · rw [PyD.contains_set]
                rw [hkb]
                simp
            · rw [PyD.contains_set,
                decide_eq_false huv, Bool.false_or] at hcu
              obtain ⟨hka, hkb⟩ := hclo u a2 b2 hcu hgu
              constructor
              · rw [PyD.contains_set]
                rw [hka]
                simp
              · rw [PyD.contains_set]
                rw [hkb]
                simp)
          (by
            intro u hcu
            by_cases huv : v = u
            · rw [← huv]
              exact hvt
            · rw [PyD.contains_set,
                decide_eq_false huv, Bool.false_or] at hcu
              exact hft u hcu)
          (PyD.keys_nodup_set sub v str hnd)
          (by
            intro t1 w t2 he a b hg
            obtain ⟨h1, h2⟩ := hAvail (v :: t1) w t2 (by rw [he]; rfl) a b hg
            constructor
            · rcases h1 with h | h
              · refine .inl ?_
                rw [PyD.contains_set, h]
                simp
              · rcases List.mem_cons.mp h with hv2 | hv2
                · refine .inl ?_
                  rw [← hv2, PyD.contains_set]
                  simp
                · exact .inr hv2
            · rcases h2 with h | h
              · refine .inl ?_
                rw [PyD.contains_set, h]
                simp
              · rcases List.mem_cons.mp h with hv2 | hv2
                · refine .inl ?_
                  rw [← hv2, PyD.contains_set]
                  simp
                · exact .inr hv2)
          (fun w hw => hTodo w (List.mem_cons_of_mem v hw))
      have hmono1 : ∀ u, PyD.contains sub u = true →
          PyD.contains (PyD.set sub v str) u = true := by
        intro u hu
        rw [PyD.contains_set, hu]
        simp
      refine ⟨sub2, ?_, hcorr2, hclo2, hft2, hnd2,
        fun u hu => hmono2 u (hmono1 u hu), ?_⟩
      · rw [hunf, hone]
        simpa using hrun
      · intro w hw
        rcases List.mem_cons.mp hw with hv2 | hv2
        · subst hv2
          refine hmono2 w ?_
          rw [PyD.contains_set]
          simp
        · exact hcover2 w hv2
    cases hcv : PyD.get? ch v with
    | some pr =>
      obtain ⟨a, b⟩ := pr
      have hav := hAvail [] v rest rfl a b hcv
      have hca : PyD.contains sub a = true := by
        rcases hav.1 with h | h
        · exact h
        · cases h
      have hcb : PyD.contains sub b = true := by
        rcases hav.2 with h | h
        · exact h
        · cases h
      obtain ⟨s1, hs1⟩ := (PyD.contains_iff_get _ _).mp hca
      obtain ⟨s2, hs2⟩ := (PyD.contains_iff_get _ _).mp hcb
      obtain ⟨Fa, ha⟩ := hcorr a s1 hs1
      obtain ⟨Fb, hb⟩ := hcorr b s2 hs2
      have ha2 : naiveStr ch bl par (max Fa Fb) a = some s1 :=
        naive_mono ch bl par Fa (max Fa Fb) (Nat.le_max_left _ _) a s1 ha
      have hb2 : naiveStr ch bl par (max Fa Fb) b = some s2 :=
        naive_mono ch bl par Fb (max Fa Fb) (Nat.le_max_right _ _) b s2 hb
      have hkids : ∀ a2 b2, PyD.get? ch v = some (a2, b2) →
          PyD.contains sub a2 = true ∧ PyD.contains sub b2 = true := by
        intro a2 b2 hg
        rw [hcv] at hg
        obtain ⟨he1, he2⟩ := Prod.mk.injEq .. ▸ Option.some.inj hg
        rw [← he1, ← he2]
        exact ⟨hca, hcb⟩
      by_cases hvroot : v = root
      · refine key ("(" ++ s1 ++ "," ++ s2 ++ ")" ++ ";") ?_ ?_ hkids
        · unfold nwBuildOne
          rw [hcv]
          simp only [Option.bind_eq_bind, hs1, hs2, Option.some_bind]
          rw [if_pos hvroot]
        · refine ⟨max Fa Fb + 1, ?_⟩
          rw [naive_unfold, hcv]
          simp only [Option.bind_eq_bind, ha2, hb2, Option.some_bind]
          have hpv : ¬ PyD.contains par v = true := by
            rw [hvroot, PyD.contains, hrootless]
            simp
          rw [if_neg hpv]
      · have hpar : PyD.contains par v = true := by
          rcases hvr with h | h
          · exact absurd h hvroot
          · exact h
        obtain ⟨p, hp⟩ := Option.isSome_iff_exists.mp hpar
        have hblv : PyD.contains bl v = true := hblpar v p hp
        obtain ⟨l, hl⟩ := (PyD.contains_iff_get _ _).mp hblv
        refine key ("(" ++ s1 ++ "," ++ s2 ++ ")" ++ ":" ++ l) ?_ ?_ hkids
        · unfold nwBuildOne
          rw [hcv]
          simp only [Option.bind_eq_bind, hs1, hs2, Option.some_bind]
          rw [if_neg hvroot]
          simp only [hl, Option.some_bind]
        · refine ⟨max Fa Fb + 1, ?_⟩
          rw [naive_unfold, hcv]
          simp only [Option.bind_eq_bind, ha2, hb2, Option.some_bind]
          rw [if_pos hpar]
          simp only [hl, Option.some_bind]
    | none =>
      have hblv : PyD.contains bl v = true := by
        by_cases hvroot : v = root
        · rw [hvroot]
          exact hblroot (by rw [← hvroot]; exact hcv)
        · have hpar : PyD.contains par v = true := by
            rcases hvr with h | h
            · exact absurd h hvroot
            · exact h
          obtain ⟨p, hp⟩ := Option.isSome_iff_exists.mp hpar
          exact hblpar v p hp
      obtain ⟨l, hl⟩ := (PyD.contains_iff_get _ _).mp hblv
      refine key (toString v ++ ":" ++ l) ?_ ?_ ?_
      · unfold nwBuildOne
        rw [hcv]
        simp only [Option.bind_eq_bind, hl, Option.some_bind]
      · refine ⟨1, ?_⟩
        rw [naive_unfold, hcv]
        simp only [Option.bind_eq_bind, hl, Option.some_bind]
      · intro a2 b2 hg
        rw [hcv] at hg
        cases hg

/-- One `next()` call of the caching generator refines one step of the
naive cache-free builder: under the replayed validity checks both succeed,
yield the same `(interval_length, newick)` pair, agree on the forest maps,
and the cache stays coherent. -/
theorem step_refines (n prec : Nat) (st : NwState) (len : Nat)
    (rout rin : List DRec) (y : Nat × String) (st1n st4n : NvState)
    (hco : Coherent st) (hnd : (st.subtree.map Prod.fst).Nodup)
    (hchkout : nvChkOut (nwProj st) rout = true)
    (hfold1 : foldOpt nvOutRec (nwProj st) rout = some st1n)
    (hchkin : nvChkIn st1n rin = true)
    (hnv : nvNext n prec (nwProj st) (len, rout, rin) = .ok (y, st4n))
    (hwf4 : wfB st4n = true) :
    ∃ st4, nwNext n prec st (len, rout, rin) = .ok (y, st4) ∧
      nwProj st4 = st4n ∧ Coherent st4 ∧
      (st4.subtree.map Prod.fst).Nodup := by
  -- the `records_out` phase
  have hproj1 := foldOpt_out_proj rout st
  rw [hfold1] at hproj1
  cases hf1 : foldOpt applyOutRec st rout with
  | none => rw [hf1] at hproj1; cases hproj1
  | some st1 =>
  rw [hf1] at hproj1
  simp only [Option.map_some'] at hproj1
  have hst1 : nwProj st1 = st1n := Option.some.inj hproj1
  obtain ⟨hco1, hnd1⟩ := outFold_coherent rout st st1 hf1 hchkout hco hnd
  -- the `records_in` phase
  have hproj2 : nwProj (List.foldl applyInRec st1 rin) =
      List.foldl nvInRec st1n rin := by
    rw [foldl_in_proj, hst1]
  have hchkin1 : nvChkIn (nwProj st1) rin = true := by
    rw [hst1]
    exact hchkin
  obtain ⟨hco2, hnd2, hmemun⟩ := inFold_coherent rin st1 hchkin1 hco1 hnd1
  -- the branch-length phase, naive side first
  unfold nvNext at hnv
  simp only [bind, Except.bind] at hnv
  simp only [show orErr NwErr.keyErr (foldOpt nvOutRec (nwProj st) rout) =
    Except.ok st1n from by rw [hfold1]; rfl] at hnv
  cases hf3n : foldOpt (nvBL prec) (List.foldl nvInRec st1n rin) rin with
  | none =>
    simp only [show orErr NwErr.keyErr
      (foldOpt (nvBL prec) (List.foldl nvInRec st1n rin) rin) =
      Except.error NwErr.keyErr from by rw [hf3n]; rfl] at hnv
    cases hnv
  | some st3n =>
  simp only [show orErr NwErr.keyErr
    (foldOpt (nvBL prec) (List.foldl nvInRec st1n rin) rin) =
    Except.ok st3n from by rw [hf3n]; rfl] at hnv
  -- caching side of the branch-length phase
  have hproj3 := foldOpt_bl_proj prec rin (List.foldl applyInRec st1 rin)
  rw [hproj2, hf3n] at hproj3
  cases hf3 : foldOpt (applyBL prec) (List.foldl applyInRec st1 rin) rin with
  | none => rw [hf3] at hproj3; cases hproj3
  | some st3 =>
  rw [hf3] at hproj3
  simp only [Option.map_some'] at hproj3
  have hst3 : nwProj st3 = st3n := Option.some.inj hproj3
  obtain ⟨hco3, hsub3, hch3, hpar3, htm3⟩ :=
    blFold_coherent prec rin (List.foldl applyInRec st1 rin) st3 hf3 hmemun hco2
  have hnd3 : (st3.subtree.map Prod.fst).Nodup := by
    rw [hsub3]
    exact hnd2
  -- the root search
  cases hroot : findRoot st3n.parent (st3n.parent.length + 1) 1 with
  | none =>
    simp only [show orErr NwErr.rootLoop
      (findRoot st3n.parent (st3n.parent.length + 1) 1) =
      Except.error NwErr.rootLoop from by rw [hroot]; rfl] at hnv
    cases hnv
  | some root =>
  simp only [show orErr NwErr.rootLoop
    (findRoot st3n.parent (st3n.parent.length + 1) 1) =
    Except.ok root from by rw [hroot]; rfl] at hnv
  -- the coalescence assert
  by_cases hcond : st3n.time.length = 2 * n - 1 ∧
      st3n.parent.length = 2 * n - 2 ∧ st3n.branchLength.length = 2 * n - 2
  case neg =>
    rw [if_neg hcond] at hnv
    cases hnv
  rw [if_pos hcond] at hnv
  -- the naive rebuild
  cases hnvs : naiveStr st3n.children st3n.branchLength st3n.parent
      (st3n.time.length + 1) root with
  | none =>
    simp only [show orErr NwErr.keyErr (naiveStr st3n.children
      st3n.branchLength st3n.parent (st3n.time.length + 1) root) =
      Except.error NwErr.keyErr from by rw [hnvs]; rfl] at hnv
    cases hnv
  | some sNv =>
  simp only [show orErr NwErr.keyErr (naiveStr st3n.children
    st3n.branchLength st3n.parent (st3n.time.length + 1) root) =
    Except.ok sNv from by rw [hnvs]; rfl] at hnv
  -- read off the naive result
  injection hnv with hpair
  rw [Prod.mk.injEq] at hpair
  obtain ⟨hy, hst4⟩ := hpair
  subst hst4
  subst hst3
  rw [← hy]
  -- normalise the projected fields
  have eC : (nwProj st3).children = st3.children := rfl
  have eB : (nwProj st3).branchLength = st3.branchLength := rfl
  have eT : (nwProj st3).time = st3.time := rfl
  have eP : (nwProj st3).parent = st3.parent := rfl
  rw [eC, eB, eT, eP] at hnvs
  rw [eP] at hroot
  rw [eT, eP, eB] at hcond
  -- unpack the interval well-formedness of the settled state
  obtain ⟨hmid4, hblt4, hchT4, ht14⟩ := wfB_spec (nwProj st3) hwf4
  obtain ⟨⟨hnc4, hnb4, hnt4, hnp4⟩, hcp4, hpc4⟩ := wfMid_spec (nwProj st3) hmid4
  rw [eT] at ht14
  have hnt4x : (st3.time.map Prod.fst).Nodup := hnt4
  have hchT4x : ∀ p a b, PyD.get? st3.children p = some (a, b) →
      PyD.contains st3.time p = true ∧ PyD.contains st3.time a = true ∧
        PyD.contains st3.time b = true := fun p a b hg => hchT4 p a b hg
  have hdual4 : ∀ p a b, PyD.get? st3.children p = some (a, b) →
      PyD.get? st3.parent a = some p ∧ PyD.get? st3.parent b = some p ∧
        a ≠ b := fun p a b hg => hcp4 p a b hg
  have hblpar4 : ∀ c p, PyD.get? st3.parent c = some p →
      PyD.contains st3.branchLength c = true :=
    fun c p hg => (hblt4 c p hg).1
  have hrootless : PyD.get? st3.parent root = none :=
    findRoot_parless st3.parent _ 1 root hroot
  have hn1 : 1 ≤ n := by
    have h1m : (1 : Nat) ∈ st3.time.map Prod.fst := by
      rw [PyD.mem_keys_iff_get]
      exact ht14
    have hpos : 0 < st3.time.length := by
      have := List.length_pos_of_mem h1m
      rw [List.length_map] at this
      exact this
    omega
  -- the root is a forest node
  have hroottime : PyD.contains st3.time root = true := by
    rcases findRoot_reached st3.parent _ 1 root hroot with h1 | ⟨k, hk⟩
    · rw [h1]
      exact ht14
    · obtain ⟨a, b, hg, _⟩ := hpc4 k root hk
      exact (hchT4x root a b hg).1
  -- collection phase
  obtain ⟨nodes, hcoll, hndN, htimeN, hparN, hseqN, hrootN⟩ :=
    nwCollect_spec n st3.subtree st3.children st3.time st3.parent root
      hn1 hnt4x hcond.1 hchT4x hdual4 hrootless (6 * n + 2) [root] []
      (by simp only [List.length_cons, List.length_nil]; omega)
      (by simp)
      (by intro v hv
          simp only [List.append_nil, List.mem_singleton] at hv
          rw [hv]
          exact hroottime)
      (by intro u hu
          simp only [List.append_nil, List.mem_singleton] at hu
          exact .inl hu)
      (by intro l1 v l2 he
          cases l1 with
          | nil => cases he
          | cons x t => cases he)
      (.inl (List.mem_singleton.mpr rfl))
  -- build phase
  have hblroot : PyD.get? st3.children root = none →
      PyD.contains st3.branchLength root = true := by
    intro hchr
    rw [naive_unfold, hchr] at hnvs
    rw [PyD.contains]
    cases hblr : PyD.get? st3.branchLength root with
    | none =>
      simp only [Option.bind_eq_bind, hblr, Option.none_bind] at hnvs
      cases hnvs
    | some l => rfl
  obtain ⟨sub2, hbuild, hcorr2, hclo2, hft2, hnd2b, hmono2, hcover2⟩ :=
    nwBuildAll_spec root st3.children st3.branchLength st3.parent st3.time
      hrootless hblpar4 hblroot nodes.reverse st3.subtree
      hco3.2.2 hco3.1 hco3.2.1 hnd3
      (by intro t1 v t2 he a b hg
          have hsplit : nodes = t2.reverse ++ v :: t1.reverse := by
            have := congrArg List.reverse he
            simpa using this
          obtain ⟨h1, h2⟩ := hseqN t2.reverse v t1.reverse hsplit a b hg
          constructor
          · rcases h1 with h | h
            · exact .inl h
            · exact .inr (List.mem_reverse.mp h)
          · rcases h2 with h | h
            · exact .inl h
            · exact .inr (List.mem_reverse.mp h))
      (by intro v hv
          rw [List.mem_reverse] at hv
          exact ⟨htimeN v hv, hparN v hv⟩)
  -- the root's cached string
  have hrootc : PyD.contains sub2 root = true := by
    rcases hrootN with h | h
    · exact hcover2 root (List.mem_reverse.mpr h)
    · exact hmono2 root h
  obtain ⟨outs, houts⟩ := (PyD.contains_iff_get _ _).mp hrootc
  obtain ⟨F, hFr⟩ := hcorr2 root outs houts
  have houtsEq : outs = sNv :=
    naiveStr_unique st3.children st3.branchLength st3.parent F
      (st3.time.length + 1) root outs sNv hFr hnvs
  -- assemble the caching step
  refine ⟨{ st3 with subtree := sub2 }, ?_, ?_, ?_, ?_⟩
  · unfold nwNext
    simp only [bind, Except.bind]
    simp only [show orErr NwErr.keyErr (foldOpt applyOutRec st rout) =
      Except.ok st1 from by rw [hf1]; rfl]
    simp only [show orErr NwErr.keyErr
      (foldOpt (applyBL prec) (List.foldl applyInRec st1 rin) rin) =
      Except.ok st3 from by rw [hf3]; rfl]
    simp only [show orErr NwErr.rootLoop
      (findRoot st3.parent (st3.parent.length + 1) 1) =
      Except.ok root from by rw [hroot]; rfl]
    rw [if_pos hcond]
    simp only [show orErr NwErr.nodesOverflow
      (nwCollect n st3.subtree st3.children (6 * n + 2) [root] []) =
      Except.ok nodes from by rw [hcoll]; rfl]
    simp only [show orErr NwErr.keyErr (nwBuildAll root st3.children
      st3.branchLength st3.subtree nodes.reverse) =
      Except.ok sub2 from by rw [hbuild]; rfl]
    simp only [show orErr NwErr.keyErr (PyD.get? sub2 root) =
      Except.ok outs from by rw [houts]; rfl]
    rw [houtsEq]
  · rfl
  · exact ⟨hclo2, hft2, hcorr2⟩
  · exact hnd2b

/-- Whole-run refinement from any coherent caching state whose projection
passes the replayed validity check. -/
theorem run_refines (n prec : Nat) :
    ∀ (ds : List Diff) (st : NwState),
    streamOK n prec (nwProj st) ds = true →
    Coherent st → (st.subtree.map Prod.fst).Nodup →
    nwRunGo n prec st ds = nvRunGo n prec (nwProj st) ds := by
  intro ds
  induction ds with
  | nil => intro st _ _ _; rfl
  | cons d rest ih =>
    intro st hok hco hnd
    obtain ⟨len, rout, rin⟩ := d
    simp only [streamOK, Bool.and_eq_true] at hok
    obtain ⟨hchkout, hmatch⟩ := hok
    cases hf1n : foldOpt nvOutRec (nwProj st) (len, rout, rin).2.1 with
    | none =>
      rw [hf1n] at hmatch
      cases hmatch
    | some st1n =>
    rw [hf1n] at hmatch
    simp only [Bool.and_eq_true] at hmatch
    obtain ⟨hchkin, hmatch2⟩ := hmatch
    cases hnvx : nvNext n prec (nwProj st) (len, rout, rin) with
    | error e =>
      rw [hnvx] at hmatch2
      cases hmatch2
    | ok pr =>
    obtain ⟨y, st4n⟩ := pr
    rw [hnvx] at hmatch2
    simp only [Bool.and_eq_true] at hmatch2
    obtain ⟨hwf4, hrest⟩ := hmatch2
    obtain ⟨st4, hnw, hproj4, hco4, hnd4⟩ :=
      step_refines n prec st len rout rin y st1n st4n hco hnd
        hchkout hf1n hchkin hnvx hwf4
    simp only [nwRunGo, nvRunGo, bind, Except.bind]
    simp only [hnw, hnvx]
    rw [ih st4 (by rw [hproj4]; exact hrest) hco4 hnd4, hproj4]

/-- **C2**: on every diff stream accepted by the replayed validity check,
the caching `NewickGenerator` (eager ancestor invalidation in
`_propogate_subtree_loss`, post-order rebuild of only uncached subtrees in
`_update_subtrees`) yields exactly the `(interval_length, newick)` stream of
the naive cache-free builder that recomputes every interval's string from
scratch: no stale cache entry is ever consulted. -/
theorem claim2_newick_cache_refinement (n prec : Nat) (ds : List Diff)
    (hok : streamOK n prec (nvInit n) ds = true) :
    nwRun n prec ds = nvRun n prec ds := by
  have hco : Coherent (nwInit n) := by
    refine ⟨?_, ?_, ?_⟩
    · intro v a b hc _
      cases hc
    · intro v hc
      cases hc
    · intro v s hg
      cases hg
  have hnd : ((nwInit n).subtree.map Prod.fst).Nodup := List.nodup_nil
  exact run_refines n prec ds (nwInit n) hok hco hnd

set_option maxRecDepth 10000 in
/-- Witness for **C2**: a three-sample two-interval diff stream (one
coalescence pair replaced across the break, so the second interval
exercises retirement, cache invalidation and partial rebuild) passes the
validity replay, and the caching generator's output stream equals the
naive full-rebuild stream on it. -/
theorem claim2_witness :
    streamOK 3 3 (nvInit 3)
      [(4, [], [⟨1, 2, 4, 1⟩, ⟨4, 3, 5, 2⟩]),
       (6, [⟨1, 2, 4, 1⟩, ⟨4, 3, 5, 2⟩], [⟨1, 2, 6, 3⟩, ⟨6, 3, 7, 4⟩])] = true ∧
    nwRun 3 3
      [(4, [], [⟨1, 2, 4, 1⟩, ⟨4, 3, 5, 2⟩]),
       (6, [⟨1, 2, 4, 1⟩, ⟨4, 3, 5, 2⟩], [⟨1, 2, 6, 3⟩, ⟨6, 3, 7, 4⟩])] =
    nvRun 3 3
      [(4, [], [⟨1, 2, 4, 1⟩, ⟨4, 3, 5, 2⟩]),
       (6, [⟨1, 2, 4, 1⟩, ⟨4, 3, 5, 2⟩], [⟨1, 2, 6, 3⟩, ⟨6, 3, 7, 4⟩])] :=
  ⟨by decide, claim2_newick_cache_refinement 3 3 _ (by decide)⟩
